import Mathlib

/-!
# Verification of the BDPriceGear catalog-ingestion pipeline

Shallow embedding, in Lean 4, of the core logic of the BDPriceGear backend:

* `PriceNorm` — `normalize_price` from `products/utils/catalog_scraper.py`
  (identical copy in `products/utils/scraper.py`).
* `Crawl` — the paginated-crawl loops of `scrape_startech_catalog` and
  `scrape_ultratech_catalog` from `products/utils/catalog_scraper.py`.
* `Ingest` — `Command._save_product_batch` from
  `products/management/commands/populate_catalog.py`.
* `Parse` — the per-card field extraction of `scrape_startech`
  (`products/utils/scraper.py`) and `scrape_startech_catalog`
  (`products/utils/catalog_scraper.py`).
* `CacheM` — `SimpleCache` from `products/cache_manager.py`.
* `Compare` — the assembly/filter step of `price_comparison` from
  `products/views.py`.
* `URLNorm` — `normalize_product_url` from
  `products/management/commands/remove_duplicates.py`, together with the
  fragment of `urllib.parse` (`urlparse`, `parse_qs`, `urlencode`,
  `urlunparse`) that it calls.

Modelling conventions:

* Python `float` values are modelled as `Rat`; every concrete price in the
  repository's examples is exactly representable, and the code only ever
  compares prices for (in)equality.
* Python strings handled by `urllib.parse` are modelled as byte strings
  (`List (Fin 256)`); percent-encoding and -decoding operate on single
  bytes, i.e. the model is the Latin-1 / byte-string instance of the
  Python code (CPython additionally routes code points above 255 through
  UTF-8; that byte layer is abstracted here).
* Time (for the comparison cache's TTL) is an abstract rational clock.
* Hashing: `SimpleCache._generate_key` md5-hashes the normalised query;
  the model uses the normalised query itself as the key — two queries
  share an md5 key exactly when their normalised forms coincide.
-/

namespace PriceNorm

/-- A value returned by `normalize_price`: either a parsed float or a raw
string sentinel (the code returns the strings `"Out of Stock"` /
`"Out Of Stock"`, which every consumer treats as "no valid price" via
`isinstance(price, str)`). -/
inductive PriceVal where
  | num (q : Rat)
  | txt (s : String)
  deriving DecidableEq, Repr

/-- Character class of the regex `[\d\.,]+` in `normalize_price`
(ASCII digits, `.` and `,`). -/
def isPriceChar (c : Char) : Bool :=
  c.isDigit || c = '.' || c = ','

/-- `re.findall(r"[\d\.,]+", text)[0]`: the first maximal run of price
characters, if any. -/
def firstRun : List Char → Option (List Char)
  | [] => none
  | c :: rest =>
    if isPriceChar c then some (c :: rest.takeWhile isPriceChar)
    else firstRun rest

/-- Nat value of a digit string (digits assumed). -/
def digitsToNat (s : List Char) : Nat :=
  s.foldl (fun n c => 10 * n + (c.toNat - 48)) 0

/-- Python `float(s)` restricted to strings over digits and `.` (the only
characters that can reach it in `normalize_price` after commas are
removed): defined iff the string is nonempty, contains at least one digit,
and has at most one dot. -/
def pyFloatNum (s : List Char) : Option Rat :=
  if s.all (fun c => c.isDigit || c = '.') then
    match s.splitOn '.' with
    | [intPart] =>
      if intPart = [] then none else some (mkRat (digitsToNat intPart) 1)
    | [intPart, fracPart] =>
      if intPart = [] && fracPart = [] then none
      else some (mkRat
        (digitsToNat intPart * Nat.pow 10 fracPart.length + digitsToNat fracPart)
        (Nat.pow 10 fracPart.length))
    | _ => none
  else none

/-- `normalize_price` from `products/utils/catalog_scraper.py`:
extract the first run of `[\d\.,]`, drop commas, `float()` it; return
`"Out of Stock"` if no run exists and `"Out Of Stock"` if `float` fails. -/
def normalize_price (text : String) : PriceVal :=
  match firstRun text.toList with
  | none => .txt "Out of Stock"
  | some run =>
    match pyFloatNum (run.filter (fun c => c ≠ ',')) with
    | some q => .num q
    | none => .txt "Out Of Stock"

end PriceNorm

namespace Py

/-- Python `str` whitespace (ASCII part): the characters removed by
`str.strip()`. -/
def isPyWS (c : Char) : Bool :=
  c = ' ' || c = '\t' || c = '\n' || c = '\x0d' || c = '\x0b' || c = '\x0c'

/-- Python `s.strip()` (ASCII whitespace). -/
def pyStrip (s : String) : String :=
  ⟨(((s.toList.dropWhile isPyWS).reverse.dropWhile isPyWS).reverse)⟩

/-- Python `s.lower()` (ASCII range; the queries and price texts handled by
the repository are ASCII). -/
def pyLower (s : String) : String :=
  ⟨s.toList.map Char.toLower⟩

/-- Python `s[:n]`: the first `n` code points (all of `s` when it is
shorter). -/
def pyTake (n : Nat) (s : String) : String :=
  ⟨s.toList.take n⟩

end Py

namespace Crawl

/-- Result of one `requests.get` + parse for one listing page: either the
list of parsed cards, or a transient error
(`requests.Timeout` / `requests.ConnectionError`). -/
inductive Page (α : Type) where
  | ok (items : List α)
  | err
  deriving DecidableEq

/-- The `while page <= max_pages` loop of `scrape_startech_catalog`
(`catalog_scraper.py` lines 50–93).  `fetch p` is the outcome of the single
`requests.get` for page `p` (the adapter makes exactly one request per page;
on error the code does `consecutive_empty += 1` and moves on).  Returns the
collected items together with the trace of page numbers actually fetched.
`fuel` bounds the recursion; every iteration increments `page`, so
`maxPages + 1` fuel is always enough. -/
def stLoop (fetch : Nat → Page α) (maxPages : Nat) :
    Nat → Nat → Nat → List α × List Nat
  | 0, _, _ => ([], [])
  | fuel + 1, page, consec =>
    if maxPages < page then ([], [])
    else
      match fetch page with
      | .err =>
        -- consecutive_empty += 1; if >= 2: break; page += 1; continue
        if 2 ≤ consec + 1 then ([], [page])
        else
          let r := stLoop fetch maxPages fuel (page + 1) (consec + 1)
          (r.1, page :: r.2)
      | .ok items =>
        if items.isEmpty then
          if 2 ≤ consec + 1 then ([], [page])
          else
            let r := stLoop fetch maxPages fuel (page + 1) (consec + 1)
            (r.1, page :: r.2)
        else
          -- consecutive_empty = 0; products.extend(...); page += 1
          let r := stLoop fetch maxPages fuel (page + 1) 0
          (items ++ r.1, page :: r.2)

/-- `scrape_startech_catalog(category, max_pages)`: run the page loop from
page 1 with `consecutive_empty = 0`. -/
def scrape_startech_catalog (fetch : Nat → Page α) (maxPages : Nat) :
    List α × List Nat :=
  stLoop fetch maxPages (maxPages + 1) 1 0

/-- The `for attempt in range(max_retries)` retry loop of
`scrape_ultratech_catalog` (`catalog_scraper.py` lines 287–308) for one
page.  `tries a` is the outcome of attempt `a` for this page.  Returns
`(response?, attempts made, sleeps performed)`: on an error with attempts
left the code does `time.sleep(2)` (a fixed two-second pause) and retries;
after the last failed attempt it gives up without sleeping. -/
def ultraRetryGo (tries : Nat → Page β) : Nat → Nat → Option (List β) × Nat × List Nat
  | _, 0 => (none, 0, [])
  | attempt, r + 1 =>
    match tries attempt with
    | .ok resp => (some resp, 1, [])
    | .err =>
      if r = 0 then (none, 1, [])
      else
        let rest := ultraRetryGo tries (attempt + 1) r
        (rest.1, rest.2.1 + 1, 2 :: rest.2.2)

/-- UltraTech's per-page fetch with `max_retries = 3`. -/
def ultraFetchPage (tries : Nat → Page β) : Option (List β) × Nat × List Nat :=
  ultraRetryGo tries 0 3

/-- Outcome of one `requests.get` attempt in `scrape_skyland_catalog`:
parsed cards after a 2xx response, a `requests.exceptions.Timeout`, or any
other exception (a connection error, or a non-2xx status raised by
`raise_for_status`). -/
inductive Attempt (α : Type) where
  | ok (items : List α)
  | timeout
  | fail
  deriving DecidableEq

/-- The `try/except` ladder of `scrape_skyland_catalog` for one page
(`catalog_scraper.py` lines 119–133): attempt `t0` with `timeout=30`; only
a `Timeout` triggers the single retry `t1` with `timeout=45` (no sleep,
no further retries); any non-timeout exception on `t0`, and any exception
at all on `t1`, is the `break` path.  Returns the page's items (`none` =
`break`) and the number of requests made for this page. -/
def skyFetch : Attempt α → Attempt α → Option (List α) × Nat
  | .ok items, _ => (some items, 1)
  | .fail, _ => (none, 1)
  | .timeout, .ok items => (some items, 2)
  | .timeout, .timeout => (none, 2)
  | .timeout, .fail => (none, 2)

/-- The `while page <= max_pages` loop of `scrape_skyland_catalog`:
`fetch p` is the pair of attempt outcomes for page `p`.  A `break` outcome
terminates the whole crawl (the products collected so far are returned);
an empty page follows the same consecutive-empty rule as StarTech.
Returns the collected items and the trace of pages fetched. -/
def skyLoop (fetch : Nat → Attempt α × Attempt α) (maxPages : Nat) :
    Nat → Nat → Nat → List α × List Nat
  | 0, _, _ => ([], [])
  | fuel + 1, page, consec =>
    if maxPages < page then ([], [])
    else
      match (skyFetch (fetch page).1 (fetch page).2).1 with
      | none => ([], [page])
      | some items =>
        if items.isEmpty then
          if 2 ≤ consec + 1 then ([], [page])
          else
            let r := skyLoop fetch maxPages fuel (page + 1) (consec + 1)
            (r.1, page :: r.2)
        else
          let r := skyLoop fetch maxPages fuel (page + 1) 0
          (items ++ r.1, page :: r.2)

/-- `scrape_skyland_catalog(category, max_pages)`: run the page loop from
page 1 with `consecutive_empty = 0`. -/
def scrape_skyland_catalog (fetch : Nat → Attempt α × Attempt α)
    (maxPages : Nat) : List α × List Nat :=
  skyLoop fetch maxPages (maxPages + 1) 1 0

end Crawl

namespace URLNorm

/-- URLs are modelled as byte strings (see the header comment). -/
abbrev Byte := Fin 256

abbrev BStr := List Byte

/-- Byte from a code point (mod 256: the Latin-1 / byte-string instance). -/
def bOf (n : Nat) : Byte := ⟨n % 256, Nat.mod_lt _ (by norm_num)⟩

/-- Byte string of a Lean string literal (for concrete test URLs; all of
them are ASCII). -/
def bs (s : String) : BStr := s.toList.map (fun c => bOf c.toNat)

/-- Back to a Lean string (Latin-1). -/
def toStr (u : BStr) : String := ⟨u.map (fun b => Char.ofNat b.val)⟩

def isAlphaB (b : Byte) : Bool :=
  (decide (65 ≤ b.val) && decide (b.val ≤ 90)) ||
  (decide (97 ≤ b.val) && decide (b.val ≤ 122))

def isDigitB (b : Byte) : Bool := decide (48 ≤ b.val) && decide (b.val ≤ 57)

/-- `scheme_chars` of `urllib.parse`: letters, digits, `+`, `-`, `.`. -/
def isSchemeCharB (b : Byte) : Bool :=
  isAlphaB b || isDigitB b || decide (b.val = 43) || decide (b.val = 45) ||
  decide (b.val = 46)

/-- `str.lower` on one byte (ASCII range). -/
def lowerByte (b : Byte) : Byte :=
  if 65 ≤ b.val ∧ b.val ≤ 90 then bOf (b.val + 32) else b

def lowerB (s : BStr) : BStr := s.map lowerByte

/-- `_ALWAYS_SAFE` of `urllib.parse` (`quote` with `safe=''`):
letters, digits, `_`, `.`, `-`, `~`. -/
def isSafeB (b : Byte) : Bool :=
  isAlphaB b || isDigitB b || decide (b.val = 95) || decide (b.val = 46) ||
  decide (b.val = 45) || decide (b.val = 126)

def isHexDigitB (b : Byte) : Bool :=
  isDigitB b || (decide (65 ≤ b.val) && decide (b.val ≤ 70)) ||
  (decide (97 ≤ b.val) && decide (b.val ≤ 102))

def hexVal (b : Byte) : Nat :=
  if isDigitB b then b.val - 48
  else if 97 ≤ b.val then b.val - 87
  else b.val - 55

def hexByte (h1 h2 : Byte) : Byte := bOf (16 * hexVal h1 + hexVal h2)

/-- Uppercase hex digit of a value `< 16` (the `'%%%02X'` format of
`quote`). -/
def hexDigitU (n : Nat) : Byte := if n < 10 then bOf (48 + n) else bOf (55 + n)

/-- Split a byte string at the first occurrence of `c`
(`s.split(c, 1)`-style; `none` when `c` does not occur). -/
def splitAtFirst (c : Byte) : BStr → BStr × Option BStr
  | [] => ([], none)
  | b :: rest =>
    if b = c then ([], some rest)
    else
      let r := splitAtFirst c rest
      (b :: r.1, r.2)

/-- Split at the last occurrence of `c` (`rfind`-style). -/
def splitAtLast (c : Byte) (s : BStr) : Option (BStr × BStr) :=
  match splitAtFirst c s.reverse with
  | (_, none) => none
  | (revTail, some revInit) => some (revInit.reverse, revTail.reverse)

def containsB (c : Byte) (s : BStr) : Bool := s.any (fun b => decide (b = c))

/-- The sanitisation at the top of `urlsplit`: strip leading
C0-control/space bytes, then remove every tab, CR and LF
(`_WHATWG_C0_CONTROL_OR_SPACE` / `_UNSAFE_URL_BYTES_TO_REMOVE`). -/
def cleanUrl (s : BStr) : BStr :=
  (s.dropWhile (fun b => decide (b.val ≤ 32))).filter
    (fun b => !(decide (b.val = 9) || decide (b.val = 10) || decide (b.val = 13)))

/-- Scheme detection of `urlsplit`: split at the first `:` when the part
before it is nonempty, starts with a letter and consists of scheme
characters; the scheme is lowercased. -/
def splitScheme (u : BStr) : BStr × BStr :=
  match splitAtFirst 58 u with
  | (before, some after) =>
    match before with
    | [] => ([], u)
    | b0 :: restB =>
      if isAlphaB b0 && restB.all isSchemeCharB then (lowerB before, after)
      else ([], u)
  | (_, none) => ([], u)

/-- Delimiters ending the netloc (`_splitnetloc` scans for `/?#`). -/
def netDelim (b : Byte) : Bool :=
  decide (b.val = 47) || decide (b.val = 63) || decide (b.val = 35)

/-- `_splitnetloc`: when the url starts with `//`, the netloc runs to the
next `/`, `?` or `#`. -/
def splitNetloc (u : BStr) : Option (BStr × BStr) :=
  match u with
  | a :: b :: rest =>
    if decide (a = (47 : Byte)) && decide (b = (47 : Byte)) then
      some (rest.takeWhile (fun x => !netDelim x), rest.dropWhile (fun x => !netDelim x))
    else none
  | _ => none

/-- Split on every occurrence of `c` (Python `s.split(c)`;
the empty string yields `[""]`). -/
def splitAllB (c : Byte) : BStr → List BStr
  | [] => [[]]
  | b :: rest =>
    let r := splitAllB c rest
    if b = c then [] :: r
    else
      match r with
      | h :: t => (b :: h) :: t
      | [] => [[b]]

/-- Value of a decimal octet string (digits assumed). -/
def octetVal (s : BStr) : Nat := s.foldl (fun n b => 10 * n + (b.val - 48)) 0

/-- `ipaddress.IPv4Address._parse_octet`: nonempty, decimal digits only, at
most 3 characters, no leading zero, value ≤ 255. -/
def octetOk (s : BStr) : Bool :=
  match s with
  | [] => false
  | [b] => isDigitB b
  | b :: rest =>
    isDigitB b && rest.all isDigitB && decide (s.length ≤ 3) &&
    decide (b ≠ (48 : Byte)) && decide (octetVal s ≤ 255)

/-- `ipaddress.IPv4Address._ip_int_from_string`: exactly four valid
octets. -/
def ipv4Ok (s : BStr) : Bool :=
  match splitAllB 46 s with
  | [a, b, c, d] => octetOk a && octetOk b && octetOk c && octetOk d
  | _ => false

/-- `ipaddress.IPv6Address._parse_hextet`: hex digits only, nonempty, at
most 4 characters. -/
def hextetOk (s : BStr) : Bool :=
  decide (s ≠ []) && s.all isHexDigitB && decide (s.length ≤ 4)

/-- `ipaddress.IPv6Address._ip_int_from_string` as a validity predicate:
split on `:`, convert a dotted IPv4 suffix into two hextets, allow one `::`
run, check every remaining hextet. -/
def ipv6AddrOk (s : BStr) : Bool :=
  if s = [] then false
  else
    let parts0 := splitAllB 58 s
    if decide (parts0.length < 3) then false
    else
      let lastPart := parts0.getLastD []
      let partsOpt : Option (List BStr) :=
        if containsB 46 lastPart then
          if ipv4Ok lastPart then some (parts0.dropLast ++ [[48], [48]]) else none
        else some parts0
      match partsOpt with
      | none => false
      | some parts =>
        if decide (9 < parts.length) then false
        else
          let innerEmpt := (List.range parts.length).filter
            (fun i => decide (1 ≤ i) && decide (i + 1 < parts.length) &&
                      decide (parts.getD i [37] = []))
          match innerEmpt with
          | [] =>
            decide (parts.length = 8) && parts.all hextetOk
          | [i] =>
            let hiOpt : Option Nat :=
              if parts.getD 0 [37] = [] then
                (if i = 1 then some 0 else none)
              else some i
            let loOpt : Option Nat :=
              if parts.getLastD [37] = [] then
                (if parts.length = i + 2 then some 0 else none)
              else some (parts.length - i - 1)
            match hiOpt, loOpt with
            | some hi, some lo =>
              decide (hi + lo + 1 ≤ 8) &&
              (parts.take hi).all hextetOk &&
              (parts.drop (parts.length - lo)).all hextetOk
            | _, _ => false
          | _ => false

/-- `IPv6Address._split_scope_id` plus address check: an optional nonempty
`%scope` (itself free of `%`) after a valid IPv6 address. -/
def ipv6WithScopeOk (s : BStr) : Bool :=
  match splitAtFirst 37 s with
  | (addr, none) => ipv6AddrOk addr
  | (addr, some scope) =>
    decide (scope ≠ []) && !containsB 37 scope && ipv6AddrOk addr

/-- Tail of the IPvFuture regex `\Av[a-fA-F0-9]+\..+\Z` after the first hex
digit: more hex digits, then a dot followed by at least one character. -/
def futTail : BStr → Bool
  | [] => false
  | b :: rest =>
    if b = (46 : Byte) then decide (rest ≠ []) else isHexDigitB b && futTail rest

/-- The IPvFuture branch of `_check_bracketed_host`. -/
def ipvFutureOk (s : BStr) : Bool :=
  match s with
  | v :: h :: rest => decide (v = (118 : Byte)) && isHexDigitB h && futTail rest
  | _ => false

/-- `urllib.parse._check_bracketed_host` (CPython 3.11) as a validity
predicate: hostnames starting with `v` must match the IPvFuture pattern;
otherwise the hostname must be a valid IPv6 address (IPv4 addresses in
brackets are rejected, as is anything else `ipaddress.ip_address`
rejects). -/
def bracketedHostOk (h : BStr) : Bool :=
  match h with
  | [] => false
  | b :: _ =>
    if b = (118 : Byte) then ipvFutureOk h
    else if ipv4Ok h then false
    else ipv6WithScopeOk h

/-- `netloc.partition('[')[2].partition(']')[0]`. -/
def bracketHostname (nl : BStr) : BStr :=
  match splitAtFirst 91 nl with
  | (_, some after) => (splitAtFirst 93 after).1
  | (_, none) => []

/-- Result of `urlparse` (the fragment is dropped by
`normalize_product_url`, which rebuilds with fragment `''`). -/
structure PR where
  scheme : BStr
  netloc : BStr
  path : BStr
  params : BStr
  query : BStr
  deriving DecidableEq, Repr

/-- The `uses_params` scheme list of `urllib.parse`. -/
def uses_params : List BStr :=
  [[], bs "ftp", bs "hdl", bs "prospero", bs "http", bs "imap", bs "https",
   bs "shttp", bs "rtsp", bs "rtsps", bs "rtspu", bs "sip", bs "sips",
   bs "mms", bs "sftp", bs "tel"]

def inUsesParams (scheme : BStr) : Bool :=
  uses_params.any (fun e => decide (e = scheme))

/-- `_splitparams` (plus the `';' in url` guard of `urlparse`): split the
path's last segment at its first `;`. -/
def splitParams (p0 : BStr) : BStr × BStr :=
  if containsB 59 p0 then
    match splitAtLast 47 p0 with
    | some (a, b) =>
      match splitAtFirst 59 b with
      | (b1, some b2) => (a ++ 47 :: b1, b2)
      | (_, none) => (p0, [])
    | none =>
      match splitAtFirst 59 p0 with
      | (a1, some a2) => (a1, a2)
      | (_, none) => (p0, [])
  else (p0, [])

/-- `urllib.parse.urlparse` (CPython 3.11), returning `none` on the
`ValueError`s raised for a netloc with unbalanced `[`/`]` or an invalid
bracketed host (the `except` branch of `normalize_product_url` then
returns the input unchanged). -/
def pyUrlparse (url0 : BStr) : Option PR :=
  let url1 := cleanUrl url0
  let s1 := splitScheme url1
  let scheme := s1.1
  let netRest : Option (BStr × BStr) :=
    match splitNetloc s1.2 with
    | some (nl, r) =>
      if (containsB 91 nl && !containsB 93 nl) ||
         (containsB 93 nl && !containsB 91 nl) then none
      else if containsB 91 nl && containsB 93 nl then
        (if bracketedHostOk (bracketHostname nl) then some (nl, r) else none)
      else some (nl, r)
    | none => some ([], s1.2)
  match netRest with
  | none => none
  | some (netloc, url3) =>
    let url4 := (splitAtFirst 35 url3).1
    let pq := splitAtFirst 63 url4
    let query := match pq.2 with | some q => q | none => []
    let pp := if inUsesParams scheme then splitParams pq.1 else (pq.1, [])
    some ⟨scheme, netloc, pp.1, pp.2, query⟩

/-- `unquote_plus` on byte strings: `+` becomes space, `%XX` with two hex
digits becomes the byte `XX`, everything else is literal. -/
def unquotePlus : BStr → BStr
  | [] => []
  | b :: h1 :: h2 :: rest2 =>
    if b = (43 : Byte) then 32 :: unquotePlus (h1 :: h2 :: rest2)
    else if b = (37 : Byte) ∧ isHexDigitB h1 ∧ isHexDigitB h2 then
      hexByte h1 h2 :: unquotePlus rest2
    else b :: unquotePlus (h1 :: h2 :: rest2)
  | b :: rest =>
    if b = (43 : Byte) then 32 :: unquotePlus rest else b :: unquotePlus rest

/-- `quote_plus` with `safe=''` on one byte: safe bytes are literal, space
becomes `+`, everything else becomes `%XX` (uppercase hex). -/
def quoteByte (b : Byte) : BStr :=
  if isSafeB b then [b]
  else if b.val = 32 then [43]
  else [37, hexDigitU (b.val / 16), hexDigitU (b.val % 16)]

def quotePlus (s : BStr) : BStr := (s.map quoteByte).flatten

/-- One `name=value` field of `parse_qsl` (`keep_blank_values=False`):
fields without `=` and fields with an empty value are dropped; name and
value are `unquote_plus`d. -/
def qslPair (nv : BStr) : Option (BStr × BStr) :=
  if nv = [] then none
  else
    match splitAtFirst 61 nv with
    | (_, none) => none
    | (n, some v) =>
      if v = [] then none else some (unquotePlus n, unquotePlus v)

/-- `parse_qsl(qs)` with the default separator `&`. -/
def parseQsl (qs : BStr) : List (BStr × BStr) :=
  (splitAllB 38 qs).filterMap qslPair

/-- Insertion into the `parse_qs` result dict: append to an existing key,
else add the key at the end (Python dicts preserve insertion order). -/
def qsInsert (acc : List (BStr × List BStr)) (k : BStr) (v : BStr) :
    List (BStr × List BStr) :=
  match acc with
  | [] => [(k, [v])]
  | (k', vs) :: t =>
    if k' = k then (k', vs ++ [v]) :: t else (k', vs) :: qsInsert t k v

/-- `parse_qs(qs)` as an insertion-ordered association list. -/
def parseQs (qs : BStr) : List (BStr × List BStr) :=
  (parseQsl qs).foldl (fun acc p => qsInsert acc p.1 p.2) []

/-- The fixed exclude-list of `normalize_product_url`. -/
def params_to_remove : List BStr :=
  [bs "page", bs "search", bs "q", bs "keyword", bs "sort", bs "order", bs "limit"]

/-- `k.lower() not in params_to_remove`. -/
def keepParam (k : BStr) : Bool :=
  !(params_to_remove.any (fun e => decide (e = lowerB k)))

def filterParams (l : List (BStr × List BStr)) : List (BStr × List BStr) :=
  l.filter (fun kv => keepParam kv.1)

def joinAmp : List BStr → BStr
  | [] => []
  | [x] => x
  | x :: y :: t => x ++ 38 :: joinAmp (y :: t)

/-- `urlencode(d, doseq=True)`: one `quote_plus(k)=quote_plus(v)` field per
value, in dict order, joined by `&`. -/
def urlencodeSeq (l : List (BStr × List BStr)) : BStr :=
  joinAmp ((l.map (fun kv => kv.2.map (fun v => quotePlus kv.1 ++ 61 :: quotePlus v))).flatten)

def starts2Slash (s : BStr) : Bool :=
  match s with
  | a :: b :: _ => decide (a = (47 : Byte)) && decide (b = (47 : Byte))
  | _ => false

def startsSlash (s : BStr) : Bool :=
  match s with
  | a :: _ => decide (a = (47 : Byte))
  | _ => false

/-- The `uses_netloc` scheme list of `urllib.parse` (CPython 3.11). -/
def uses_netloc : List BStr :=
  [[], bs "ftp", bs "http", bs "gopher", bs "nntp", bs "telnet", bs "imap",
   bs "wais", bs "file", bs "mms", bs "https", bs "shttp", bs "snews",
   bs "prospero", bs "rtsp", bs "rtsps", bs "rtspu", bs "rsync", bs "svn",
   bs "svn+ssh", bs "sftp", bs "nfs", bs "git", bs "git+ssh", bs "ws", bs "wss"]

def inUsesNetloc (scheme : BStr) : Bool :=
  uses_netloc.any (fun e => decide (e = scheme))

/-- `urlunparse((scheme, netloc, path, params, query, ''))` via
`urlunsplit` (CPython 3.11: the `//` is re-added when a netloc is present,
or when the scheme customarily uses a netloc and the path does not already
start with `//`). -/
def urlunparse (scheme netloc path params query : BStr) : BStr :=
  let u1 := if params = [] then path else path ++ 59 :: params
  let u2 :=
    if netloc ≠ [] ∨ (scheme ≠ [] ∧ inUsesNetloc scheme ∧ ¬starts2Slash u1) then
      let u1' := if u1 ≠ [] ∧ ¬startsSlash u1 then 47 :: u1 else u1
      47 :: 47 :: (netloc ++ u1')
    else u1
  let u3 := if scheme = [] then u2 else scheme ++ 58 :: u2
  if query = [] then u3 else u3 ++ 63 :: query

/-- `normalize_product_url` from
`products/management/commands/remove_duplicates.py` (the copy imported by
`populate_catalog.py`): parse, drop query parameters whose lowercased name
is in the exclude-list, re-encode, rebuild without fragment; return the
input unchanged when it is empty or parsing raises. -/
def normalize_product_url (url : BStr) : BStr :=
  if url = [] then url
  else
    match pyUrlparse url with
    | none => url
    | some p =>
      let fp := filterParams (parseQs p.query)
      let nq := if fp = [] then [] else urlencodeSeq fp
      urlunparse p.scheme p.netloc p.path p.params nq

/-- `normalize_product_url` lifted to Lean strings (Latin-1), as used by
the ingestion model. -/
def normStr (s : String) : String := toStr (normalize_product_url (bs s))

end URLNorm

namespace Ingest

/-- `stock_status` values used by `_save_product_batch`. -/
inductive StockStatus where
  | in_stock
  | out_of_stock
  deriving DecidableEq, Repr

/-- The `price` field of a scraped product dict: a parsed float, a string
sentinel such as `"Out Of Stock"`, or Python `None` (`dict.get` miss). -/
inductive ScrapedPrice where
  | num (q : Rat)
  | str (s : String)
  | none
  deriving DecidableEq, Repr

/-- One scraped product dict as consumed by `_save_product_batch`
(`populate_catalog.py`): `{name, price, img, link}` (the `id` field is
never read by the saver). -/
structure Item where
  name : String
  price : ScrapedPrice
  img : String
  link : String
  deriving DecidableEq, Repr

/-- A `Product` row of this shop, restricted to the fields
`_save_product_batch` reads or writes.  The shop is fixed: all lookups in
the code filter on `shop=shop`, and `(shop, product_url)` is
`unique_together` (`products/models.py`). -/
structure Product where
  id : Nat
  name : String
  product_url : String
  category : String
  image_url : String
  current_price : Rat
  stock_status : StockStatus
  is_available : Bool
  deriving DecidableEq, Repr

/-- A `PriceHistory` row (`recorded_at` is the batch's single `now` and is
abstracted away). -/
structure HistoryRow where
  product_id : Nat
  price : Rat
  stock_status : StockStatus
  deriving DecidableEq, Repr

/-- The persisted state for one shop: product rows, append-only history,
and the id the database would assign to the next inserted row. -/
structure DB where
  products : List Product
  history : List HistoryRow
  nextId : Nat
  deriving DecidableEq, Repr

/-- Well-formedness the database guarantees: ids are below the id counter
and `(shop, product_url)` is unique. -/
def DB.WF (db : DB) : Prop :=
  (∀ p ∈ db.products, p.id < db.nextId) ∧
  (db.products.map (fun p => p.product_url)).Nodup

/-- `if not raw_url or raw_url in ['#', 'Link not found', '']`. -/
def validLink (raw : String) : Bool :=
  !(raw = "" || raw = "#" || raw = "Link not found")

/-- `isinstance(price, str) or price == 0 or price is None`. -/
def priceInvalid : ScrapedPrice → Bool
  | .num q => decide (q = 0)
  | .str _ => true
  | .none => true

/-- `current_price` as computed by the classification block: 0 whenever
the price is invalid, else the scraped float. -/
def currentPriceOf (p : ScrapedPrice) : Rat :=
  if priceInvalid p then 0 else match p with | .num q => q | _ => 0

/-- `stock_status` from the classification block. -/
def stockOf (p : ScrapedPrice) : StockStatus :=
  if priceInvalid p then .out_of_stock else .in_stock

/-- `is_available` from the classification block. -/
def availOf (p : ScrapedPrice) : Bool := !priceInvalid p

/-- The `Product(...)` constructed on the create path (pk unset until
`bulk_create`). -/
def mkNew (it : Item) (category url : String) : Product :=
  { id := 0
    name := Py.pyTake 500 it.name
    product_url := url
    category := category
    image_url := it.img
    current_price := currentPriceOf it.price
    stock_status := stockOf it.price
    is_available := availOf it.price }

/-- Mutable per-batch accumulator mirroring the local variables of
`_save_product_batch`. -/
structure BatchState where
  urls_in_batch : List String
  to_create : List Product
  to_update : List (Nat × Product)
  price_histories : List HistoryRow
  created_count : Nat
  updated_count : Nat
  deriving Repr

/-- `existing_by_url`: the products of this shop whose `product_url` is
among this batch's normalized urls.  The url list is only a filter; with a
well-formed db the first match is the unique one. -/
def existingByUrl (db : DB) (urls : List String) (u : String) : Option Product :=
  if urls.contains u then db.products.find? (fun p => p.product_url = u) else none

/-- The current in-memory value of an existing product object: Python
mutates the object held in the `existing_by_url` dict, so a duplicate url
later in the batch sees the previous mutation.  The latest pending update
for the id, if any, else the row read from the db. -/
def currentObj (st : BatchState) (p : Product) : Product :=
  match (st.to_update.filter (fun kv => kv.1 = p.id)).getLast? with
  | some kv => kv.2
  | none => p

/-- The per-item body of the `for product_data in batch` loop. -/
def processItem (db : DB) (urls : List String) (category : String)
    (st : BatchState) (it : Item) : BatchState :=
  if ¬ validLink it.link then st
  else
    let product_url := URLNorm.normStr it.link
    if st.urls_in_batch.contains product_url ∧
       (existingByUrl db urls product_url).isNone then st
    else
      let st := { st with urls_in_batch := product_url :: st.urls_in_batch }
      match existingByUrl db urls product_url with
      | some ex0 =>
        let ex := currentObj st ex0
        -- field assignments on the shared object, then the comparison —
        -- which reads the just-assigned current_price
        let upd : Product :=
          { ex with
            name := Py.pyTake 500 it.name
            category := category
            image_url := it.img
            current_price := currentPriceOf it.price
            stock_status := stockOf it.price
            is_available := availOf it.price }
        let st := { st with
          to_update := st.to_update ++ [(ex.id, upd)]
          updated_count := st.updated_count + 1 }
        if upd.current_price ≠ currentPriceOf it.price then
          { st with price_histories := st.price_histories ++
              [⟨ex.id, currentPriceOf it.price, stockOf it.price⟩] }
        else st
      | none =>
        { st with
          to_create := st.to_create ++ [mkNew it category product_url]
          created_count := st.created_count + 1 }

/-- `bulk_update`: write each pending object value back by id (the same
object may appear twice; later writes of the same final value are
idempotent). -/
def applyUpdates (prods : List Product) (ups : List (Nat × Product)) :
    List Product :=
  ups.foldl (fun ps kv => ps.map (fun p => if p.id = kv.1 then kv.2 else p)) prods

/-- `Command._save_product_batch(batch, shop, category)` from
`populate_catalog.py`: normalize urls, fetch existing rows for the batch,
loop over the items (skipping in-batch duplicates of urls that are not
already persisted), then `bulk_create` with fresh ids, `bulk_update`, and
append the collected history rows.  The baseline-`PriceHistory` loop over
`created_products` is dead code: `bulk_create(..., ignore_conflicts=True)`
does not set `pk` on the returned instances, so its `if product.pk:`
guard is always false and no baseline row is ever appended.  Returns the
new state and `(created, updated)`. -/
def save_product_batch (batch : List Item) (category : String) (db : DB) :
    DB × Nat × Nat :=
  let product_urls := batch.filterMap
    (fun p => if validLink p.link then some (URLNorm.normStr p.link) else none)
  let urls0 := product_urls.filter
    (fun u => (db.products.find? (fun p => p.product_url = u)).isSome)
  let st0 : BatchState := ⟨urls0, [], [], [], 0, 0⟩
  let st := batch.foldl (processItem db product_urls category) st0
  let created := st.to_create.enum.map
    (fun ip => { ip.2 with id := db.nextId + ip.1 })
  let db' : DB :=
    { products := applyUpdates db.products st.to_update ++ created
      history := db.history ++ st.price_histories
      nextId := db.nextId + created.length }
  (db', st.created_count, st.updated_count)

end Ingest

namespace Parse

/-- An element matched by a CSS selector, as the card parsers read it: its
text content, and the one attribute the adapter reads from it (`src` /
`href`).  `attr = none` models the element *lacking* that attribute:
Python `elem["attr"]` raises `KeyError` there, while `elem.get(...)` and
`has_attr(...)` do not. -/
structure Elem where
  text : String
  attr : Option String
  deriving DecidableEq, Repr

/-- One listing card as seen by an adapter after the CSS selectors ran:
each field is the matched element, or `none` when the selector matched
nothing (`select_one` returned `None`). -/
structure Card where
  name : Option Elem
  price : Option Elem
  img : Option Elem
  link : Option Elem
  deriving DecidableEq, Repr

/-- A product dict emitted by an adapter (the random `id` field is
abstracted away). -/
structure ProductDict where
  name : String
  price : PriceNorm.PriceVal
  img : String
  link : String
  deriving DecidableEq, Repr

/-- `s.startswith(('http://', 'https://'))`. -/
def startsHttp (s : String) : Bool :=
  s.startsWith "http://" || s.startsWith "https://"

/-- `elem["attr"] if elem else dflt`: the subscript raises `KeyError`
(`none`) when the element is present without the attribute. -/
def subscriptOr (o : Option Elem) (dflt : String) : Option String :=
  match o with
  | some e => e.attr
  | none => some dflt

/-- `elem.text.strip() if elem else dflt` (also `get_text(strip=True)`):
total, never raises. -/
def textOr (o : Option Elem) (dflt : String) : String :=
  match o with
  | some e => Py.pyStrip e.text
  | none => dflt

/-- `normalize_price(elem.text.strip()) if elem else dflt`. -/
def priceOr (o : Option Elem) (dflt : PriceNorm.PriceVal) :
    PriceNorm.PriceVal :=
  match o with
  | some e => PriceNorm.normalize_price (Py.pyStrip e.text)
  | none => dflt

/-- `elem.get("attr", dflt) if elem else dflt`: total, never raises. -/
def attrOr (o : Option Elem) (dflt : String) : String :=
  match o with
  | some e => e.attr.getD dflt
  | none => dflt

/-- `join(elem["attr"]) if elem and elem.has_attr("attr") else dflt`:
total, never raises (`has_attr` guards the subscript). -/
def joinAttrOr (join : String → String) (o : Option Elem) (dflt : String) :
    String :=
  match o with
  | some e =>
    match e.attr with
    | some h => join h
    | none => dflt
  | none => dflt

/-- `join(elem["attr"]) if elem else dflt`: the unguarded subscript raises
`KeyError` (`none`) when the element is present without the attribute. -/
def joinSubscriptOr (join : String → String) (o : Option Elem)
    (dflt : String) : Option String :=
  match o with
  | some e => (e.attr).map join
  | none => some dflt

/-- The per-card body of `scrape_startech` (`products/utils/scraper.py`
lines 104–116, the on-demand adapter): every card is appended with a
missing *element* replaced by its sentinel — but `img["src"]` /
`link["href"]` are subscripts, so an img/link element present *without*
its attribute raises `KeyError` (`none`), which the function's single
outer `try` turns into an aborted page. -/
def startechItem (c : Card) : Option ProductDict :=
  match subscriptOr c.img "Image not found",
        subscriptOr c.link "Link not found" with
  | some img, some link =>
    some { name := textOr c.name "Name not found"
           price := priceOr c.price (.txt "Out Of Stock")
           img := img
           link := link }
  | _, _ => none

/-- The page loop of `scrape_startech`: the cards are processed in order
inside the function's single `try`; a `KeyError` (`none`) from any card
aborts the whole page — the outer `except` returns a fresh
`{"products": [], "logo": "logo not found"}`, so even the cards already
parsed are lost. -/
def scrape_startech_items : List Card → Option (List ProductDict)
  | [] => some []
  | c :: rest =>
    match startechItem c with
    | none => none
    | some d =>
      match scrape_startech_items rest with
      | none => none
      | some ds => some (d :: ds)

/-- The per-card body of `scrape_startech_catalog`
(`products/utils/catalog_scraper.py` lines 77–90, the catalog adapter):
`if name and link:` — a card missing its name or link *element* is not
appended at all (`some []`); a missing price element degrades to
`"Out Of Stock"` and a missing img element to `""`; but on an appended
card `img["src"]` / `link["href"]` are subscripts, so a present img/link
element without its attribute raises `KeyError` (`none`). -/
def startechCatalogItem (c : Card) : Option (List ProductDict) :=
  match c.name, c.link with
  | some n, some l =>
    match subscriptOr c.img "", l.attr with
    | some img, some href =>
      some [{ name := Py.pyStrip n.text
              price := priceOr c.price (.txt "Out Of Stock")
              img := img
              link := href }]
    | _, _ => none
  | _, _ => some []

/-- The page loop of `scrape_startech_catalog` over the selected cards: a
`KeyError` (`none`) escapes to the crawl's single outer `try`, which
returns `{"products": [], "logo": ""}` — the whole crawl's products are
lost. -/
def scrape_startech_catalog_items : List Card → Option (List ProductDict)
  | [] => some []
  | c :: rest =>
    match startechCatalogItem c with
    | none => none
    | some ds =>
      match scrape_startech_catalog_items rest with
      | none => none
      | some rest' => some (ds ++ rest')

/-- The per-card body of `scrape_ryans` (`products/utils/scraper.py` lines
51–74, the on-demand adapter): a card whose name selector matched nothing
is skipped entirely (`if name_elem:`); a missing link degrades to `"#"`
and a missing image to `""` via `has_attr` checks — no subscript, hence
no `KeyError` path.  `join` stands for `urllib.parse.urljoin(url, ·)`. -/
def ryansItem (join : String → String) (c : Card) : List ProductDict :=
  match c.name with
  | none => []
  | some n =>
    let img0 := attrOr c.img ""
    [{ name := Py.pyStrip n.text
       price := priceOr c.price (.txt "Out of Stock")
       img := if img0 ≠ "" ∧ startsHttp img0 = false then join img0 else img0
       link := joinAttrOr join c.link "#" }]

/-- The page loop of `scrape_ryans`: per-card and total — one card can
never affect another. -/
def scrape_ryans_items (join : String → String) (cards : List Card) :
    List ProductDict :=
  (cards.map (ryansItem join)).flatten

/-- The per-card body of `scrape_pchouse` (`products/utils/scraper.py`
lines 204–225, the on-demand adapter): like Ryans it drops a card whose
name element is missing (`if name_elem:`), and it reads img/link with
`.get(..., default)`, so it has no `KeyError` path; its defaults are the
`"Image not found"` / `"Link not found"` sentinels. -/
def pchouseItem (c : Card) : List ProductDict :=
  match c.name with
  | none => []
  | some n =>
    [{ name := Py.pyStrip n.text
       price := priceOr c.price (.txt "Out Of Stock")
       img := attrOr c.img "Image not found"
       link := attrOr c.link "Link not found" }]

/-- The per-card body of `scrape_binary_playwright`
(`products/utils/scraper.py` lines 279–291, the on-demand adapter): every
card is appended and a missing name degrades to its sentinel, but a
missing *price* element defaults to `normalize_price("0") = 0.0` — a
parsed number, not a sentinel — and link/img are read by unguarded
subscript (`link_elem["href"]`, `img_elem["src"]`), so a present element
without the attribute raises `KeyError` (`none`). -/
def binaryItem (join : String → String) (c : Card) : Option ProductDict :=
  match joinSubscriptOr join c.link "#", joinSubscriptOr join c.img "" with
  | some link, some img =>
    some { name := textOr c.name "Name not found"
           price := PriceNorm.normalize_price (textOr c.price "0")
           img := img
           link := link }
  | _, _ => none

/-- The page loop of `scrape_binary_playwright`: the cards are appended to
the shared `results` dict, so a `KeyError` mid-page keeps the cards
already appended (the outer `except` returns `results` as filled so far)
and loses the rest; the Bool records whether the page aborted. -/
def scrape_binary_items (join : String → String) :
    List Card → List ProductDict × Bool
  | [] => ([], false)
  | c :: rest =>
    match binaryItem join c with
    | none => ([], true)
    | some d =>
      let r := scrape_binary_items join rest
      (d :: r.1, r.2)

end Parse

namespace CacheM

/-- `SimpleCache._generate_key` (`products/cache_manager.py`):
`hashlib.md5(product.lower().strip().encode()).hexdigest()`.  The md5 step
is modelled as the identity on the normalised string: two queries get the
same hex digest exactly when their `lower().strip()` forms coincide. -/
def generate_key (product : String) : String :=
  Py.pyStrip (Py.pyLower product)

/-- One cache entry: `{'data': ..., 'expires_at': time.time() + ttl}`. -/
structure CEntry (D : Type) where
  data : D
  expires_at : Rat

/-- The in-process dict `self.cache`, insertion-ordered like a Python
dict. -/
abbrev Cache (D : Type) := List (String × CEntry D)

def cacheFind? (c : Cache D) (key : String) : Option (CEntry D) :=
  (c.find? (fun kv => kv.1 = key)).map (fun kv => kv.2)

def cacheErase (c : Cache D) (key : String) : Cache D :=
  List.filter (fun kv => kv.1 ≠ key) c

def cacheAssign (c : Cache D) (key : String) (e : CEntry D) : Cache D :=
  if (c.find? (fun kv => kv.1 = key)).isSome then
    List.map (fun kv => if kv.1 = key then (key, e) else kv) c
  else c ++ [(key, e)]

/-- `SimpleCache.get(product)` at clock `now`: a missing key is a miss; an
entry with `now > expires_at` is deleted and is a miss; otherwise the data
is returned.  Returns the (possibly pruned) cache as well. -/
def cget (c : Cache D) (now : Rat) (product : String) : Option D × Cache D :=
  let key := generate_key product
  match cacheFind? c key with
  | none => (none, c)
  | some e =>
    if e.expires_at < now then (none, cacheErase c key)
    else (some e.data, c)

/-- `ttl = ttl or self.default_ttl` (Python truthiness: an explicit 0 also
falls back to the default). -/
def resolveTtl (ttl : Option Rat) (dflt : Rat) : Rat :=
  match ttl with
  | Option.none => dflt
  | some t => if t = 0 then dflt else t

/-- `SimpleCache.set(product, data, ttl)` at clock `now`. -/
def cset (c : Cache D) (now : Rat) (product : String) (data : D)
    (ttl : Option Rat) (dflt : Rat) : Cache D :=
  cacheAssign c (generate_key product) ⟨data, now + resolveTtl ttl dflt⟩

/-- `SimpleCache.clear_expired()` at clock `now`. -/
def clearExpired (c : Cache D) (now : Rat) : Cache D :=
  List.filter (fun kv => ¬ kv.2.expires_at < now) c

/-- The cache path of `price_comparison` (`products/views.py` lines
63–144): `cached_result = price_cache.get(product)` followed by
`if cached_result:` — only a *truthy*, i.e. nonempty, cached shop list is
served from the cache; otherwise (no entry, an expired entry, or a cached
empty list) the code clears expired entries, runs the fan-out, caches the
assembled list with `ttl=300` and returns it.  `fanout` stands for
`gather_all_scrapers` + assembly; the returned flag records whether the
network fan-out ran. -/
def price_comparison_cached (c : Cache (List E)) (now : Rat) (product : String)
    (fanout : Unit → List E) : List E × Cache (List E) × Bool :=
  match cget c now product with
  | (some data, c') =>
    if data.isEmpty then
      let res := fanout ()
      (res, cset (clearExpired c' now) now product res (some 300) 300, true)
    else (data, c', false)
  | (Option.none, c') =>
    let res := fanout ()
    (res, cset (clearExpired c' now) now product res (some 300) 300, true)

end CacheM

namespace Compare

/-- What one scraper returns to `price_comparison`:
`{"products": [...], "logo": ...}`. -/
structure ShopResult where
  products : List Parse.ProductDict
  logo : String
  deriving DecidableEq, Repr

/-- Top level of `scrape_startech` (`products/utils/scraper.py`): the
whole page fetch/parse runs in one `try`; any exception — a timeout, a
parse error, an anti-bot response (`outcome = none`), or a `KeyError`
raised by a card (`scrape_startech_items cards = none`) — yields
`{"products": [], "logo": "logo not found"}`. -/
def scrape_startech (outcome : Option (List Parse.Card)) : ShopResult :=
  match outcome with
  | some cards =>
    match Parse.scrape_startech_items cards with
    | some ps =>
      { products := ps
        logo := "https://www.startech.com.bd/image/catalog/logo.png" }
    | none => { products := [], logo := "logo not found" }
  | none => { products := [], logo := "logo not found" }

/-- One entry of the `all_shops` list: `{"name": ..., **result}`. -/
structure ShopEntry where
  name : String
  products : List Parse.ProductDict
  logo : String
  deriving DecidableEq, Repr

/-- `all_shops` (`products/views.py` lines 127–135), in source order. -/
def all_shops (startech ryans skyland pchouse ultratech binary potakait :
    ShopResult) : List ShopEntry :=
  [⟨"StarTech", startech.products, startech.logo⟩,
   ⟨"Ryans", ryans.products, ryans.logo⟩,
   ⟨"SkyLand", skyland.products, skyland.logo⟩,
   ⟨"PcHouse", pchouse.products, pchouse.logo⟩,
   ⟨"UltraTech", ultratech.products, ultratech.logo⟩,
   ⟨"Binary", binary.products, binary.logo⟩,
   ⟨"PotakaIT", potakait.products, potakait.logo⟩]

/-- `shops_with_results = [shop for shop in all_shops if
shop.get("products")]` (line 138): drop entries with an empty product
list; the filtered list is what is cached and returned. -/
def shops_with_results (startech ryans skyland pchouse ultratech binary
    potakait : ShopResult) : List ShopEntry :=
  (all_shops startech ryans skyland pchouse ultratech binary potakait).filter
    (fun e => ¬ e.products = [])

end Compare

/-! ## Helper lemmas -/

namespace Crawl

theorem stLoop_zero (fetch : Nat → Page α) (maxPages page consec : Nat) :
    stLoop fetch maxPages 0 page consec = ([], []) := rfl

theorem stLoop_stop (fetch : Nat → Page α) (maxPages fuel page consec : Nat)
    (hp : maxPages < page) :
    stLoop fetch maxPages (fuel + 1) page consec = ([], []) := by
  simp [stLoop, hp]

theorem stLoop_nonempty_from (fetch : Nat → Page α) (maxPages lo : Nat)
    (h : ∀ p, lo ≤ p → ∃ its, fetch p = Page.ok its ∧ its ≠ []) :
    ∀ fuel page consec, lo ≤ page → maxPages + 1 - page ≤ fuel →
      (stLoop fetch maxPages fuel page consec).2 =
        List.range' page (maxPages + 1 - page) := by
  intro fuel
  induction fuel with
  | zero =>
    intro page consec _ hf
    have h0 : maxPages + 1 - page = 0 := by omega
    simp [stLoop_zero, h0]
  | succ n ih =>
    intro page consec hlo hf
    by_cases hp : maxPages < page
    · have h0 : maxPages + 1 - page = 0 := by omega
      simp [stLoop_stop _ _ _ _ _ hp, h0]
    · obtain ⟨its, hits, hne⟩ := h page hlo
      have hemp : its.isEmpty = false := by
        cases its with
        | nil => exact absurd rfl hne
        | cons a t => rfl
      have hcount : maxPages + 1 - page = (maxPages + 1 - (page + 1)) + 1 := by
        omega
      rw [stLoop, if_neg hp, hits]
      simp only [hemp, Bool.false_eq_true, if_false]
      rw [ih (page + 1) 0 (by omega) (by omega), hcount, List.range'_succ]

end Crawl

namespace Parse

theorem items_length : ∀ {cards : List Card} {ds : List ProductDict},
    scrape_startech_items cards = some ds → ds.length = cards.length := by
  intro cards
  induction cards with
  | nil =>
    intro ds h
    obtain rfl := Option.some.inj h
    rfl
  | cons c rest ih =>
    intro ds h
    rcases hc : startechItem c with _ | d
    · rw [scrape_startech_items, hc] at h
      exact Option.noConfusion h
    · rcases hr : scrape_startech_items rest with _ | ds'
      · rw [scrape_startech_items, hc, hr] at h
        exact Option.noConfusion h
      · rw [scrape_startech_items, hc, hr] at h
        obtain rfl := Option.some.inj h
        simp [ih hr]

theorem items_abort : ∀ {cards : List Card} {c : Card}, c ∈ cards →
    startechItem c = none → scrape_startech_items cards = none := by
  intro cards
  induction cards with
  | nil =>
    intro c hc
    exact absurd hc (List.not_mem_nil c)
  | cons c' rest ih =>
    intro c hc h
    rcases List.mem_cons.mp hc with rfl | hmem
    · rw [scrape_startech_items, h]
    · rcases hc' : startechItem c' with _ | d
      · rw [scrape_startech_items, hc']
      · rw [scrape_startech_items, hc', ih hmem h]

theorem binary_prefix (join : String → String) :
    ∀ (cards1 : List Card) (c : Card) (cards2 : List Card),
      (∀ c' ∈ cards1, (binaryItem join c').isSome = true) →
      binaryItem join c = none →
      scrape_binary_items join (cards1 ++ c :: cards2) =
        (cards1.filterMap (binaryItem join), true) := by
  intro cards1
  induction cards1 with
  | nil =>
    intro c cards2 _ h
    simp [scrape_binary_items, h]
  | cons c' cs ih =>
    intro c cards2 hall h
    obtain ⟨d, hd⟩ := Option.isSome_iff_exists.mp (hall c' (by simp))
    rw [List.cons_append]
    rw [scrape_binary_items, hd,
      ih c cards2 (fun x hx => hall x (by simp [hx])) h,
      List.filterMap_cons, hd]

end Parse

namespace Py

theorem dropWhile_append_of_all {p : Char → Bool} :
    ∀ {a : List Char} (b : List Char), (∀ x ∈ a, p x = true) →
      List.dropWhile p (a ++ b) = List.dropWhile p b := by
  intro a
  induction a with
  | nil => intro b _; rfl
  | cons x t ih =>
    intro b h
    have hx : p x = true := h x (by simp)
    simp only [List.cons_append, List.dropWhile_cons, hx, if_true]
    exact ih b (fun y hy => h y (by simp [hy]))

theorem dropWhile_append_of_stuck {p : Char → Bool} :
    ∀ {a : List Char} (b : List Char), List.dropWhile p a ≠ [] →
      List.dropWhile p (a ++ b) = List.dropWhile p a ++ b := by
  intro a
  induction a with
  | nil => intro b h; exact absurd rfl h
  | cons x t ih =>
    intro b h
    by_cases hx : p x = true
    · simp only [List.dropWhile_cons, hx, if_true] at h
      simp only [List.cons_append, List.dropWhile_cons, hx, if_true]
      exact ih b h
    · have hx' : p x = false := by simpa using hx
      simp [List.dropWhile_cons, hx']

theorem lower_ws (c : Char) (h : isPyWS c = true) :
    Char.toLower c = c := by
  simp only [isPyWS, Bool.or_eq_true, decide_eq_true_eq] at h
  rcases h with ((((h | h) | h) | h) | h) | h <;> subst h <;> decide

theorem all_ws_lower {l : List Char} (h : ∀ x ∈ l, isPyWS x = true) :
    l.map Char.toLower = l := by
  induction l with
  | nil => rfl
  | cons x t ih =>
    simp only [List.map_cons, lower_ws x (h x (by simp)),
      ih (fun y hy => h y (by simp [hy]))]

/-- Core of the strip lemma, on character lists. -/
def stripList (l : List Char) : List Char :=
  ((l.dropWhile isPyWS).reverse.dropWhile isPyWS).reverse

theorem stripList_ws_left {pre l : List Char} (h : ∀ x ∈ pre, isPyWS x = true) :
    stripList (pre ++ l) = stripList l := by
  unfold stripList
  rw [dropWhile_append_of_all _ h]

theorem all_of_dropWhile_nil {p : Char → Bool} :
    ∀ {l : List Char}, List.dropWhile p l = [] → ∀ x ∈ l, p x = true := by
  intro l
  induction l with
  | nil => intro _ x hx; cases hx
  | cons a t ih =>
    intro h x hx
    by_cases ha : p a = true
    · simp only [List.dropWhile_cons, ha, if_true] at h
      rcases List.mem_cons.mp hx with hx | hx
      · exact hx ▸ ha
      · exact ih h x hx
    · have ha' : p a = false := by simpa using ha
      simp [List.dropWhile_cons, ha'] at h

theorem dropWhile_nil_of_all {p : Char → Bool} :
    ∀ {l : List Char}, (∀ x ∈ l, p x = true) → List.dropWhile p l = [] := by
  intro l
  induction l with
  | nil => intro _; rfl
  | cons a t ih =>
    intro h
    have ha : p a = true := h a (by simp)
    rw [List.dropWhile_cons, if_pos ha]
    exact ih (fun y hy => h y (by simp [hy]))

theorem stripList_ws_right {post l : List Char}
    (h : ∀ x ∈ post, isPyWS x = true) :
    stripList (l ++ post) = stripList l := by
  unfold stripList
  cases hd : List.dropWhile isPyWS l with
  | nil =>
    have hl : ∀ x ∈ l, isPyWS x = true := all_of_dropWhile_nil hd
    rw [dropWhile_append_of_all post hl, dropWhile_nil_of_all h]
  | cons c rest =>
    rw [dropWhile_append_of_stuck post (by simp [hd]), hd]
    simp only [List.reverse_append]
    rw [dropWhile_append_of_all _ (by intro x hx; exact h x (by simpa using hx))]

theorem pyStrip_sandwich (s pre post : String)
    (hpre : ∀ x ∈ pre.toList, isPyWS x = true)
    (hpost : ∀ x ∈ post.toList, isPyWS x = true) :
    pyStrip (pre ++ s ++ post) = pyStrip s := by
  show String.mk _ = String.mk _
  have hdata : (pre ++ s ++ post).toList = pre.toList ++ s.toList ++ post.toList := by
    simp [String.toList, String.data_append]
  simp only [pyStrip, hdata]
  have h1 : stripList (pre.toList ++ s.toList ++ post.toList) = stripList s.toList := by
    rw [List.append_assoc, stripList_ws_left hpre, stripList_ws_right hpost]
  exact congrArg String.mk h1

theorem pyLower_append (a b : String) :
    pyLower (a ++ b) = pyLower a ++ pyLower b := by
  simp only [pyLower]
  have : (a ++ b).toList = a.toList ++ b.toList := by
    simp [String.toList, String.data_append]
  rw [this, List.map_append]
  rfl

end Py

namespace CacheM

theorem find?_append_of_none {α : Type} {p : α → Bool} :
    ∀ {l₁ : List α}, l₁.find? p = none → ∀ l₂ : List α,
      (l₁ ++ l₂).find? p = l₂.find? p := by
  intro l₁
  induction l₁ with
  | nil => intro _ l₂; rfl
  | cons a t ih =>
    intro h l₂
    by_cases ha : p a = true
    · rw [List.find?_cons_of_pos _ ha] at h; cases h
    · have ha' : ¬ p a := by simpa using ha
      rw [List.find?_cons_of_neg _ ha'] at h
      rw [List.cons_append, List.find?_cons_of_neg _ ha']
      exact ih h l₂

theorem cacheFind?_assign (c : Cache D) (key : String) (e : CEntry D) :
    cacheFind? (cacheAssign c key e) key = some e := by
  unfold cacheAssign cacheFind?
  by_cases hmem : (c.find? (fun kv => kv.1 = key)).isSome
  · simp only [hmem, if_true]
    induction c with
    | nil => simp at hmem
    | cons kv t ih =>
      by_cases hk : kv.1 = key
      · simp [List.find?_cons, hk]
      · simp only [List.map_cons, if_neg hk]
        rw [List.find?_cons_of_neg _ (by simpa using hk)]
        rw [List.find?_cons_of_neg _ (by simpa using hk)] at hmem
        exact ih hmem
  · rw [if_neg hmem]
    have hnone : c.find? (fun kv => kv.1 = key) = none := by
      cases h : c.find? (fun kv => kv.1 = key) with
      | none => rfl
      | some v => rw [h] at hmem; simp at hmem
    rw [find?_append_of_none hnone]
    simp [List.find?_cons]

end CacheM

namespace Crawl

theorem stLoop_err_cont (fetch : Nat → Page α) (m fuel page : Nat)
    (hp : ¬ m < page) (he : fetch page = .err) :
    stLoop fetch m (fuel + 1) page 0 =
      ((stLoop fetch m fuel (page + 1) 1).1,
       page :: (stLoop fetch m fuel (page + 1) 1).2) := by
  simp [stLoop, hp, he]

theorem stLoop_empty_cont (fetch : Nat → Page α) (m fuel page : Nat)
    (hp : ¬ m < page) (he : fetch page = .ok []) :
    stLoop fetch m (fuel + 1) page 0 =
      ((stLoop fetch m fuel (page + 1) 1).1,
       page :: (stLoop fetch m fuel (page + 1) 1).2) := by
  simp [stLoop, hp, he]

theorem stLoop_empty_stop (fetch : Nat → Page α) (m fuel page : Nat)
    (hp : ¬ m < page) (he : fetch page = .ok []) :
    stLoop fetch m (fuel + 1) page 1 = ([], [page]) := by
  simp [stLoop, hp, he]

theorem skyLoop_break (fetch : Nat → Attempt α × Attempt α)
    (m fuel page consec : Nat) (hp : ¬ m < page)
    (he : (skyFetch (fetch page).1 (fetch page).2).1 = none) :
    skyLoop fetch m (fuel + 1) page consec = ([], [page]) := by
  simp [skyLoop, hp, he]

theorem skyLoop_nonempty_from (fetch : Nat → Attempt α × Attempt α)
    (maxPages lo : Nat)
    (h : ∀ p, lo ≤ p →
      ∃ its, (skyFetch (fetch p).1 (fetch p).2).1 = some its ∧ its ≠ []) :
    ∀ fuel page consec, lo ≤ page → maxPages + 1 - page ≤ fuel →
      (skyLoop fetch maxPages fuel page consec).2 =
        List.range' page (maxPages + 1 - page) := by
  intro fuel
  induction fuel with
  | zero =>
    intro page consec _ hf
    have h0 : maxPages + 1 - page = 0 := by omega
    simp [skyLoop, h0]
  | succ n ih =>
    intro page consec hlo hf
    by_cases hp : maxPages < page
    · have h0 : maxPages + 1 - page = 0 := by omega
      simp [skyLoop, hp, h0]
    · obtain ⟨its, hits, hne⟩ := h page hlo
      have hemp : its.isEmpty = false := by
        cases its with
        | nil => exact absurd rfl hne
        | cons a t => rfl
      have hcount : maxPages + 1 - page = (maxPages + 1 - (page + 1)) + 1 := by
        omega
      rw [skyLoop, if_neg hp, hits]
      simp only [hemp, Bool.false_eq_true, if_false]
      rw [ih (page + 1) 0 (by omega) (by omega), hcount, List.range'_succ]

end Crawl

/-- **C4.** Price canonicalization (`normalize_price`): the first run of
digits/separators is extracted and parsed; `"TK 12,500.00"` gives the
number `12500.00`; `"Out of Stock"` and `""` give the out-of-stock string
sentinel; when no run of `[\d\.,]` exists or `float()` fails the result is
the string sentinel (never a number, in particular never a silent zero). -/
theorem c4_canonical_price :
    PriceNorm.normalize_price "TK 12,500.00" = .num 12500 ∧
    PriceNorm.normalize_price "Out of Stock" = .txt "Out of Stock" ∧
    PriceNorm.normalize_price "" = .txt "Out of Stock" ∧
    (∀ s : String, PriceNorm.firstRun s.toList = none →
      PriceNorm.normalize_price s = .txt "Out of Stock") ∧
    (∀ (s : String) (run : List Char), PriceNorm.firstRun s.toList = some run →
      PriceNorm.pyFloatNum (run.filter (fun c => c ≠ ',')) = none →
      PriceNorm.normalize_price s = .txt "Out Of Stock") ∧
    (∀ (s : String) (run : List Char) (q : Rat),
      PriceNorm.firstRun s.toList = some run →
      PriceNorm.pyFloatNum (run.filter (fun c => c ≠ ',')) = some q →
      PriceNorm.normalize_price s = .num q) := by
  refine ⟨by decide, by decide, by decide, ?_, ?_, ?_⟩
  · intro s h
    have h' : PriceNorm.firstRun s.data = none := h
    simp [PriceNorm.normalize_price, h']
  · intro s run h1 h2
    have h1' : PriceNorm.firstRun s.data = some run := h1
    have h2' := h2
    simp only [ne_eq, decide_not] at h2'
    simp [PriceNorm.normalize_price, h1', h2']
  · intro s run q h1 h2
    have h1' : PriceNorm.firstRun s.data = some run := h1
    have h2' := h2
    simp only [ne_eq, decide_not] at h2'
    simp [PriceNorm.normalize_price, h1', h2']

/-- Witness for C4 at concrete inputs. -/
theorem c4_witness :
    PriceNorm.normalize_price "Laptop" = .txt "Out of Stock" ∧
    PriceNorm.normalize_price "TK ..." = .txt "Out Of Stock" :=
  ⟨c4_canonical_price.2.2.2.1 "Laptop" (by decide),
   c4_canonical_price.2.2.2.2.1 "TK ..." "...".toList (by decide) (by decide)⟩

/-- **C5 counterexample.** With a page cap of 1, an always-empty adapter
makes the StarTech catalog crawler stop after one fetched page, not two:
"stops after exactly 2 pages … regardless of the page cap" fails. -/
theorem c5_counterexample :
    (Crawl.scrape_startech_catalog (fun _ => Crawl.Page.ok ([] : List Unit)) 1).2
      = [1] ∧
    (Crawl.scrape_startech_catalog (fun _ => Crawl.Page.ok ([] : List Unit)) 1).2.length
      ≠ 2 := by
  exact ⟨rfl, by decide⟩

/-- **C5 (amended).** For every page cap of at least 2, an always-empty
adapter stops the crawler after exactly pages 1 and 2 (the
consecutive-empty-page rule); an adapter that always returns items makes
the crawler fetch exactly the configured page cap (pages 1..cap), for
every cap. -/
theorem c5_crawler_page_counts :
    (∀ (α : Type) (fetch : Nat → Crawl.Page α) (maxPages : Nat),
      (∀ p, fetch p = Crawl.Page.ok []) → 2 ≤ maxPages →
      (Crawl.scrape_startech_catalog fetch maxPages).2 = [1, 2]) ∧
    (∀ (α : Type) (fetch : Nat → Crawl.Page α) (maxPages : Nat),
      (∀ p, ∃ its, fetch p = Crawl.Page.ok its ∧ its ≠ []) →
      (Crawl.scrape_startech_catalog fetch maxPages).2 =
        List.range' 1 maxPages) := by
  constructor
  · intro α fetch maxPages h hmax
    obtain ⟨m, rfl⟩ : ∃ m, maxPages = m + 2 := ⟨maxPages - 2, by omega⟩
    unfold Crawl.scrape_startech_catalog
    rw [show m + 2 + 1 = (m + 1) + 1 + 1 by omega]
    rw [Crawl.stLoop_empty_cont fetch (m + 2) (m + 1 + 1) 1 (by omega) (h 1)]
    rw [show (m + 1) + 1 = m + 1 + 1 by omega]
    rw [Crawl.stLoop_empty_stop fetch (m + 2) (m + 1) 2 (by omega) (h 2)]
  · intro α fetch maxPages h
    unfold Crawl.scrape_startech_catalog
    have ht := Crawl.stLoop_nonempty_from fetch maxPages 0
      (fun p _ => h p) (maxPages + 1) 1 0 (by omega) (by omega)
    rw [ht, Nat.add_sub_cancel]

/-- Witness for C5 at concrete adapters and cap 50. -/
theorem c5_witness :
    (Crawl.scrape_startech_catalog (fun _ => Crawl.Page.ok ([] : List Unit)) 50).2
      = [1, 2] ∧
    (Crawl.scrape_startech_catalog (fun _ => Crawl.Page.ok [()]) 50).2 =
      List.range' 1 50 :=
  ⟨c5_crawler_page_counts.1 Unit _ 50 (fun _ => rfl) (by decide),
   c5_crawler_page_counts.2 Unit _ 50 (fun _ => ⟨[()], rfl, by decide⟩)⟩

/-- **C6 counterexample.** In the StarTech catalog crawler an adapter that
always raises a transient error gets exactly one fetch attempt for page 1
(the trace of fetches is `[1, 2]`), not the 3 attempts with 2s/4s/8s
backoff the claim describes. -/
theorem c6_counterexample :
    ((Crawl.scrape_startech_catalog (fun _ => (Crawl.Page.err : Crawl.Page Unit)) 50).2
      = [1, 2]) ∧
    ((Crawl.scrape_startech_catalog (fun _ => (Crawl.Page.err : Crawl.Page Unit)) 50).2.count 1
      ≠ 3) := by
  exact ⟨rfl, by decide⟩

/-- **C6 (amended).** Retry behaviour is per shop and no crawler uses
exponential backoff.  The StarTech catalog crawler never retries a page: a
transient error on page 1 just increments the consecutive-empty counter
and the crawl proceeds through all remaining pages (for StarTech one
failed page never terminates the crawl by itself).  The SkyLand catalog
crawler retries a timed-out page exactly once (a second request with a
45s timeout): if the retry succeeds the crawl proceeds, but if the retry
fails — or the first attempt raises a non-timeout error such as a
connection error — the crawl `break`s at once, so for SkyLand a single
failed page *does* terminate the crawl.  The UltraTech crawler retries a
failing page up to 3 attempts with a fixed 2-second sleep between
attempts (sleeps `[2, 2]`, not exponential 2s/4s/8s), then gives up on
the page. -/
theorem c6_retry_behavior :
    (∀ (α : Type) (fetch : Nat → Crawl.Page α) (maxPages : Nat),
      fetch 1 = Crawl.Page.err →
      (∀ p, 2 ≤ p → ∃ its, fetch p = Crawl.Page.ok its ∧ its ≠ []) →
      1 ≤ maxPages →
      (Crawl.scrape_startech_catalog fetch maxPages).2 = List.range' 1 maxPages) ∧
    (∀ (β : Type) (tries : Nat → Crawl.Page β),
      (∀ a, tries a = Crawl.Page.err) →
      Crawl.ultraFetchPage tries = (none, 3, [2, 2])) ∧
    (∀ (α : Type) (its : List α) (t1 : Crawl.Attempt α),
      Crawl.skyFetch (.timeout) (.ok its) = (some its, 2) ∧
      Crawl.skyFetch (.timeout) (.timeout) = ((none : Option (List α)), 2) ∧
      Crawl.skyFetch (.timeout) (.fail) = ((none : Option (List α)), 2) ∧
      Crawl.skyFetch (.fail) t1 = (none, 1)) ∧
    (∀ (α : Type) (fetch : Nat → Crawl.Attempt α × Crawl.Attempt α)
       (maxPages : Nat), 1 ≤ maxPages →
      (Crawl.skyFetch (fetch 1).1 (fetch 1).2).1 = none →
      Crawl.scrape_skyland_catalog fetch maxPages = ([], [1])) ∧
    (∀ (α : Type) (fetch : Nat → Crawl.Attempt α × Crawl.Attempt α)
       (maxPages : Nat),
      (∀ p, 1 ≤ p → ∃ its,
        (Crawl.skyFetch (fetch p).1 (fetch p).2).1 = some its ∧ its ≠ []) →
      (Crawl.scrape_skyland_catalog fetch maxPages).2 =
        List.range' 1 maxPages) := by
  refine ⟨?_, ?_, ?_, ?_, ?_⟩
  · intro α fetch maxPages h1 h2 hmax
    obtain ⟨m, rfl⟩ : ∃ m, maxPages = m + 1 := ⟨maxPages - 1, by omega⟩
    unfold Crawl.scrape_startech_catalog
    rw [Crawl.stLoop_err_cont fetch (m + 1) (m + 1) 1 (by omega) h1]
    have ht := Crawl.stLoop_nonempty_from fetch (m + 1) 2 h2 (m + 1) 2 1
      (by omega) (by omega)
    rw [ht]
    show 1 :: List.range' 2 (m + 1 + 1 - 2) = List.range' 1 (m + 1)
    rw [List.range'_succ, show m + 1 + 1 - 2 = m from by omega]
  · intro β tries h
    simp [Crawl.ultraFetchPage, Crawl.ultraRetryGo, h 0, h 1, h 2]
  · intro α its t1
    refine ⟨rfl, rfl, rfl, ?_⟩
    cases t1 <;> rfl
  · intro α fetch maxPages hmax hbrk
    obtain ⟨m, rfl⟩ : ∃ m, maxPages = m + 1 := ⟨maxPages - 1, by omega⟩
    unfold Crawl.scrape_skyland_catalog
    exact Crawl.skyLoop_break fetch (m + 1) (m + 1) 1 0 (by omega) hbrk
  · intro α fetch maxPages h
    unfold Crawl.scrape_skyland_catalog
    have ht := Crawl.skyLoop_nonempty_from fetch maxPages 1 h (maxPages + 1) 1 0
      (by omega) (by omega)
    rw [ht, Nat.add_sub_cancel]

/-- Witness for C6: a StarTech adapter failing only on page 1 (cap 3)
still walks every page; an always-failing UltraTech page makes 3 attempts
with sleeps `[2, 2]`; a SkyLand page that times out and succeeds on the
single retry takes exactly 2 requests and the crawl (cap 3, retry on page
1) still walks every page; a SkyLand connection error on page 1
terminates the crawl after that one page. -/
theorem c6_witness :
    (Crawl.scrape_startech_catalog
      (fun p => if p = 1 then Crawl.Page.err else Crawl.Page.ok [()]) 3).2
      = List.range' 1 3 ∧
    Crawl.ultraFetchPage (fun _ => (Crawl.Page.err : Crawl.Page Unit)) =
      (none, 3, [2, 2]) ∧
    Crawl.skyFetch (.timeout) (.ok [()]) = (some [()], 2) ∧
    Crawl.scrape_skyland_catalog
      (fun _ => ((Crawl.Attempt.fail : Crawl.Attempt Unit),
                 Crawl.Attempt.ok [()])) 50 = ([], [1]) ∧
    (Crawl.scrape_skyland_catalog
      (fun p => if p = 1
        then ((Crawl.Attempt.timeout : Crawl.Attempt Unit),
              Crawl.Attempt.ok [()])
        else (Crawl.Attempt.ok [()], Crawl.Attempt.ok [()])) 3).2 =
      List.range' 1 3 :=
  ⟨c6_retry_behavior.1 Unit _ 3 rfl
    (fun p hp => ⟨[()], by simp [show p ≠ 1 by omega], by decide⟩) (by decide),
   c6_retry_behavior.2.1 Unit _ (fun _ => rfl),
   (c6_retry_behavior.2.2.1 Unit [()] Crawl.Attempt.timeout).1,
   c6_retry_behavior.2.2.2.1 Unit _ 50 (by decide) rfl,
   c6_retry_behavior.2.2.2.2 Unit _ 3
     (fun p hp => ⟨[()], by by_cases h : p = 1 <;> simp [h, Crawl.skyFetch],
       by decide⟩)⟩

/-- **C7 counterexample.** (a) The StarTech *catalog* adapter drops a card
whose name selector matched nothing (`if name and link:`), instead of
emitting it with the `"Name not found"` sentinel: of two cards, one
missing its name, only the intact one is returned.  (b) In the on-demand
StarTech adapter a card whose img *element* lacks its `src` attribute
raises `KeyError` (`img["src"]`), aborting the whole page: the intact
card `"G"` is lost too, against the claim's "one malformed card never
aborts the page".  (c) The Binary adapter turns a missing price element
into `normalize_price("0") = 0.0` — a parsed number, not a sentinel.
(d) The Ryans on-demand adapter drops a card whose name is missing. -/
theorem c7_counterexample :
    Parse.scrape_startech_catalog_items
      [⟨none, some ⟨"99", none⟩, none, some ⟨"", some "l"⟩⟩,
       ⟨some ⟨"N", none⟩, some ⟨"88", none⟩, none, some ⟨"", some "l2"⟩⟩] =
      some [⟨"N", .num 88, "", "l2"⟩] ∧
    Parse.scrape_startech_items
      [⟨some ⟨"G", none⟩, some ⟨"7", none⟩, none, none⟩,
       ⟨some ⟨"B", none⟩, none, some ⟨"", none⟩, none⟩] = none ∧
    Parse.binaryItem (fun s => s) ⟨some ⟨"N", none⟩, none, none, none⟩ =
      some ⟨"N", .num 0, "", "#"⟩ ∧
    Parse.ryansItem (fun s => s) ⟨none, some ⟨"9", none⟩, none, none⟩ = [] := by
  refine ⟨by decide, by decide, by decide, by decide⟩

/-- **C7 (amended).** Parsing is per-card in every adapter, but neither
the sentinel rule nor the never-abort rule is uniform.  The on-demand
StarTech adapter emits every card whose img/link elements carry their
attributes, degrading each missing *element* to its sentinel; its catalog
twin silently drops a card missing its name or link element (only a
missing price/img element degrades, to `"Out Of Stock"` / `""`).  The
on-demand Ryans adapter — and PcHouse alike — instead drops a card whose
name is missing, and degrades a missing link to `"#"` (PcHouse to
`"Link not found"`) with no abort path.  The Binary adapter defaults a
missing price element to the parsed number `0.0`, not a sentinel.  And in
the adapters that read attributes by unguarded subscript, a present
img/link element lacking its attribute raises `KeyError`: StarTech's
outer `try` then drops the whole page (even its already-parsed cards),
while Binary keeps the cards parsed before the error and loses the
rest. -/
theorem c7_parse_degradation :
    (∀ c : Parse.Card,
      (∀ e, c.img = some e → e.attr ≠ none) →
      (∀ e, c.link = some e → e.attr ≠ none) →
      (Parse.startechItem c).isSome = true) ∧
    (∀ (c : Parse.Card) (d : Parse.ProductDict),
      Parse.startechItem c = some d →
      (c.name = none → d.name = "Name not found") ∧
      (c.price = none → d.price = .txt "Out Of Stock") ∧
      (c.img = none → d.img = "Image not found") ∧
      (c.link = none → d.link = "Link not found")) ∧
    (∀ (cards : List Parse.Card) (ds : List Parse.ProductDict),
      Parse.scrape_startech_items cards = some ds →
      ds.length = cards.length) ∧
    (∀ (cards : List Parse.Card) (c : Parse.Card), c ∈ cards →
      Parse.startechItem c = none →
      Parse.scrape_startech_items cards = none) ∧
    (∀ c : Parse.Card, c.name = none ∨ c.link = none →
      Parse.startechCatalogItem c = some []) ∧
    (∀ (c : Parse.Card) (n l : Parse.Elem) (href : String),
      c.name = some n → c.link = some l → l.attr = some href →
      c.price = none → c.img = none →
      Parse.startechCatalogItem c =
        some [⟨Py.pyStrip n.text, .txt "Out Of Stock", "", href⟩]) ∧
    (∀ (join : String → String) (c : Parse.Card), c.name = none →
      Parse.ryansItem join c = [] ∧ Parse.pchouseItem c = []) ∧
    (∀ (join : String → String) (c : Parse.Card) (n : Parse.Elem),
      c.name = some n → c.link = none → c.img = none → c.price = none →
      Parse.ryansItem join c =
        [⟨Py.pyStrip n.text, .txt "Out of Stock", "", "#"⟩]) ∧
    (∀ (join : String → String) (c : Parse.Card) (d : Parse.ProductDict),
      Parse.binaryItem join c = some d → c.price = none →
      d.price = .num 0) ∧
    (∀ (join : String → String) (cards1 : List Parse.Card) (c : Parse.Card)
       (cards2 : List Parse.Card),
      (∀ c' ∈ cards1, (Parse.binaryItem join c').isSome = true) →
      Parse.binaryItem join c = none →
      Parse.scrape_binary_items join (cards1 ++ c :: cards2) =
        (cards1.filterMap (Parse.binaryItem join), true)) := by
  refine ⟨?_, ?_, ?_, ?_, ?_, ?_, ?_, ?_, ?_, ?_⟩
  · intro c himg hlink
    have hi : (Parse.subscriptOr c.img "Image not found").isSome = true := by
      rcases hc : c.img with _ | e
      · rfl
      · rcases ha : e.attr with _ | a
        · exact absurd ha (himg e hc)
        · simp [Parse.subscriptOr, ha]
    have hl : (Parse.subscriptOr c.link "Link not found").isSome = true := by
      rcases hc : c.link with _ | e
      · rfl
      · rcases ha : e.attr with _ | a
        · exact absurd ha (hlink e hc)
        · simp [Parse.subscriptOr, ha]
    obtain ⟨i, hi2⟩ := Option.isSome_iff_exists.mp hi
    obtain ⟨l, hl2⟩ := Option.isSome_iff_exists.mp hl
    unfold Parse.startechItem
    rw [hi2, hl2]
    rfl
  · intro c d h
    unfold Parse.startechItem at h
    rcases hi : Parse.subscriptOr c.img "Image not found" with _ | i
    · rw [hi] at h
      exact Option.noConfusion h
    · rcases hl : Parse.subscriptOr c.link "Link not found" with _ | l
      · rw [hi, hl] at h
        exact Option.noConfusion h
      · rw [hi, hl] at h
        obtain rfl := Option.some.inj h
        refine ⟨?_, ?_, ?_, ?_⟩
        · intro hn
          simp [Parse.textOr, hn]
        · intro hp
          simp [Parse.priceOr, hp]
        · intro hni
          rw [hni] at hi
          exact (Option.some.inj hi).symm
        · intro hnl
          rw [hnl] at hl
          exact (Option.some.inj hl).symm
  · intro cards ds h
    exact Parse.items_length h
  · intro cards c hc h
    exact Parse.items_abort hc h
  · intro c h
    rcases h with h | h
    · simp [Parse.startechCatalogItem, h]
    · cases hn : c.name <;> simp [Parse.startechCatalogItem, h, hn]
  · intro c n l href hn hl hattr hp hi
    simp [Parse.startechCatalogItem, hn, hl, hattr, hp, hi,
      Parse.subscriptOr, Parse.priceOr]
  · intro join c h
    constructor <;> simp [Parse.ryansItem, Parse.pchouseItem, h]
  · intro join c n hn hl hi hp
    simp [Parse.ryansItem, hn, hl, hi, hp, Parse.attrOr, Parse.joinAttrOr,
      Parse.priceOr]
  · intro join c d h hp
    unfold Parse.binaryItem at h
    rcases hl : Parse.joinSubscriptOr join c.link "#" with _ | l
    · rw [hl] at h
      exact Option.noConfusion h
    · rcases hi : Parse.joinSubscriptOr join c.img "" with _ | i
      · rw [hl, hi] at h
        exact Option.noConfusion h
      · rw [hl, hi] at h
        obtain rfl := Option.some.inj h
        show PriceNorm.normalize_price (Parse.textOr c.price "0") = .num 0
        rw [hp]
        decide
  · intro join cards1 c cards2 hall h
    exact Parse.binary_prefix join cards1 c cards2 hall h

/-- Witness for C7 at concrete cards: the all-missing on-demand StarTech
card is emitted with all four sentinels; an attribute-less img element
aborts a page that also holds an intact card; a nameless card is dropped
by the catalog adapter and by Ryans; a Binary page with a `KeyError` on
its second card keeps the first card (whose missing price became the
number 0). -/
theorem c7_witness :
    (Parse.startechItem ⟨none, none, none, none⟩).isSome = true ∧
    (Parse.startechItem ⟨none, none, none, none⟩ =
      some ⟨"Name not found", .txt "Out Of Stock", "Image not found",
            "Link not found"⟩) ∧
    Parse.scrape_startech_items
      [⟨some ⟨"G", none⟩, some ⟨"7", none⟩, none, none⟩,
       ⟨some ⟨"B", none⟩, none, some ⟨"", none⟩, none⟩] = none ∧
    Parse.startechCatalogItem
      ⟨none, some ⟨"9", none⟩, none, some ⟨"", some "l"⟩⟩ = some [] ∧
    Parse.ryansItem (fun s => s) ⟨none, some ⟨"9", none⟩, none, none⟩ = [] ∧
    Parse.scrape_binary_items (fun s => s)
      [⟨some ⟨"A", none⟩, none, none, none⟩,
       ⟨some ⟨"B", none⟩, none, none, some ⟨"", none⟩⟩] =
      ([⟨"A", .num 0, "", "#"⟩], true) := by
  refine ⟨?_, by decide, ?_, ?_, ?_, ?_⟩
  · exact c7_parse_degradation.1 ⟨none, none, none, none⟩
      (fun e he => Option.noConfusion he) (fun e he => Option.noConfusion he)
  · exact c7_parse_degradation.2.2.2.1
      [⟨some ⟨"G", none⟩, some ⟨"7", none⟩, none, none⟩,
       ⟨some ⟨"B", none⟩, none, some ⟨"", none⟩, none⟩]
      ⟨some ⟨"B", none⟩, none, some ⟨"", none⟩, none⟩ (by simp) (by decide)
  · exact c7_parse_degradation.2.2.2.2.1
      ⟨none, some ⟨"9", none⟩, none, some ⟨"", some "l"⟩⟩ (Or.inl rfl)
  · exact (c7_parse_degradation.2.2.2.2.2.2.1 (fun s => s)
      ⟨none, some ⟨"9", none⟩, none, none⟩ rfl).1
  · exact c7_parse_degradation.2.2.2.2.2.2.2.2.2 (fun s => s)
      [⟨some ⟨"A", none⟩, none, none, none⟩]
      ⟨some ⟨"B", none⟩, none, none, some ⟨"", none⟩⟩ []
      (fun c' hc' => by
        simp only [List.mem_singleton] at hc'
        rw [hc']
        decide)
      (by decide)

/-- **C8 counterexample.** The cache key only lowercases and trims the
query; internal whitespace is kept, so `"ryzen 5"` and `"ryzen  5"` —
queries differing only in whitespace — get different keys (the second is a
cache miss, not the claimed hit). -/
theorem c8_counterexample :
    CacheM.generate_key "ryzen 5" ≠ CacheM.generate_key "ryzen  5" := by
  decide

/-- **C8 (amended).** The comparison-cache key is the md5 of the
case-normalized, *edge*-trimmed query: queries differing only by letter
case, or only by leading/trailing whitespace, map to the same key; the
second such query within the TTL is a hit served from the cache with no
fan-out provided the cached shop list is nonempty — a cached *empty* list
fails the code's `if cached_result:` truthiness test and re-runs the
fan-out — and a cached entry strictly older than its TTL is a miss that
runs the fan-out afresh. -/
theorem c8_cache_key_ttl :
    (∀ s1 s2 : String, Py.pyLower s1 = Py.pyLower s2 →
      CacheM.generate_key s1 = CacheM.generate_key s2) ∧
    (∀ s pre post : String,
      (∀ x ∈ pre.toList, Py.isPyWS x = true) →
      (∀ x ∈ post.toList, Py.isPyWS x = true) →
      CacheM.generate_key (pre ++ s ++ post) = CacheM.generate_key s) ∧
    (∀ (E : Type) (c : CacheM.Cache (List E)) (t1 t2 : Rat) (q1 q2 : String)
       (data : List E) (f : Unit → List E),
      CacheM.generate_key q1 = CacheM.generate_key q2 →
      data ≠ [] →
      ¬ t1 + 300 < t2 →
      CacheM.price_comparison_cached
        (CacheM.cset c t1 q1 data (some 300) 300) t2 q2 f =
        (data, CacheM.cset c t1 q1 data (some 300) 300, false)) ∧
    (∀ (E : Type) (c : CacheM.Cache (List E)) (t1 t2 : Rat) (q : String)
       (f : Unit → List E),
      ¬ t1 + 300 < t2 →
      (CacheM.price_comparison_cached
        (CacheM.cset c t1 q ([] : List E) (some 300) 300) t2 q f).1 = f () ∧
      (CacheM.price_comparison_cached
        (CacheM.cset c t1 q ([] : List E) (some 300) 300) t2 q f).2.2 = true) ∧
    (∀ (E : Type) (c : CacheM.Cache (List E)) (t1 t2 : Rat) (q : String)
       (data : List E) (f : Unit → List E),
      t1 + 300 < t2 →
      (CacheM.price_comparison_cached
        (CacheM.cset c t1 q data (some 300) 300) t2 q f).1 = f () ∧
      (CacheM.price_comparison_cached
        (CacheM.cset c t1 q data (some 300) 300) t2 q f).2.2 = true) := by
  refine ⟨?_, ?_, ?_, ?_, ?_⟩
  · intro s1 s2 h
    simp [CacheM.generate_key, h]
  · intro s pre post hpre hpost
    have hlpre : ∀ x ∈ (Py.pyLower pre).toList, Py.isPyWS x = true := by
      intro x hx
      simp only [Py.pyLower, String.toList] at hx
      obtain ⟨y, hy, rfl⟩ := List.mem_map.mp hx
      rw [Py.lower_ws y (hpre y hy)]
      exact hpre y hy
    have hlpost : ∀ x ∈ (Py.pyLower post).toList, Py.isPyWS x = true := by
      intro x hx
      simp only [Py.pyLower, String.toList] at hx
      obtain ⟨y, hy, rfl⟩ := List.mem_map.mp hx
      rw [Py.lower_ws y (hpost y hy)]
      exact hpost y hy
    unfold CacheM.generate_key
    rw [Py.pyLower_append, Py.pyLower_append]
    exact Py.pyStrip_sandwich (Py.pyLower s) (Py.pyLower pre) (Py.pyLower post)
      hlpre hlpost
  · intro E c t1 t2 q1 q2 data f hkey hdata hfresh
    have hr : CacheM.resolveTtl (some 300) 300 = 300 := by
      norm_num [CacheM.resolveTtl]
    unfold CacheM.price_comparison_cached CacheM.cget CacheM.cset
    rw [← hkey, hr]
    simp only [CacheM.cacheFind?_assign]
    simp [hfresh, hdata]
  · intro E c t1 t2 q f hfresh
    have hr : CacheM.resolveTtl (some 300) 300 = 300 := by
      norm_num [CacheM.resolveTtl]
    constructor <;>
      (unfold CacheM.price_comparison_cached CacheM.cget CacheM.cset
       rw [hr]
       simp only [CacheM.cacheFind?_assign]
       simp [hfresh])
  · intro E c t1 t2 q data f hexp
    have hr : CacheM.resolveTtl (some 300) 300 = 300 := by
      norm_num [CacheM.resolveTtl]
    constructor <;>
      (unfold CacheM.price_comparison_cached CacheM.cget CacheM.cset
       rw [hr]
       simp only [CacheM.cacheFind?_assign]
       simp [hexp])

/-- Witness for C8 at concrete queries, clocks and caches: a nonempty
cached list is a hit; a cached empty list within the TTL re-runs the
fan-out; an expired entry re-runs the fan-out. -/
theorem c8_witness :
    CacheM.generate_key "RAM" = CacheM.generate_key "ram" ∧
    CacheM.generate_key ("  " ++ "ram" ++ " ") = CacheM.generate_key "ram" ∧
    CacheM.price_comparison_cached
      (CacheM.cset ([] : CacheM.Cache (List Nat)) 0 "ram" [7] (some 300) 300)
      100 "RAM" (fun _ => [9]) =
      ([7], CacheM.cset ([] : CacheM.Cache (List Nat)) 0 "ram" [7]
        (some 300) 300, false) ∧
    (CacheM.price_comparison_cached
      (CacheM.cset ([] : CacheM.Cache (List Nat)) 0 "ram" ([] : List Nat)
        (some 300) 300) 100 "ram" (fun _ => [9])).2.2 = true ∧
    (CacheM.price_comparison_cached
      (CacheM.cset ([] : CacheM.Cache (List Nat)) 0 "ram" [7] (some 300) 300)
      400 "ram" (fun _ => [9])).2.2 = true :=
  ⟨c8_cache_key_ttl.1 "RAM" "ram" (by decide),
   c8_cache_key_ttl.2.1 "ram" "  " " " (by decide) (by decide),
   c8_cache_key_ttl.2.2.1 Nat [] 0 100 "ram" "RAM" [7] (fun _ => [9])
     (by decide) (by decide) (by norm_num),
   (c8_cache_key_ttl.2.2.2.1 Nat [] 0 100 "ram" (fun _ => [9])
     (by norm_num)).2,
   (c8_cache_key_ttl.2.2.2.2 Nat [] 0 400 "ram" [7] (fun _ => [9])
     (by norm_num)).2⟩

/-- **C10.** A failing adapter contributes `{"products": [], ...}` instead
of raising; the endpoint assembles the seven `{name, products, logo}`
entries in fixed order, and returns exactly the entries whose product list
is nonempty — so a failing StarTech never appears in the response, any
shop with results always does, and the response is empty only when every
shop returned zero products. -/
theorem c10_comparison_partial_results :
    (Compare.scrape_startech none =
      { products := [], logo := "logo not found" }) ∧
    (∀ st ry sk pc ul bi po (e : Compare.ShopEntry),
      e ∈ Compare.shops_with_results st ry sk pc ul bi po ↔
        (e ∈ Compare.all_shops st ry sk pc ul bi po ∧ e.products ≠ [])) ∧
    (∀ ry sk pc ul bi po,
      "StarTech" ∉
        (Compare.shops_with_results (Compare.scrape_startech none)
          ry sk pc ul bi po).map (fun e => e.name)) ∧
    (∀ st ry sk pc ul bi po, st.products ≠ [] →
      Compare.shops_with_results st ry sk pc ul bi po ≠ []) := by
  refine ⟨rfl, ?_, ?_, ?_⟩
  · intro st ry sk pc ul bi po e
    unfold Compare.shops_with_results
    rw [List.mem_filter]
    simp
  · intro ry sk pc ul bi po hmem
    rw [List.mem_map] at hmem
    obtain ⟨e, he, hname⟩ := hmem
    unfold Compare.shops_with_results at he
    rw [List.mem_filter] at he
    obtain ⟨hmem', hne⟩ := he
    simp only [Compare.all_shops, Compare.scrape_startech, List.mem_cons,
      List.mem_singleton] at hmem'
    rcases hmem' with rfl | rfl | rfl | rfl | rfl | rfl | rfl | h
    · simp at hne
    all_goals first
      | (simp at hname)
      | cases h
  · intro st ry sk pc ul bi po hne hempty
    have : (⟨"StarTech", st.products, st.logo⟩ : Compare.ShopEntry) ∈
        Compare.shops_with_results st ry sk pc ul bi po := by
      unfold Compare.shops_with_results
      rw [List.mem_filter]
      exact ⟨by simp [Compare.all_shops], by simpa using hne⟩
    rw [hempty] at this
    cases this

/-- Witness for C10 at concrete shop results: StarTech failed, only
SkyLand has products. -/
theorem c10_witness :
    (⟨"Ryans", [⟨"n", .num 5, "i", "l"⟩], "lg"⟩ : Compare.ShopEntry) ∈
      Compare.shops_with_results (Compare.scrape_startech none)
        ⟨[⟨"n", .num 5, "i", "l"⟩], "lg"⟩ ⟨[], ""⟩ ⟨[], ""⟩ ⟨[], ""⟩ ⟨[], ""⟩ ⟨[], ""⟩ ∧
    Compare.shops_with_results ⟨[⟨"n", .num 5, "i", "l"⟩], "lg"⟩
      ⟨[], ""⟩ ⟨[], ""⟩ ⟨[], ""⟩ ⟨[], ""⟩ ⟨[], ""⟩ ⟨[], ""⟩ ≠ [] :=
  ⟨((c10_comparison_partial_results.2.1 (Compare.scrape_startech none)
      ⟨[⟨"n", .num 5, "i", "l"⟩], "lg"⟩ ⟨[], ""⟩ ⟨[], ""⟩ ⟨[], ""⟩ ⟨[], ""⟩ ⟨[], ""⟩
      ⟨"Ryans", [⟨"n", .num 5, "i", "l"⟩], "lg"⟩).mpr
      ⟨by simp [Compare.all_shops, Compare.scrape_startech], by simp⟩),
   c10_comparison_partial_results.2.2.2 ⟨[⟨"n", .num 5, "i", "l"⟩], "lg"⟩
     ⟨[], ""⟩ ⟨[], ""⟩ ⟨[], ""⟩ ⟨[], ""⟩ ⟨[], ""⟩ ⟨[], ""⟩ (by simp)⟩

set_option maxRecDepth 8000 in
/-- **C1 (code bug).** Evaluation at the failing input: the catalog holds
`http://s/p` at price 100 with its baseline observation; the same URL is
ingested again at price 200.  `current_price` is updated to 200, but *no*
new `PriceHistory` row is appended: the comparison
`float(existing_product.current_price) != float(current_price)` runs after
`existing_product.current_price = current_price` and is therefore always
false, making the `# Price history if changed` branch dead code. -/
theorem c1_changed_price_writes_no_history :
    (Ingest.save_product_batch [⟨"X", .num 200, "", "http://s/p"⟩] "RAM"
      ⟨[⟨1, "X", "http://s/p", "RAM", "", 100, .in_stock, true⟩],
       [⟨1, 100, .in_stock⟩], 2⟩).1.history = [⟨1, 100, .in_stock⟩] ∧
    (Ingest.save_product_batch [⟨"X", .num 200, "", "http://s/p"⟩] "RAM"
      ⟨[⟨1, "X", "http://s/p", "RAM", "", 100, .in_stock, true⟩],
       [⟨1, 100, .in_stock⟩], 2⟩).1.products =
      [⟨1, "X", "http://s/p", "RAM", "", 200, .in_stock, true⟩] := by
  exact ⟨by decide, by decide⟩

set_option maxRecDepth 8000 in
/-- **C9 counterexample.** Two items with the same normalized URL
(`http://s/q` and `http://s/q?page=3`) land in one batch against an empty
catalog: exactly one row is persisted, but it carries the *first*
occurrence's data (name "A", price 1), not the freshest (last) occurrence
(name "B", price 2) as the claim states. -/
theorem c9_counterexample :
    (Ingest.save_product_batch
      [⟨"A", .num 1, "", "http://s/q"⟩, ⟨"B", .num 2, "", "http://s/q?page=3"⟩]
      "RAM" ⟨[], [], 1⟩).1.products =
      [⟨1, "A", "http://s/q", "RAM", "", 1, .in_stock, true⟩] ∧
    (Ingest.save_product_batch
      [⟨"A", .num 1, "", "http://s/q"⟩, ⟨"B", .num 2, "", "http://s/q?page=3"⟩]
      "RAM" ⟨[], [], 1⟩).1.products.map (fun p => p.name) ≠ ["B"] := by
  exact ⟨by decide, by decide⟩
namespace Ingest

theorem processItem_invalid (db : DB) (urls : List String) (cat : String)
    (st : BatchState) (it : Item) (h : validLink it.link = false) :
    processItem db urls cat st it = st := by
  simp [processItem, h]

theorem processItem_skip (db : DB) (urls : List String) (cat : String)
    (st : BatchState) (it : Item)
    (h1 : validLink it.link = true)
    (hc : st.urls_in_batch.contains (URLNorm.normStr it.link) = true)
    (hn : existingByUrl db urls (URLNorm.normStr it.link) = none) :
    processItem db urls cat st it = st := by
  have hc' : URLNorm.normStr it.link ∈ st.urls_in_batch := by simpa using hc
  simp [processItem, h1, hc', hn]

theorem processItem_create (db : DB) (urls : List String) (cat : String)
    (st : BatchState) (it : Item)
    (h1 : validLink it.link = true)
    (hc : st.urls_in_batch.contains (URLNorm.normStr it.link) = false)
    (hn : existingByUrl db urls (URLNorm.normStr it.link) = none) :
    processItem db urls cat st it =
      { st with
        urls_in_batch := URLNorm.normStr it.link :: st.urls_in_batch
        to_create := st.to_create ++ [mkNew it cat (URLNorm.normStr it.link)]
        created_count := st.created_count + 1 } := by
  have hc' : URLNorm.normStr it.link ∉ st.urls_in_batch := by
    simpa using hc
  simp [processItem, h1, hc', hn]

theorem processItem_update (db : DB) (urls : List String) (cat : String)
    (st : BatchState) (it : Item) (ex0 : Product)
    (h1 : validLink it.link = true)
    (hs : existingByUrl db urls (URLNorm.normStr it.link) = some ex0) :
    processItem db urls cat st it =
      { st with
        urls_in_batch := URLNorm.normStr it.link :: st.urls_in_batch
        to_update := st.to_update ++
          [((currentObj st ex0).id,
            { currentObj st ex0 with
              name := Py.pyTake 500 it.name
              category := cat
              image_url := it.img
              current_price := currentPriceOf it.price
              stock_status := stockOf it.price
              is_available := availOf it.price })]
        updated_count := st.updated_count + 1 } := by
  simp [processItem, h1, hs]
  exact ⟨rfl, rfl⟩

theorem save_single_fresh (it : Item) (cat : String) (db : DB)
    (h1 : validLink it.link = true)
    (h2 : db.products.find? (fun p => p.product_url = URLNorm.normStr it.link)
            = none) :
    save_product_batch [it] cat db =
      ({ products := db.products ++
           [{ mkNew it cat (URLNorm.normStr it.link) with id := db.nextId }]
         history := db.history
         nextId := db.nextId + 1 }, 1, 0) := by
  unfold save_product_batch
  simp only [List.filterMap_cons, List.filterMap_nil, h1, if_true,
    List.filter_cons, List.filter_nil, h2, Option.isSome_none,
    List.foldl_cons, List.foldl_nil]
  rw [processItem_create db _ cat _ it h1 (by simp)
    (by simp [existingByUrl, h2])]
  simp [applyUpdates, mkNew]

theorem save_single_existing (it : Item) (cat : String) (db : DB) (ex : Product)
    (h1 : validLink it.link = true)
    (hf : db.products.find? (fun p => p.product_url = URLNorm.normStr it.link)
            = some ex) :
    save_product_batch [it] cat db =
      ({ products := db.products.map (fun p => if p.id = ex.id then
             { ex with
               name := Py.pyTake 500 it.name
               category := cat
               image_url := it.img
               current_price := currentPriceOf it.price
               stock_status := stockOf it.price
               is_available := availOf it.price } else p)
         history := db.history
         nextId := db.nextId }, 0, 1) := by
  unfold save_product_batch
  simp only [List.filterMap_cons, List.filterMap_nil, h1, if_true,
    List.filter_cons, List.filter_nil, hf, Option.isSome_some,
    List.foldl_cons, List.foldl_nil]
  rw [processItem_update db _ cat _ it ex h1 (by simp [existingByUrl, hf])]
  simp [applyUpdates, currentObj]

end Ingest

set_option maxRecDepth 8000 in
/-- **C2 (code bug).** Evaluation at the failing input: ingesting a fresh
valid item (`http://s/p`, price 5) into an empty catalog creates exactly
one product row but writes *no* baseline `PriceHistory` row — the
baseline loop's `if product.pk:` guard after
`bulk_create(..., ignore_conflicts=True)` is always false because
`ignore_conflicts` prevents Django from setting `pk` on the returned
instances.  Re-ingesting the identical item does leave the database
unchanged with `(created, updated) = (0, 1)`, but the claim's "baseline
written on first creation" never exists. -/
theorem c2_reingest_no_baseline :
    (Ingest.save_product_batch [⟨"X", .num 5, "i", "http://s/p"⟩] "RAM"
       ⟨[], [], 0⟩).1.products.length = 1 ∧
    (Ingest.save_product_batch [⟨"X", .num 5, "i", "http://s/p"⟩] "RAM"
       ⟨[], [], 0⟩).1.history = [] ∧
    Ingest.save_product_batch [⟨"X", .num 5, "i", "http://s/p"⟩] "RAM"
      (Ingest.save_product_batch [⟨"X", .num 5, "i", "http://s/p"⟩] "RAM"
        ⟨[], [], 0⟩).1
      = ((Ingest.save_product_batch [⟨"X", .num 5, "i", "http://s/p"⟩] "RAM"
        ⟨[], [], 0⟩).1, 0, 1) := by
  exact ⟨by decide, by decide, by decide⟩

/-- **C9 (amended).** Two items of one batch sharing a normalized URL that
is new to the catalog produce exactly one persisted row — the *first*
occurrence's data, not the freshest — and the `(shop, product_url)`
uniqueness of the catalog is preserved, so no unique-constraint violation
arises. -/
theorem c9_batch_dedup (i1 i2 : Ingest.Item) (cat : String) (db : Ingest.DB)
    (h1 : Ingest.validLink i1.link = true)
    (h2 : Ingest.validLink i2.link = true)
    (hsame : URLNorm.normStr i2.link = URLNorm.normStr i1.link)
    (hfresh : db.products.find?
        (fun p => p.product_url = URLNorm.normStr i1.link) = none)
    (hnd : (db.products.map (fun p => p.product_url)).Nodup) :
    (Ingest.save_product_batch [i1, i2] cat db).1.products =
      db.products ++
        [{ Ingest.mkNew i1 cat (URLNorm.normStr i1.link) with id := db.nextId }] ∧
    ((Ingest.save_product_batch [i1, i2] cat db).1.products.map
        (fun p => p.product_url)).Nodup := by
  have e1 : Ingest.processItem db
      [URLNorm.normStr i1.link, URLNorm.normStr i1.link] cat
      ⟨[], [], [], [], 0, 0⟩ i1 =
      ⟨[URLNorm.normStr i1.link], [Ingest.mkNew i1 cat (URLNorm.normStr i1.link)],
       [], [], 1, 0⟩ := by
    rw [Ingest.processItem_create db _ cat _ i1 h1 (by simp)
      (by simp [Ingest.existingByUrl, hfresh])]
    rfl
  have e2 : Ingest.processItem db
      [URLNorm.normStr i1.link, URLNorm.normStr i1.link] cat
      ⟨[URLNorm.normStr i1.link], [Ingest.mkNew i1 cat (URLNorm.normStr i1.link)],
       [], [], 1, 0⟩ i2 =
      ⟨[URLNorm.normStr i1.link], [Ingest.mkNew i1 cat (URLNorm.normStr i1.link)],
       [], [], 1, 0⟩ :=
    Ingest.processItem_skip db _ cat _ i2 h2 (by rw [hsame]; simp)
      (by rw [hsame]; simp [Ingest.existingByUrl, hfresh])
  have hprod : (Ingest.save_product_batch [i1, i2] cat db).1.products =
      db.products ++
        [{ Ingest.mkNew i1 cat (URLNorm.normStr i1.link) with id := db.nextId }] := by
    simp [Ingest.save_product_batch, h1, h2, hsame, hfresh, e1, e2,
      Ingest.applyUpdates]
  refine ⟨hprod, ?_⟩
  rw [hprod, List.map_append]
  have hnotmem : URLNorm.normStr i1.link ∉
      db.products.map (fun p => p.product_url) := by
    intro hmem
    obtain ⟨p, hp, he⟩ := List.mem_map.mp hmem
    have := List.find?_eq_none.mp hfresh p hp
    simp at this
    exact this he
  refine List.Nodup.append hnd (by simp) ?_
  intro a ha hb
  simp [Ingest.mkNew] at hb
  rw [hb] at ha
  exact hnotmem ha

set_option maxRecDepth 8000 in
/-- Witness for the amended C9 at the counterexample batch: the first
occurrence `"A"` is the one persisted and uniqueness is preserved. -/
theorem c9_batch_dedup_witness :
    (Ingest.save_product_batch
       [⟨"A", .num 1, "", "http://s/q"⟩, ⟨"B", .num 2, "", "http://s/q?page=3"⟩]
       "RAM" ⟨[], [], 1⟩).1.products =
      ([] : List Ingest.Product) ++
        [{ Ingest.mkNew ⟨"A", .num 1, "", "http://s/q"⟩ "RAM"
             (URLNorm.normStr "http://s/q") with id := 1 }] ∧
    ((Ingest.save_product_batch
       [⟨"A", .num 1, "", "http://s/q"⟩, ⟨"B", .num 2, "", "http://s/q?page=3"⟩]
       "RAM" ⟨[], [], 1⟩).1.products.map (fun p => p.product_url)).Nodup :=
  c9_batch_dedup ⟨"A", .num 1, "", "http://s/q"⟩
    ⟨"B", .num 2, "", "http://s/q?page=3"⟩ "RAM" ⟨[], [], 1⟩
    (by decide) (by decide) (by decide) rfl (by simp)
namespace URLNorm

theorem sf_not_mem (c : Byte) (s : BStr) (h : c ∉ s) :
    splitAtFirst c s = (s, none) := by
  induction s with
  | nil => rfl
  | cons b rest ih =>
    have hb : b ≠ c := fun he => h (he ▸ List.mem_cons_self b rest)
    have hr : c ∉ rest := fun hm => h (List.mem_cons_of_mem b hm)
    simp [splitAtFirst, hb, ih hr]

theorem sf_mem_split (c : Byte) (a t : BStr) (h : c ∉ a) :
    splitAtFirst c (a ++ c :: t) = (a, some t) := by
  induction a with
  | nil => simp [splitAtFirst]
  | cons b rest ih =>
    have hb : b ≠ c := fun he => h (he ▸ List.mem_cons_self b rest)
    have hr : c ∉ rest := fun hm => h (List.mem_cons_of_mem b hm)
    simp [splitAtFirst, hb, ih hr]

theorem sf_inv_none {c : Byte} {s a : BStr}
    (h : splitAtFirst c s = (a, none)) : a = s ∧ c ∉ s := by
  induction s generalizing a with
  | nil =>
    simp only [splitAtFirst, Prod.mk.injEq] at h
    exact ⟨h.1.symm, List.not_mem_nil c⟩
  | cons b rest ih =>
    by_cases hb : b = c
    · simp [splitAtFirst, hb] at h
    · simp only [splitAtFirst, hb, if_false, Prod.mk.injEq] at h
      obtain ⟨h1, h2⟩ := h
      obtain ⟨ha, hm⟩ := ih (Prod.ext rfl h2)
      refine ⟨by rw [← h1]; exact congrArg (List.cons b) ha, ?_⟩
      intro hmem
      rcases List.mem_cons.mp hmem with he | hm2
      · exact hb he.symm
      · exact hm hm2

theorem sf_inv_some {c : Byte} {s a t : BStr}
    (h : splitAtFirst c s = (a, some t)) : s = a ++ c :: t ∧ c ∉ a := by
  induction s generalizing a with
  | nil => simp [splitAtFirst] at h
  | cons b rest ih =>
    by_cases hb : b = c
    · subst hb
      simp only [splitAtFirst, if_pos rfl, Prod.mk.injEq, Option.some.injEq] at h
      obtain ⟨rfl, rfl⟩ := h
      exact ⟨rfl, List.not_mem_nil _⟩
    · simp only [splitAtFirst, hb, if_false, Prod.mk.injEq] at h
      obtain ⟨h1, h2⟩ := h
      obtain ⟨hs, hm⟩ := ih (Prod.ext rfl h2)
      refine ⟨?_, ?_⟩
      · rw [← h1, List.cons_append]
        exact congrArg (List.cons b) hs
      · rw [← h1]
        intro hmem
        rcases List.mem_cons.mp hmem with he | hm2
        · exact hb he.symm
        · exact hm hm2

theorem sl_build (c : Byte) (a b : BStr) (h : c ∉ b) :
    splitAtLast c (a ++ c :: b) = some (a, b) := by
  unfold splitAtLast
  have hrev : (a ++ c :: b).reverse = b.reverse ++ c :: a.reverse := by
    simp
  rw [hrev, sf_mem_split c _ _ (by simpa using h)]
  simp

theorem sl_not_mem (c : Byte) (s : BStr) (h : c ∉ s) :
    splitAtLast c s = none := by
  unfold splitAtLast
  rw [sf_not_mem c _ (by simpa using h)]

theorem sl_inv_some {c : Byte} {s a b : BStr}
    (h : splitAtLast c s = some (a, b)) : s = a ++ c :: b ∧ c ∉ b := by
  unfold splitAtLast at h
  cases hsf : splitAtFirst c s.reverse with
  | mk fst snd =>
    rw [hsf] at h
    cases snd with
    | none => simp at h
    | some revInit =>
      simp only [Option.some.injEq, Prod.mk.injEq] at h
      obtain ⟨h1, h2⟩ := h
      obtain ⟨hs, hm⟩ := sf_inv_some hsf
      constructor
      · have := congrArg List.reverse hs
        simp at this
        rw [this, ← h1, ← h2]
      · rw [← h2]
        simpa using hm

theorem splitAll_not_mem (c : Byte) (s : BStr) (h : c ∉ s) :
    splitAllB c s = [s] := by
  induction s with
  | nil => rfl
  | cons b rest ih =>
    have hb : b ≠ c := fun he => h (he ▸ List.mem_cons_self b rest)
    have hr : c ∉ rest := fun hm => h (List.mem_cons_of_mem b hm)
    simp [splitAllB, hb, ih hr]

theorem splitAll_cons_of_head (c : Byte) (x r : BStr) (h : c ∉ x) :
    splitAllB c (x ++ c :: r) = x :: splitAllB c r := by
  induction x with
  | nil => simp [splitAllB]
  | cons b rest ih =>
    have hb : b ≠ c := fun he => h (he ▸ List.mem_cons_self b rest)
    have hr : c ∉ rest := fun hm => h (List.mem_cons_of_mem b hm)
    simp only [List.cons_append, splitAllB, hb, if_false, List.append_eq]
    rw [ih hr]

theorem splitAll_join (parts : List BStr) (hne : parts ≠ [])
    (h : ∀ p ∈ parts, (38 : Byte) ∉ p) :
    splitAllB 38 (joinAmp parts) = parts := by
  induction parts with
  | nil => exact absurd rfl hne
  | cons x t ih =>
    cases t with
    | nil =>
      simp only [joinAmp]
      exact splitAll_not_mem 38 x (h x (List.mem_cons_self x []))
    | cons y t2 =>
      have hx : (38 : Byte) ∉ x := h x (List.mem_cons_self _ _)
      rw [show joinAmp (x :: y :: t2) = x ++ 38 :: joinAmp (y :: t2) from rfl]
      rw [splitAll_cons_of_head 38 x _ hx]
      rw [ih (by simp) (fun p hp => h p (List.mem_cons_of_mem x hp))]

theorem takeWhile_append_of_allB {p : Byte → Bool} {A : BStr}
    (h : ∀ b ∈ A, p b = true) (X : BStr) :
    (A ++ X).takeWhile p = A ++ X.takeWhile p := by
  induction A with
  | nil => rfl
  | cons b rest ih =>
    have hb : p b = true := h b (List.mem_cons_self _ _)
    simp only [List.cons_append, List.takeWhile_cons, hb, if_true]
    rw [ih (fun x hx => h x (List.mem_cons_of_mem b hx))]

theorem dropWhile_append_of_allB {p : Byte → Bool} {A : BStr}
    (h : ∀ b ∈ A, p b = true) (X : BStr) :
    (A ++ X).dropWhile p = X.dropWhile p := by
  induction A with
  | nil => rfl
  | cons b rest ih =>
    have hb : p b = true := h b (List.mem_cons_self _ _)
    simp only [List.cons_append, List.dropWhile_cons, hb, if_true]
    exact ih (fun x hx => h x (List.mem_cons_of_mem b hx))

set_option maxRecDepth 4000 in
theorem lowerByte_idem : ∀ b : Byte, lowerByte (lowerByte b) = lowerByte b := by
  decide

theorem lowerB_idem (s : BStr) : lowerB (lowerB s) = lowerB s := by
  simp only [lowerB, List.map_map]
  exact List.map_congr_left (fun b _ => lowerByte_idem b)

set_option maxRecDepth 4000 in
theorem lowerByte_alpha : ∀ b : Byte, isAlphaB (lowerByte b) = isAlphaB b := by
  decide

set_option maxRecDepth 4000 in
theorem lowerByte_schemeChar : ∀ b : Byte,
    isSchemeCharB (lowerByte b) = isSchemeCharB b := by
  decide

set_option maxRecDepth 4000 in
theorem schemeChar_ne_colon : ∀ b : Byte,
    isSchemeCharB b = true → b ≠ 58 := by
  decide

set_option maxRecDepth 4000 in
theorem alpha_schemeChar : ∀ b : Byte, isAlphaB b = true → isSchemeCharB b = true := by
  decide

set_option maxRecDepth 4000 in
theorem alpha_gt_space : ∀ b : Byte, isAlphaB b = true → 32 < b.val := by
  decide

set_option maxRecDepth 4000 in
theorem lowerByte_ctrl : ∀ b : Byte,
    ((lowerByte b).val = 9 ∨ (lowerByte b).val = 10 ∨ (lowerByte b).val = 13) →
    (b.val = 9 ∨ b.val = 10 ∨ b.val = 13) := by
  decide

end URLNorm

namespace URLNorm

set_option maxRecDepth 4000 in
theorem safe_not_special : ∀ b : Byte, isSafeB b = true → b ≠ 43 ∧ b ≠ 37 := by
  decide

set_option maxRecDepth 4000 in
theorem hexDigitU_round : ∀ n : Nat, n < 16 →
    hexVal (hexDigitU n) = n ∧ isHexDigitB (hexDigitU n) = true := by
  decide

set_option maxRecDepth 4000 in
theorem safe_byte_facts : ∀ b : Byte, isSafeB b = true →
    33 ≤ b.val ∧ b ≠ 38 ∧ b ≠ 61 ∧ b ≠ 58 ∧ b ≠ 63 ∧ b ≠ 35 := by
  decide

theorem hexDigitU_facts : ∀ n : Nat, n < 16 →
    33 ≤ (hexDigitU n).val ∧ hexDigitU n ≠ 38 ∧ hexDigitU n ≠ 61 ∧
    hexDigitU n ≠ 58 ∧ hexDigitU n ≠ 63 ∧ hexDigitU n ≠ 35 := by
  decide

theorem mem_quoteByte {x b : Byte} (h : x ∈ quoteByte b) :
    33 ≤ x.val ∧ x ≠ 38 ∧ x ≠ 61 ∧ x ≠ 58 ∧ x ≠ 63 ∧ x ≠ 35 := by
  unfold quoteByte at h
  by_cases hs : isSafeB b = true
  · rw [if_pos hs] at h
    obtain rfl : x = b := by simpa using h
    exact safe_byte_facts _ hs
  · rw [if_neg hs] at h
    by_cases h32 : b.val = 32
    · rw [if_pos h32] at h
      obtain rfl : x = (43 : Byte) := by simpa using h
      exact ⟨by decide, by decide, by decide, by decide, by decide, by decide⟩
    · rw [if_neg h32] at h
      have hd1 : b.val / 16 < 16 := by
        have := b.isLt
        omega
      have hd2 : b.val % 16 < 16 := Nat.mod_lt _ (by norm_num)
      rcases (by simpa using h :
          x = 37 ∨ x = hexDigitU (b.val / 16) ∨ x = hexDigitU (b.val % 16)) with
        rfl | rfl | rfl
      · exact ⟨by decide, by decide, by decide, by decide, by decide, by decide⟩
      · exact hexDigitU_facts _ hd1
      · exact hexDigitU_facts _ hd2

theorem quoteByte_ne_nil (b : Byte) : quoteByte b ≠ [] := by
  unfold quoteByte
  split
  · simp
  · split <;> simp

theorem quoteByte_unquote (b : Byte) (rest : BStr) :
    unquotePlus (quoteByte b ++ rest) = b :: unquotePlus rest := by
  by_cases hs : isSafeB b = true
  · have h43 : b ≠ 43 := (safe_not_special b hs).1
    have h37 : b ≠ 37 := (safe_not_special b hs).2
    have hq : quoteByte b = [b] := by simp [quoteByte, hs]
    rw [hq]
    cases rest with
    | nil => simp [unquotePlus, h43]
    | cons h1 t =>
      cases t with
      | nil => simp [unquotePlus, h43]
      | cons h2 t2 =>
        show unquotePlus (b :: h1 :: h2 :: t2) = b :: unquotePlus (h1 :: h2 :: t2)
        simp [unquotePlus, h43, h37]
  · by_cases h32 : b.val = 32
    · have hb : b = (32 : Byte) := Fin.ext (by rw [h32]; rfl)
      subst hb
      have hq : quoteByte (32 : Byte) = [43] := by decide
      rw [hq]
      cases rest with
      | nil => simp [unquotePlus]
      | cons h1 t =>
        cases t with
        | nil => simp [unquotePlus]
        | cons h2 t2 => simp [unquotePlus]
    · have hq : quoteByte b =
          [37, hexDigitU (b.val / 16), hexDigitU (b.val % 16)] := by
        simp [quoteByte, hs, h32]
      have hd1 : b.val / 16 < 16 := by
        have := b.isLt
        omega
      have hd2 : b.val % 16 < 16 := Nat.mod_lt _ (by norm_num)
      have hh1 := hexDigitU_round (b.val / 16) hd1
      have hh2 := hexDigitU_round (b.val % 16) hd2
      have h37ne : (37 : Byte) ≠ 43 := by decide
      rw [hq]
      show unquotePlus
          (37 :: hexDigitU (b.val / 16) :: hexDigitU (b.val % 16) :: rest) = _
      rw [show unquotePlus
          (37 :: hexDigitU (b.val / 16) :: hexDigitU (b.val % 16) :: rest) =
          hexByte (hexDigitU (b.val / 16)) (hexDigitU (b.val % 16)) ::
            unquotePlus rest from by
        simp [unquotePlus, h37ne, hh1.2, hh2.2]]
      congr 1
      unfold hexByte
      rw [hh1.1, hh2.1, Nat.div_add_mod]
      exact Fin.ext (by simp [bOf, Nat.mod_eq_of_lt b.isLt])

theorem unquote_quotePlus (s : BStr) : unquotePlus (quotePlus s) = s := by
  induction s with
  | nil => rfl
  | cons b t ih =>
    have hq : quotePlus (b :: t) = quoteByte b ++ quotePlus t := by
      simp [quotePlus]
    rw [hq, quoteByte_unquote, ih]

theorem mem_quotePlus {x : Byte} {s : BStr} (h : x ∈ quotePlus s) :
    33 ≤ x.val ∧ x ≠ 38 ∧ x ≠ 61 ∧ x ≠ 58 ∧ x ≠ 63 ∧ x ≠ 35 := by
  unfold quotePlus at h
  rw [List.mem_flatten] at h
  obtain ⟨l, hl, hx⟩ := h
  obtain ⟨b, hb, rfl⟩ := List.mem_map.mp hl
  exact mem_quoteByte hx

theorem quotePlus_ne_nil {s : BStr} (h : s ≠ []) : quotePlus s ≠ [] := by
  cases s with
  | nil => exact absurd rfl h
  | cons b t =>
    have hq : quotePlus (b :: t) = quoteByte b ++ quotePlus t := by
      simp [quotePlus]
    rw [hq]
    intro he
    exact quoteByte_ne_nil b (List.append_eq_nil.mp he).1

theorem unquotePlus_ne_nil {s : BStr} (h : s ≠ []) : unquotePlus s ≠ [] := by
  match s with
  | [] => exact absurd rfl h
  | b :: h1 :: h2 :: t =>
    show unquotePlus (b :: h1 :: h2 :: t) ≠ []
    simp only [unquotePlus]
    split
    · simp
    · split <;> simp
  | [b] =>
    show unquotePlus [b] ≠ []
    simp only [unquotePlus]
    split <;> simp
  | [b, h1] =>
    show unquotePlus [b, h1] ≠ []
    simp only [unquotePlus]
    split <;> simp

theorem qslPair_field (k v : BStr) (hv : v ≠ []) :
    qslPair (quotePlus k ++ 61 :: quotePlus v) = some (k, v) := by
  have hne : quotePlus k ++ 61 :: quotePlus v ≠ [] := by simp
  have h61 : (61 : Byte) ∉ quotePlus k := fun hm =>
    (mem_quotePlus hm).2.2.1 rfl
  unfold qslPair
  rw [if_neg hne, sf_mem_split 61 _ _ h61]
  show (if quotePlus v = [] then none
    else some (unquotePlus (quotePlus k), unquotePlus (quotePlus v))) = some (k, v)
  rw [if_neg (quotePlus_ne_nil hv), unquote_quotePlus, unquote_quotePlus]

theorem filterMap_id_of_some {α : Type} {f : α → Option α} :
    ∀ l : List α, (∀ x ∈ l, f x = some x) → l.filterMap f = l := by
  intro l
  induction l with
  | nil => intro _; rfl
  | cons a t ih =>
    intro h
    rw [List.filterMap_cons, h a (List.mem_cons_self a t),
      ih (fun x hx => h x (List.mem_cons_of_mem _ hx))]

theorem qslPair_some {nv : BStr} {p : BStr × BStr} (h : qslPair nv = some p) :
    p.2 ≠ [] := by
  by_cases hnv : nv = []
  · simp [qslPair, hnv] at h
  · unfold qslPair at h
    rw [if_neg hnv] at h
    rcases hsf : splitAtFirst 61 nv with ⟨n, vo⟩
    rw [hsf] at h
    cases vo with
    | none => simp at h
    | some v =>
      have h2 : (if v = [] then none
          else some (unquotePlus n, unquotePlus v)) = some p := h
      by_cases hv : v = []
      · simp [hv] at h2
      · rw [if_neg hv] at h2
        obtain rfl := Option.some.inj h2
        exact unquotePlus_ne_nil hv

theorem parseQsl_vals (qs : BStr) : ∀ p ∈ parseQsl qs, p.2 ≠ [] := by
  intro p hp
  unfold parseQsl at hp
  obtain ⟨nv, _, hsome⟩ := List.mem_filterMap.mp hp
  exact qslPair_some hsome

end URLNorm

namespace URLNorm

theorem qsInsert_keys (k : BStr) (v : BStr) :
    ∀ acc : List (BStr × List BStr),
    (qsInsert acc k v).map Prod.fst =
      if k ∈ acc.map Prod.fst then acc.map Prod.fst
      else acc.map Prod.fst ++ [k] := by
  intro acc
  induction acc with
  | nil => simp [qsInsert]
  | cons a t ih =>
    obtain ⟨k2, vs⟩ := a
    by_cases hk : k2 = k
    · subst hk
      simp [qsInsert]
    · simp only [qsInsert, hk, if_false, List.map_cons, ih]
      by_cases hmem : k ∈ t.map Prod.fst
      · simp [hmem, hk]
      · simp only [hmem, if_false, List.mem_cons]
        rw [if_neg (by push_neg; exact ⟨fun he => hk he.symm, by simp⟩)]
        simp

theorem qsInsert_nodup {acc : List (BStr × List BStr)} (k : BStr) (v : BStr)
    (h : (acc.map Prod.fst).Nodup) :
    ((qsInsert acc k v).map Prod.fst).Nodup := by
  rw [qsInsert_keys]
  by_cases hmem : k ∈ acc.map Prod.fst
  · rwa [if_pos hmem]
  · rw [if_neg hmem]
    rw [List.nodup_append]
    exact ⟨h, List.nodup_singleton k, by simpa using hmem⟩

theorem qsInsert_vals {acc : List (BStr × List BStr)} {k : BStr} {v : BStr}
    (h : ∀ kv ∈ acc, kv.2 ≠ [] ∧ ∀ x ∈ kv.2, x ≠ []) (hv : v ≠ []) :
    ∀ kv ∈ qsInsert acc k v, kv.2 ≠ [] ∧ ∀ x ∈ kv.2, x ≠ [] := by
  induction acc with
  | nil =>
    intro kv hkv
    simp only [qsInsert, List.mem_singleton] at hkv
    subst hkv
    exact ⟨by simp, by simpa using hv⟩
  | cons a t ih =>
    obtain ⟨k2, vs⟩ := a
    intro kv hkv
    by_cases hk : k2 = k
    · subst hk
      rw [show qsInsert ((k2, vs) :: t) k2 v = (k2, vs ++ [v]) :: t from by
        simp [qsInsert]] at hkv
      rcases List.mem_cons.mp hkv with he | hmem
      · subst he
        have ha := h (k2, vs) (List.mem_cons_self _ _)
        refine ⟨by simp, ?_⟩
        intro x hx
        rcases List.mem_append.mp hx with h1 | h2
        · exact ha.2 x h1
        · rw [List.mem_singleton.mp h2]
          exact hv
      · exact h kv (List.mem_cons_of_mem _ hmem)
    · rw [show qsInsert ((k2, vs) :: t) k v = (k2, vs) :: qsInsert t k v from by
        simp [qsInsert, hk]] at hkv
      rcases List.mem_cons.mp hkv with he | hmem
      · subst he
        exact h (k2, vs) (List.mem_cons_self _ _)
      · exact ih (fun x hx => h x (List.mem_cons_of_mem _ hx)) kv hmem

theorem qsfold_nodup : ∀ (l : List (BStr × BStr)) (acc : List (BStr × List BStr)),
    (acc.map Prod.fst).Nodup →
    ((l.foldl (fun a p => qsInsert a p.1 p.2) acc).map Prod.fst).Nodup := by
  intro l
  induction l with
  | nil => intro acc h; exact h
  | cons p t ih =>
    intro acc h
    exact ih _ (qsInsert_nodup p.1 p.2 h)

theorem qsfold_vals : ∀ (l : List (BStr × BStr)) (acc : List (BStr × List BStr)),
    (∀ kv ∈ acc, kv.2 ≠ [] ∧ ∀ x ∈ kv.2, x ≠ []) →
    (∀ p ∈ l, p.2 ≠ []) →
    ∀ kv ∈ l.foldl (fun a p => qsInsert a p.1 p.2) acc,
      kv.2 ≠ [] ∧ ∀ x ∈ kv.2, x ≠ [] := by
  intro l
  induction l with
  | nil => intro acc h _; exact h
  | cons p t ih =>
    intro acc h hl
    exact ih _ (qsInsert_vals h (hl p (List.mem_cons_self _ _)))
      (fun x hx => hl x (List.mem_cons_of_mem _ hx))

theorem parseQs_nodup (qs : BStr) : ((parseQs qs).map Prod.fst).Nodup :=
  qsfold_nodup _ [] (by simp)

theorem parseQs_vals (qs : BStr) :
    ∀ kv ∈ parseQs qs, kv.2 ≠ [] ∧ ∀ x ∈ kv.2, x ≠ [] :=
  qsfold_vals _ [] (by simp) (parseQsl_vals qs)

theorem filterParams_sub {l : List (BStr × List BStr)}
    {kv : BStr × List BStr} (h : kv ∈ filterParams l) : kv ∈ l :=
  List.mem_of_mem_filter h

theorem filterParams_nodup {l : List (BStr × List BStr)}
    (h : (l.map Prod.fst).Nodup) :
    ((filterParams l).map Prod.fst).Nodup :=
  List.Nodup.sublist (List.Sublist.map Prod.fst (List.filter_sublist l)) h

theorem filterParams_idem (l : List (BStr × List BStr)) :
    filterParams (filterParams l) = filterParams l := by
  simp [filterParams, List.filter_filter]

theorem qsInsert_fresh : ∀ (acc : List (BStr × List BStr)) (k : BStr) (v : BStr),
    k ∉ acc.map Prod.fst → qsInsert acc k v = acc ++ [(k, [v])] := by
  intro acc
  induction acc with
  | nil => intro k v _; rfl
  | cons a t ih =>
    obtain ⟨k2, vs⟩ := a
    intro k v h
    have hk : k2 ≠ k := by
      intro he
      exact h (by simp [he])
    have ht : k ∉ t.map Prod.fst := by
      intro hm
      exact h (by simp [hm])
    simp only [qsInsert, hk, if_false, ih k v ht, List.cons_append]

theorem qsInsert_last : ∀ (acc : List (BStr × List BStr)) (k : BStr)
    (w : List BStr) (v : BStr), k ∉ acc.map Prod.fst →
    qsInsert (acc ++ [(k, w)]) k v = acc ++ [(k, w ++ [v])] := by
  intro acc
  induction acc with
  | nil => intro k w v _; simp [qsInsert]
  | cons a t ih =>
    obtain ⟨k2, vs⟩ := a
    intro k w v h
    have hk : k2 ≠ k := by
      intro he
      exact h (by simp [he])
    have ht : k ∉ t.map Prod.fst := by
      intro hm
      exact h (by simp [hm])
    simp only [List.cons_append, qsInsert, hk, if_false, List.append_eq,
      ih k w v ht]

theorem qsfold_group : ∀ (vs : List BStr) (acc : List (BStr × List BStr))
    (k : BStr) (w : List BStr), k ∉ acc.map Prod.fst →
    (vs.map (fun v => (k, v))).foldl (fun a p => qsInsert a p.1 p.2)
        (acc ++ [(k, w)]) =
      acc ++ [(k, w ++ vs)] := by
  intro vs
  induction vs with
  | nil => intro acc k w _; simp
  | cons v vr ih =>
    intro acc k w h
    simp only [List.map_cons, List.foldl_cons]
    rw [qsInsert_last acc k w v h, ih acc k (w ++ [v]) h]
    simp

theorem qsfold_flat : ∀ (t : List (BStr × List BStr))
    (acc : List (BStr × List BStr)),
    (t.map Prod.fst).Nodup →
    (∀ key ∈ t.map Prod.fst, key ∉ acc.map Prod.fst) →
    (∀ kv ∈ t, kv.2 ≠ []) →
    ((t.map (fun kv => kv.2.map (fun v => (kv.1, v)))).flatten).foldl
        (fun a p => qsInsert a p.1 p.2) acc = acc ++ t := by
  intro t
  induction t with
  | nil => intro acc _ _ _; simp
  | cons a t2 ih =>
    obtain ⟨k, vs⟩ := a
    intro acc hnd hfr hvs
    have hnd2 : (k :: t2.map Prod.fst).Nodup := by simpa using hnd
    have hknot : k ∉ t2.map Prod.fst := (List.nodup_cons.mp hnd2).1
    have hndt : (t2.map Prod.fst).Nodup := (List.nodup_cons.mp hnd2).2
    simp only [List.map_cons, List.flatten_cons, List.foldl_append]
    have hk : k ∉ acc.map Prod.fst := hfr k (by simp)
    have hvs0 : vs ≠ [] := hvs (k, vs) (List.mem_cons_self _ _)
    obtain ⟨v0, vr, rfl⟩ : ∃ v0 vr, vs = v0 :: vr := by
      cases vs with
      | nil => exact absurd rfl hvs0
      | cons v0 vr => exact ⟨v0, vr, rfl⟩
    have hstep : ((v0 :: vr).map (fun v => (k, v))).foldl
        (fun a p => qsInsert a p.1 p.2) acc = acc ++ [(k, v0 :: vr)] := by
      simp only [List.map_cons, List.foldl_cons]
      rw [show qsInsert acc k v0 = acc ++ [(k, [v0])] from qsInsert_fresh acc k v0 hk]
      rw [qsfold_group vr acc k [v0] hk]
      simp
    rw [hstep]
    rw [ih (acc ++ [(k, v0 :: vr)]) hndt ?_ ?_]
    · simp
    · intro key hkey
      rw [List.map_append]
      intro hmem
      rcases List.mem_append.mp hmem with h1 | h2
      · exact hfr key (List.mem_cons_of_mem _ hkey) h1
      · have he : key = k := by simpa using h2
        subst he
        exact hknot hkey
    · intro kv hkv
      exact hvs kv (List.mem_cons_of_mem _ hkv)

theorem encode_flat_exchange : ∀ l : List (BStr × List BStr),
    (l.map (fun kv => kv.2.map
        (fun v => quotePlus kv.1 ++ 61 :: quotePlus v))).flatten =
      ((l.map (fun kv => kv.2.map (fun v => (kv.1, v)))).flatten).map
        (fun kv => quotePlus kv.1 ++ 61 :: quotePlus kv.2) := by
  intro l
  induction l with
  | nil => rfl
  | cons a t ih =>
    simp only [List.map_cons, List.flatten_cons, List.map_append, List.map_map, ih]
    rfl

theorem parseQs_encode (fp : List (BStr × List BStr))
    (hnd : (fp.map Prod.fst).Nodup)
    (hvals : ∀ kv ∈ fp, kv.2 ≠ [] ∧ ∀ x ∈ kv.2, x ≠ []) :
    parseQs (urlencodeSeq fp) = fp := by
  cases hfp : fp with
  | nil =>
    subst hfp
    rfl
  | cons a t =>
    rw [← hfp]
    have hvs : ∀ kv ∈ fp, kv.2 ≠ [] := fun kv hkv => (hvals kv hkv).1
    have hflat_ne : (fp.map (fun kv => kv.2.map (fun v => (kv.1, v)))).flatten ≠ [] := by
      rw [hfp]
      simp only [List.map_cons, List.flatten_cons]
      have := hvs a (hfp ▸ List.mem_cons_self _ _)
      intro he
      obtain ⟨h1, -⟩ := List.append_eq_nil.mp he
      exact this (by simpa using h1)
    have hflat_vals : ∀ p ∈ (fp.map (fun kv =>
        kv.2.map (fun v => (kv.1, v)))).flatten, p.2 ≠ [] := by
      intro p hp
      rw [List.mem_flatten] at hp
      obtain ⟨lp, hlp, hpin⟩ := hp
      obtain ⟨kv, hkv, rfl⟩ := List.mem_map.mp hlp
      obtain ⟨v, hv, rfl⟩ := List.mem_map.mp hpin
      exact (hvals kv hkv).2 v hv
    have henc : parseQsl (urlencodeSeq fp) =
        (fp.map (fun kv => kv.2.map (fun v => (kv.1, v)))).flatten := by
      unfold urlencodeSeq parseQsl
      rw [encode_flat_exchange]
      have henc_ne : ((fp.map (fun kv =>
          kv.2.map (fun v => (kv.1, v)))).flatten).map
            (fun kv => quotePlus kv.1 ++ 61 :: quotePlus kv.2) ≠ [] := by
        intro he
        exact hflat_ne (List.map_eq_nil_iff.mp he)
      rw [splitAll_join _ henc_ne ?_]
      · rw [List.filterMap_map]
        refine filterMap_id_of_some _ ?_
        intro p hp
        have := hflat_vals p hp
        exact qslPair_field p.1 p.2 this
      · intro p hp
        obtain ⟨kv, hkv, rfl⟩ := List.mem_map.mp hp
        intro hm
        rcases List.mem_append.mp hm with h1 | h2
        · exact (mem_quotePlus h1).2.1 rfl
        · rcases List.mem_cons.mp h2 with he | h3
          · exact absurd he (by decide)
          · exact (mem_quotePlus h3).2.1 rfl
    unfold parseQs
    rw [henc]
    have := qsfold_flat fp [] hnd (by simp) hvs
    simpa using this

theorem query_stable (q : BStr) :
    filterParams (parseQs (urlencodeSeq (filterParams (parseQs q)))) =
      filterParams (parseQs q) := by
  rw [parseQs_encode (filterParams (parseQs q))
    (filterParams_nodup (parseQs_nodup q))
    (fun kv hkv => parseQs_vals q kv (filterParams_sub hkv))]
  exact filterParams_idem (parseQs q)

end URLNorm

namespace URLNorm

theorem containsB_iff {c : Byte} {s : BStr} : containsB c s = true ↔ c ∈ s := by
  simp [containsB]

theorem sl_inv_none {c : Byte} {s : BStr} (h : splitAtLast c s = none) :
    c ∉ s := by
  intro hmem
  unfold splitAtLast at h
  rcases hsf : splitAtFirst c s.reverse with ⟨fst, vo⟩
  rw [hsf] at h
  cases vo with
  | none =>
    have := (sf_inv_none hsf).2
    exact this (List.mem_reverse.mpr hmem)
  | some t => simp at h

theorem splitParams_nil : splitParams [] = ([], []) := rfl

theorem splitParams_resplit (p0 : BStr) :
    splitParams (if (splitParams p0).2 = [] then (splitParams p0).1
        else (splitParams p0).1 ++ 59 :: (splitParams p0).2) = splitParams p0 ∧
    splitParams ((47 : Byte) :: (if (splitParams p0).2 = [] then (splitParams p0).1
        else (splitParams p0).1 ++ 59 :: (splitParams p0).2)) =
      ((47 : Byte) :: (splitParams p0).1, (splitParams p0).2) := by
  by_cases h59 : containsB 59 p0 = true
  · have h59m : (59 : Byte) ∈ p0 := containsB_iff.mp h59
    rcases hsl : splitAtLast 47 p0 with _ | ⟨a, b⟩
    · have h47 : (47 : Byte) ∉ p0 := sl_inv_none hsl
      rcases hsf : splitAtFirst 59 p0 with ⟨a1, vo⟩
      cases vo with
      | none => exact absurd ((sf_inv_none hsf).2 h59m) (by simp)
      | some a2 =>
        obtain ⟨hdec, h59a1⟩ := sf_inv_some hsf
        have hsp : splitParams p0 = (a1, a2) := by
          unfold splitParams
          simp only [if_pos h59, hsl, hsf]
        rw [hsp]
        by_cases ha2 : a2 = []
        · subst ha2
          show splitParams a1 = (a1, []) ∧
            splitParams ((47 : Byte) :: a1) = ((47 : Byte) :: a1, [])
          have hc1 : containsB 59 a1 = false := by
            rw [Bool.eq_false_iff]
            intro hc
            exact h59a1 (containsB_iff.mp hc)
          have hc2 : containsB 59 ((47 : Byte) :: a1) = false := by
            rw [Bool.eq_false_iff]
            intro hc
            rcases List.mem_cons.mp (containsB_iff.mp hc) with he | hm
            · exact absurd he (by decide)
            · exact h59a1 hm
          exact ⟨by unfold splitParams; rw [hc1]; rfl,
                 by unfold splitParams; rw [hc2]; rfl⟩
        · rw [if_neg ha2, ← hdec]
          refine ⟨hsp, ?_⟩
          have h59c : containsB 59 ((47 : Byte) :: p0) = true :=
            containsB_iff.mpr (List.mem_cons_of_mem _ h59m)
          have hsl2 : splitAtLast 47 ((47 : Byte) :: p0) = some ([], p0) := by
            have := sl_build 47 [] p0 h47
            simpa using this
          unfold splitParams
          simp only [if_pos h59c, hsl2, hsf]
          simp
    · obtain ⟨hp0, h47b⟩ := sl_inv_some hsl
      rcases hsf : splitAtFirst 59 b with ⟨b1, vo⟩
      have hsl2 : splitAtLast 47 ((47 : Byte) :: p0) = some ((47 : Byte) :: a, b) := by
        rw [show (47 : Byte) :: p0 = ((47 : Byte) :: a) ++ 47 :: b from by
          rw [hp0]; rfl]
        exact sl_build 47 (47 :: a) b h47b
      cases vo with
      | none =>
        obtain ⟨hb1, h59b⟩ := sf_inv_none hsf
        have hsp : splitParams p0 = (p0, []) := by
          unfold splitParams
          simp only [if_pos h59, hsl, hsf]
        rw [hsp]
        show splitParams p0 = (p0, []) ∧
          splitParams ((47 : Byte) :: p0) = ((47 : Byte) :: p0, [])
        refine ⟨hsp, ?_⟩
        have h59c : containsB 59 ((47 : Byte) :: p0) = true :=
          containsB_iff.mpr (List.mem_cons_of_mem _ h59m)
        unfold splitParams
        simp only [if_pos h59c, hsl2, hsf]
      | some b2 =>
        obtain ⟨hb, h59b1⟩ := sf_inv_some hsf
        have hsp : splitParams p0 = (a ++ 47 :: b1, b2) := by
          unfold splitParams
          simp only [if_pos h59, hsl, hsf]
        rw [hsp]
        have h47b1 : (47 : Byte) ∉ b1 := fun hm =>
          h47b (hb ▸ List.mem_append.mpr (Or.inl hm))
        by_cases hb2 : b2 = []
        · subst hb2
          show splitParams (a ++ 47 :: b1) = (a ++ 47 :: b1, []) ∧
            splitParams ((47 : Byte) :: (a ++ 47 :: b1)) =
              ((47 : Byte) :: (a ++ 47 :: b1), [])
          constructor
          · by_cases hc : containsB 59 (a ++ 47 :: b1) = true
            · unfold splitParams
              simp only [if_pos hc, sl_build 47 a b1 h47b1,
                sf_not_mem 59 b1 h59b1]
            · unfold splitParams
              rw [Bool.eq_false_iff.mpr hc]
              rfl
          · by_cases hc : containsB 59 ((47 : Byte) :: (a ++ 47 :: b1)) = true
            · have hsl3 : splitAtLast 47 ((47 : Byte) :: (a ++ 47 :: b1)) =
                  some ((47 : Byte) :: a, b1) := by
                rw [show (47 : Byte) :: (a ++ 47 :: b1) =
                    ((47 : Byte) :: a) ++ 47 :: b1 from rfl]
                exact sl_build 47 (47 :: a) b1 h47b1
              unfold splitParams
              simp only [if_pos hc, hsl3, sf_not_mem 59 b1 h59b1]
            · unfold splitParams
              rw [Bool.eq_false_iff.mpr hc]
              rfl
        · rw [if_neg hb2]
          have hre : (a ++ 47 :: b1) ++ 59 :: b2 = p0 := by
            rw [hp0, hb]
            simp
          rw [hre]
          refine ⟨hsp, ?_⟩
          have h59c : containsB 59 ((47 : Byte) :: p0) = true :=
            containsB_iff.mpr (List.mem_cons_of_mem _ h59m)
          unfold splitParams
          simp only [if_pos h59c, hsl2, hsf]
          simp
  · have h59f : containsB 59 p0 = false := Bool.eq_false_iff.mpr h59
    have h59m : (59 : Byte) ∉ p0 := fun hm => h59 (containsB_iff.mpr hm)
    have hsp : splitParams p0 = (p0, []) := by
      unfold splitParams
      rw [h59f]
      rfl
    rw [hsp]
    show splitParams p0 = (p0, []) ∧
      splitParams ((47 : Byte) :: p0) = ((47 : Byte) :: p0, [])
    refine ⟨hsp, ?_⟩
    have hc2 : containsB 59 ((47 : Byte) :: p0) = false := by
      rw [Bool.eq_false_iff]
      intro hc
      rcases List.mem_cons.mp (containsB_iff.mp hc) with he | hm
      · exact absurd he (by decide)
      · exact h59m hm
    unfold splitParams
    rw [hc2]
    rfl

theorem splitParams_decomp (p0 : BStr) :
    ((splitParams p0).2 = [] ∧ (splitParams p0).1 = p0) ∨
    p0 = (splitParams p0).1 ++ 59 :: (splitParams p0).2 := by
  by_cases h59 : containsB 59 p0 = true
  · rcases hsl : splitAtLast 47 p0 with _ | ⟨a, b⟩
    · rcases hsf : splitAtFirst 59 p0 with ⟨a1, vo⟩
      cases vo with
      | none =>
        left
        have hsp : splitParams p0 = (p0, []) := by
          unfold splitParams
          simp only [if_pos h59, hsl, hsf]
        rw [hsp]
        exact ⟨rfl, rfl⟩
      | some a2 =>
        right
        have hsp : splitParams p0 = (a1, a2) := by
          unfold splitParams
          simp only [if_pos h59, hsl, hsf]
        rw [hsp]
        exact (sf_inv_some hsf).1
    · rcases hsf : splitAtFirst 59 b with ⟨b1, vo⟩
      cases vo with
      | none =>
        left
        have hsp : splitParams p0 = (p0, []) := by
          unfold splitParams
          simp only [if_pos h59, hsl, hsf]
        rw [hsp]
        exact ⟨rfl, rfl⟩
      | some b2 =>
        right
        have hsp : splitParams p0 = (a ++ 47 :: b1, b2) := by
          unfold splitParams
          simp only [if_pos h59, hsl, hsf]
        rw [hsp]
        rw [(sl_inv_some hsl).1, (sf_inv_some hsf).1]
        simp
  · left
    unfold splitParams
    rw [Bool.eq_false_iff.mpr h59]
    exact ⟨rfl, rfl⟩

theorem starts2Slash_join (pa pr : BStr) :
    starts2Slash (if pr = [] then pa else pa ++ 59 :: pr) = starts2Slash pa := by
  by_cases hpr : pr = []
  · rw [if_pos hpr]
  · rw [if_neg hpr]
    match pa with
    | [] =>
      show starts2Slash (59 :: pr) = starts2Slash []
      cases pr with
      | nil => rfl
      | cons x t => simp [starts2Slash]
    | [x] =>
      show starts2Slash (x :: 59 :: pr) = starts2Slash [x]
      simp [starts2Slash]
    | x :: y :: t => rfl

end URLNorm

namespace URLNorm

theorem dropWhile_head_not {p : Byte → Bool} :
    ∀ (s : BStr) {x : Byte} {xs : BStr}, s.dropWhile p = x :: xs → p x = false := by
  intro s
  induction s with
  | nil => intro x xs h; simp at h
  | cons b t ih =>
    intro x xs h
    rw [List.dropWhile_cons] at h
    by_cases hb : p b = true
    · rw [if_pos hb] at h
      exact ih h
    · rw [if_neg hb] at h
      obtain ⟨rfl, -⟩ := List.cons.inj h
      exact Bool.eq_false_iff.mpr hb

theorem cleanUrl_id {s : BStr}
    (hnc : ∀ b ∈ s, b.val ≠ 9 ∧ b.val ≠ 10 ∧ b.val ≠ 13)
    (hh : ∀ b t, s = b :: t → 32 < b.val) :
    cleanUrl s = s := by
  unfold cleanUrl
  have hdw : s.dropWhile (fun b => decide (b.val ≤ 32)) = s := by
    cases s with
    | nil => rfl
    | cons b t =>
      rw [List.dropWhile_cons]
      have hgt := hh b t rfl
      rw [if_neg (by simpa using Nat.not_le.mpr hgt)]
  rw [hdw]
  rw [List.filter_eq_self]
  intro b hb
  obtain ⟨h9, h10, h13⟩ := hnc b hb
  simp [h9, h10, h13]

theorem cleanUrl_no_ctrl {s : BStr} :
    ∀ b ∈ cleanUrl s, b.val ≠ 9 ∧ b.val ≠ 10 ∧ b.val ≠ 13 := by
  intro b hb
  unfold cleanUrl at hb
  have hmem := List.of_mem_filter hb
  have h2 : (¬b.val = 9 ∧ ¬b.val = 10) ∧ ¬b.val = 13 := by simpa using hmem
  exact ⟨h2.1.1, h2.1.2, h2.2⟩

theorem cleanUrl_head {s : BStr} : ∀ {b : Byte} {t : BStr},
    cleanUrl s = b :: t → 32 < b.val := by
  intro b t h
  unfold cleanUrl at h
  rcases hdw : s.dropWhile (fun x => decide (x.val ≤ 32)) with _ | ⟨x, xs⟩
  · rw [hdw] at h
    simp at h
  · rw [hdw] at h
    have hx : (decide (x.val ≤ 32)) = false := dropWhile_head_not s hdw
    have hx2 : ¬ x.val ≤ 32 := by simpa using hx
    rw [List.filter_cons, if_pos (by
      simp only [Bool.not_eq_true', Bool.or_eq_false_iff, decide_eq_false_iff_not]
      omega)] at h
    obtain ⟨rfl, -⟩ := List.cons.inj h
    omega

theorem splitScheme_no_colon {s : BStr} (h : (58 : Byte) ∉ s) :
    splitScheme s = ([], s) := by
  unfold splitScheme
  rw [sf_not_mem 58 s h]

theorem splitScheme_head_bad {b : Byte} {rest : BStr} (hb : isAlphaB b = false) :
    splitScheme (b :: rest) = ([], b :: rest) := by
  unfold splitScheme
  rcases hsf : splitAtFirst 58 (b :: rest) with ⟨before, vo⟩
  cases vo with
  | none => simp only [hsf]
  | some t =>
    obtain ⟨hdec, hnm⟩ := sf_inv_some hsf
    cases before with
    | nil => simp only [hsf]
    | cons b0 rb =>
      have h1 : b = b0 := by
        have h2 : b :: rest = b0 :: (rb ++ 58 :: t) := by simpa using hdec
        exact (List.cons.inj h2).1
      simp only [hsf]
      rw [show isAlphaB b0 = false from h1 ▸ hb]
      simp

theorem splitScheme_build {b0 : Byte} {rb rest : BStr}
    (hb0 : isAlphaB b0 = true) (hall : rb.all isSchemeCharB = true)
    (hnc : (58 : Byte) ∉ b0 :: rb) :
    splitScheme ((b0 :: rb) ++ 58 :: rest) = (lowerB (b0 :: rb), rest) := by
  unfold splitScheme
  simp only [sf_mem_split 58 _ _ hnc]
  rw [hb0, hall]
  simp

theorem splitScheme_guard_fail {b0 : Byte} {rb : BStr}
    (hg : (isAlphaB b0 && rb.all isSchemeCharB) = false)
    (hnm : (58 : Byte) ∉ b0 :: rb) (X : BStr) :
    splitScheme ((b0 :: rb) ++ 58 :: X) = ([], (b0 :: rb) ++ 58 :: X) := by
  unfold splitScheme
  simp only [sf_mem_split 58 _ _ hnm]
  rw [hg]
  simp

theorem splitScheme_inv {u sch r : BStr} (h : splitScheme u = (sch, r))
    (hne : sch ≠ []) :
    ∃ b0 rb, sch = lowerB (b0 :: rb) ∧ isAlphaB b0 = true ∧
      rb.all isSchemeCharB = true ∧ (58 : Byte) ∉ b0 :: rb ∧
      u = (b0 :: rb) ++ 58 :: r := by
  unfold splitScheme at h
  rcases hsf : splitAtFirst 58 u with ⟨before, vo⟩
  rw [hsf] at h
  cases vo with
  | none =>
    have h2 : (([] : BStr), u) = (sch, r) := h
    exact absurd ((Prod.mk.injEq _ _ _ _ ▸ h2).1).symm hne
  | some t =>
    obtain ⟨hdec, hnm⟩ := sf_inv_some hsf
    cases before with
    | nil =>
      have h2 : (([] : BStr), u) = (sch, r) := h
      exact absurd ((Prod.mk.injEq _ _ _ _ ▸ h2).1).symm hne
    | cons b0 rb =>
      have h2 : (if (isAlphaB b0 && rb.all isSchemeCharB) = true
          then (lowerB (b0 :: rb), t) else ([], u)) = (sch, r) := h
      by_cases hg : (isAlphaB b0 && rb.all isSchemeCharB) = true
      · rw [if_pos hg] at h2
        obtain ⟨h1, h3⟩ := Prod.mk.injEq _ _ _ _ ▸ h2
        obtain ⟨hb0, hall⟩ := Bool.and_eq_true_iff.mp hg
        exact ⟨b0, rb, h1.symm, hb0, hall, hnm, by rw [hdec, h3]⟩
      · rw [if_neg hg] at h2
        exact absurd ((Prod.mk.injEq _ _ _ _ ▸ h2).1).symm hne

theorem splitScheme_nil_inv {u r : BStr} (h : splitScheme u = ([], r)) :
    r = u := by
  unfold splitScheme at h
  rcases hsf : splitAtFirst 58 u with ⟨before, vo⟩
  rw [hsf] at h
  cases vo with
  | none =>
    have h2 : (([] : BStr), u) = (([] : BStr), r) := h
    exact ((Prod.mk.injEq _ _ _ _ ▸ h2).2).symm
  | some t =>
    cases before with
    | nil =>
      have h2 : (([] : BStr), u) = (([] : BStr), r) := h
      exact ((Prod.mk.injEq _ _ _ _ ▸ h2).2).symm
    | cons b0 rb =>
      have h2 : (if (isAlphaB b0 && rb.all isSchemeCharB) = true
          then (lowerB (b0 :: rb), t) else ([], u)) = (([] : BStr), r) := h
      by_cases hg : (isAlphaB b0 && rb.all isSchemeCharB) = true
      · rw [if_pos hg] at h2
        obtain ⟨h1, -⟩ := Prod.mk.injEq _ _ _ _ ▸ h2
        simp [lowerB] at h1
      · rw [if_neg hg] at h2
        exact ((Prod.mk.injEq _ _ _ _ ▸ h2).2).symm

theorem mem_first_decomp {c : Byte} {s : BStr} (h : c ∈ s) :
    ∃ pre post, s = pre ++ c :: post ∧ c ∉ pre := by
  rcases hsf : splitAtFirst c s with ⟨a, vo⟩
  cases vo with
  | none => exact absurd h (sf_inv_none hsf).2
  | some t =>
    obtain ⟨hdec, hnm⟩ := sf_inv_some hsf
    exact ⟨a, t, hdec, hnm⟩

theorem splitNetloc_not2slash {s : BStr} (h : starts2Slash s = false) :
    splitNetloc s = none := by
  match s with
  | [] => rfl
  | [a] => rfl
  | a :: b :: t =>
    unfold splitNetloc
    show (if (decide (a = (47 : Byte)) && decide (b = (47 : Byte))) = true then
        some (t.takeWhile (fun x => !netDelim x), t.dropWhile (fun x => !netDelim x))
      else none) = none
    rw [show (decide (a = (47 : Byte)) && decide (b = (47 : Byte))) =
      starts2Slash (a :: b :: t) from rfl, h]
    rfl

theorem splitNetloc_build {nl X : BStr}
    (hnd : ∀ b ∈ nl, netDelim b = false)
    (hX : X = [] ∨ ∃ x xs, X = x :: xs ∧ netDelim x = true) :
    splitNetloc (47 :: 47 :: (nl ++ X)) = some (nl, X) := by
  unfold splitNetloc
  show (if (decide ((47 : Byte) = 47) && decide ((47 : Byte) = 47)) = true then
      some ((nl ++ X).takeWhile (fun x => !netDelim x),
            (nl ++ X).dropWhile (fun x => !netDelim x))
    else none) = some (nl, X)
  rw [if_pos (by decide)]
  have ht : (nl ++ X).takeWhile (fun x => !netDelim x) = nl := by
    rw [takeWhile_append_of_allB (fun b hb => by simp [hnd b hb]) X]
    rcases hX with rfl | ⟨x, xs, rfl, hx⟩
    · simp
    · simp [List.takeWhile_cons, hx]
  have hd : (nl ++ X).dropWhile (fun x => !netDelim x) = X := by
    rw [dropWhile_append_of_allB (fun b hb => by simp [hnd b hb]) X]
    rcases hX with rfl | ⟨x, xs, rfl, hx⟩
    · simp
    · simp [List.dropWhile_cons, hx]
  rw [ht, hd]

theorem splitNetloc_inv {s nl r : BStr} (h : splitNetloc s = some (nl, r)) :
    s = 47 :: 47 :: (nl ++ r) ∧ (∀ b ∈ nl, netDelim b = false) ∧
      (r = [] ∨ ∃ x xs, r = x :: xs ∧ netDelim x = true) := by
  match s with
  | [] => simp [splitNetloc] at h
  | [a] => simp [splitNetloc] at h
  | a :: b :: t =>
    unfold splitNetloc at h
    replace h : (if (decide (a = (47 : Byte)) && decide (b = (47 : Byte))) = true then
        some (t.takeWhile (fun x => !netDelim x), t.dropWhile (fun x => !netDelim x))
      else none) = some (nl, r) := h
    by_cases hc : (decide (a = (47 : Byte)) && decide (b = (47 : Byte))) = true
    · rw [if_pos hc] at h
      obtain ⟨h1, h2⟩ := Prod.mk.injEq _ _ _ _ ▸ Option.some.inj h
      obtain ⟨ha, hb⟩ : a = 47 ∧ b = 47 := by simpa using hc
      subst ha
      subst hb
      refine ⟨?_, ?_, ?_⟩
      · rw [← h1, ← h2, List.takeWhile_append_dropWhile]
      · intro x hx
        rw [← h1] at hx
        have := List.mem_takeWhile_imp hx
        simpa using this
      · rw [← h2]
        rcases hdw : t.dropWhile (fun x => !netDelim x) with _ | ⟨x, xs⟩
        · left; rfl
        · right
          refine ⟨x, xs, rfl, ?_⟩
          have := dropWhile_head_not t hdw
          simpa using this
    · rw [if_neg hc] at h
      simp at h

theorem sf_fst_not_mem (c : Byte) (s : BStr) : c ∉ (splitAtFirst c s).1 := by
  rcases hsf : splitAtFirst c s with ⟨a, vo⟩
  cases vo with
  | none => exact fun hm => (sf_inv_none hsf).2 ((sf_inv_none hsf).1 ▸ hm)
  | some t => exact (sf_inv_some hsf).2

theorem sf_fst_sub {c x : Byte} {s : BStr} (h : x ∈ (splitAtFirst c s).1) :
    x ∈ s := by
  rcases hsf : splitAtFirst c s with ⟨a, vo⟩
  rw [hsf] at h
  cases vo with
  | none => exact (sf_inv_none hsf).1 ▸ h
  | some t =>
    rw [(sf_inv_some hsf).1]
    exact List.mem_append.mpr (Or.inl h)

theorem sf_fst_head {c : Byte} {s : BStr} {x : Byte} {xs : BStr}
    (h : (splitAtFirst c s).1 = x :: xs) : ∃ t2, s = x :: t2 := by
  rcases hsf : splitAtFirst c s with ⟨a, vo⟩
  rw [hsf] at h
  subst h
  cases vo with
  | none => exact ⟨xs, ((sf_inv_none hsf).1).symm⟩
  | some t => exact ⟨xs ++ c :: t, by rw [(sf_inv_some hsf).1]; rfl⟩

theorem splitParams_fst_sub {x : Byte} {p0 : BStr}
    (h : x ∈ (splitParams p0).1) : x ∈ p0 := by
  rcases splitParams_decomp p0 with ⟨-, he⟩ | he
  · exact he ▸ h
  · rw [he]
    exact List.mem_append.mpr (Or.inl h)

theorem splitParams_snd_sub {x : Byte} {p0 : BStr}
    (h : x ∈ (splitParams p0).2) : x ∈ p0 := by
  rcases splitParams_decomp p0 with ⟨he, -⟩ | he
  · rw [he] at h
    exact absurd h (List.not_mem_nil x)
  · rw [he]
    exact List.mem_append.mpr (Or.inr (List.mem_cons_of_mem _ h))

theorem splitParams_fst_head {x : Byte} {xs p0 : BStr}
    (h : (splitParams p0).1 = x :: xs) : ∃ t2, p0 = x :: t2 := by
  rcases splitParams_decomp p0 with ⟨-, he⟩ | he
  · exact ⟨xs, by rw [← he, h]⟩
  · have h3 : p0 = (x :: xs) ++ 59 :: (splitParams p0).2 := by
      rw [← h]
      exact he
    exact ⟨xs ++ 59 :: (splitParams p0).2, by simpa using h3⟩

theorem mem_joinAmp {x : Byte} : ∀ {parts : List BStr}, x ∈ joinAmp parts →
    x = 38 ∨ ∃ p ∈ parts, x ∈ p := by
  intro parts
  induction parts with
  | nil => intro h; simp [joinAmp] at h
  | cons a t ih =>
    cases t with
    | nil =>
      intro h
      right
      exact ⟨a, by simp, by simpa [joinAmp] using h⟩
    | cons y t2 =>
      intro h
      rw [show joinAmp (a :: y :: t2) = a ++ 38 :: joinAmp (y :: t2) from rfl] at h
      rcases List.mem_append.mp h with h1 | h2
      · right
        exact ⟨a, by simp, h1⟩
      · rcases List.mem_cons.mp h2 with rfl | h3
        · left; rfl
        · rcases ih h3 with h4 | ⟨p2, hp2, hx⟩
          · left; exact h4
          · right
            exact ⟨p2, by simp [hp2], hx⟩

theorem mem_urlencodeSeq {x : Byte} {fp : List (BStr × List BStr)}
    (h : x ∈ urlencodeSeq fp) :
    33 ≤ x.val ∧ x ≠ 58 ∧ x ≠ 63 ∧ x ≠ 35 := by
  unfold urlencodeSeq at h
  rcases mem_joinAmp h with rfl | ⟨f, hf, hx⟩
  · exact ⟨by decide, by decide, by decide, by decide⟩
  · rw [List.mem_flatten] at hf
    obtain ⟨l2, hl2, hfin⟩ := hf
    obtain ⟨kv, hkv, rfl⟩ := List.mem_map.mp hl2
    obtain ⟨v, hv, rfl⟩ := List.mem_map.mp hfin
    rcases List.mem_append.mp hx with h1 | h2
    · have := mem_quotePlus h1
      exact ⟨this.1, this.2.2.2.1, this.2.2.2.2.1, this.2.2.2.2.2⟩
    · rcases List.mem_cons.mp h2 with rfl | h3
      · exact ⟨by decide, by decide, by decide, by decide⟩
      · have := mem_quotePlus h3
        exact ⟨this.1, this.2.2.2.1, this.2.2.2.2.1, this.2.2.2.2.2⟩

end URLNorm

namespace URLNorm

set_option maxRecDepth 4000 in
theorem schemeChar_facts : ∀ b : Byte, isSchemeCharB b = true →
    32 < b.val ∧ b.val ≠ 9 ∧ b.val ≠ 10 ∧ b.val ≠ 13 := by
  decide

set_option maxRecDepth 4000 in
theorem alpha_not_slash : isAlphaB (47 : Byte) = false := by
  decide

theorem scheme_all_schemeChar {b0 : Byte} {rb : BStr}
    (hb0 : isAlphaB b0 = true) (hall : rb.all isSchemeCharB = true) :
    ∀ x ∈ lowerB (b0 :: rb), isSchemeCharB x = true := by
  intro x hx
  unfold lowerB at hx
  rw [List.map_cons] at hx
  rcases List.mem_cons.mp hx with rfl | hm
  · rw [lowerByte_schemeChar]
    exact alpha_schemeChar b0 hb0
  · obtain ⟨y, hy, rfl⟩ := List.mem_map.mp hm
    rw [lowerByte_schemeChar]
    exact List.all_eq_true.mp hall y hy

theorem splitScheme_colon_head (X : BStr) :
    splitScheme (58 :: X) = ([], 58 :: X) := by
  unfold splitScheme
  have hsf : splitAtFirst 58 ((58 : Byte) :: X) = ([], some X) := by
    have := sf_mem_split 58 [] X (List.not_mem_nil 58)
    simpa using this
  simp only [hsf]

theorem starts2Slash_ext {u1 qp : BStr} (h : starts2Slash u1 = false)
    (hq : qp = [] ∨ ∃ t2, qp = 63 :: t2) :
    starts2Slash (u1 ++ qp) = false := by
  match u1 with
  | [] =>
    rcases hq with rfl | ⟨t2, rfl⟩
    · rfl
    · cases t2 with
      | nil => rfl
      | cons a t3 => simp [starts2Slash]
  | [x] =>
    rcases hq with rfl | ⟨t2, rfl⟩
    · exact h
    · show starts2Slash (x :: 63 :: t2) = false
      simp [starts2Slash]
  | x :: y :: t => exact h

theorem splitScheme_nil_extend {w s X : BStr}
    (hw : splitScheme (w ++ s) = ([], w ++ s))
    (hX : (58 : Byte) ∉ X) :
    splitScheme (w ++ X) = ([], w ++ X) := by
  by_cases h58 : (58 : Byte) ∈ w
  · obtain ⟨pre1, post1, hdec, hnm⟩ := mem_first_decomp h58
    subst hdec
    cases pre1 with
    | nil =>
      have := splitScheme_colon_head (post1 ++ X)
      simpa using this
    | cons b0 rb =>
      have hg : (isAlphaB b0 && rb.all isSchemeCharB) = false := by
        by_contra hg2
        have hgt : (isAlphaB b0 && rb.all isSchemeCharB) = true :=
          eq_true_of_ne_false (fun hf => hg2 hf)
        obtain ⟨hb0, hall⟩ := Bool.and_eq_true_iff.mp hgt
        have hbuild := @splitScheme_build b0 rb (post1 ++ s) hb0 hall hnm
        have hw2 : splitScheme ((b0 :: rb) ++ 58 :: (post1 ++ s)) =
            ([], ((b0 :: rb) ++ 58 :: post1) ++ s) := by
          rw [show (b0 :: rb) ++ 58 :: (post1 ++ s) =
            ((b0 :: rb) ++ 58 :: post1) ++ s from by simp]
          exact hw
        rw [hbuild] at hw2
        have : lowerB (b0 :: rb) = [] := (Prod.mk.injEq _ _ _ _ ▸ hw2).1
        simp [lowerB] at this
      have := splitScheme_guard_fail hg hnm (post1 ++ X)
      rw [show (b0 :: rb) ++ 58 :: (post1 ++ X) =
        ((b0 :: rb) ++ 58 :: post1) ++ X from by simp] at this
      exact this
  · refine splitScheme_no_colon ?_
    intro hm
    rcases List.mem_append.mp hm with h1 | h2
    · exact h58 h1
    · exact hX h2

theorem pyUrlparse_build {u sch rest netloc url3 : BStr}
    (hss : splitScheme (cleanUrl u) = (sch, rest))
    (hnet : (splitNetloc rest = some (netloc, url3) ∧
        ((containsB 91 netloc && !containsB 93 netloc) ||
         (containsB 93 netloc && !containsB 91 netloc)) = false ∧
        ((containsB 91 netloc && containsB 93 netloc) = true →
          bracketedHostOk (bracketHostname netloc) = true)) ∨
      (splitNetloc rest = none ∧ netloc = [] ∧ url3 = rest)) :
    pyUrlparse u = some ⟨sch, netloc,
      (if inUsesParams sch
       then splitParams (splitAtFirst 63 ((splitAtFirst 35 url3).1)).1
       else ((splitAtFirst 63 ((splitAtFirst 35 url3).1)).1, ([] : BStr))).1,
      (if inUsesParams sch
       then splitParams (splitAtFirst 63 ((splitAtFirst 35 url3).1)).1
       else ((splitAtFirst 63 ((splitAtFirst 35 url3).1)).1, ([] : BStr))).2,
      match (splitAtFirst 63 ((splitAtFirst 35 url3).1)).2 with
      | some q => q
      | none => []⟩ := by
  unfold pyUrlparse
  rcases hnet with ⟨hnl, hbr1, hbr2⟩ | ⟨hnl, hn0, hu3⟩
  · by_cases hb : (containsB 91 netloc && containsB 93 netloc) = true
    · simp only [hss, hnl, hbr1, hb, hbr2 hb]
      simp
    · simp only [hss, hnl, hbr1]
      rw [show (containsB 91 netloc && containsB 93 netloc) = false from
        Bool.eq_false_iff.mpr hb]
      simp
  · subst hn0
    subst hu3
    simp only [hss, hnl]

theorem pyUrlparse_inv {u : BStr} {p : PR} (h : pyUrlparse u = some p) :
    ∃ rest url3,
      splitScheme (cleanUrl u) = (p.scheme, rest) ∧
      ((splitNetloc rest = some (p.netloc, url3) ∧
        ((containsB 91 p.netloc && !containsB 93 p.netloc) ||
         (containsB 93 p.netloc && !containsB 91 p.netloc)) = false ∧
        ((containsB 91 p.netloc && containsB 93 p.netloc) = true →
          bracketedHostOk (bracketHostname p.netloc) = true)) ∨
       (splitNetloc rest = none ∧ p.netloc = [] ∧ url3 = rest)) ∧
      (p.path, p.params) =
        (if inUsesParams p.scheme
         then splitParams (splitAtFirst 63 ((splitAtFirst 35 url3).1)).1
         else ((splitAtFirst 63 ((splitAtFirst 35 url3).1)).1, [])) ∧
      p.query = (match (splitAtFirst 63 ((splitAtFirst 35 url3).1)).2 with
        | some q => q | none => []) := by
  rcases hss : splitScheme (cleanUrl u) with ⟨sch, rest⟩
  rcases hnl : splitNetloc rest with _ | ⟨nl, r3⟩
  · have hb := pyUrlparse_build hss (Or.inr ⟨hnl, rfl, rfl⟩)
    rw [h] at hb
    obtain rfl := (Option.some.inj hb)
    exact ⟨rest, rest, rfl, Or.inr ⟨hnl, rfl, rfl⟩, rfl, rfl⟩
  · by_cases hbr1 : ((containsB 91 nl && !containsB 93 nl) ||
        (containsB 93 nl && !containsB 91 nl)) = true
    · exfalso
      unfold pyUrlparse at h
      simp only [hss, hnl, hbr1] at h
      simp at h
    · have hbr1f : ((containsB 91 nl && !containsB 93 nl) ||
          (containsB 93 nl && !containsB 91 nl)) = false :=
        Bool.eq_false_iff.mpr hbr1
      by_cases hb3 : (containsB 91 nl && containsB 93 nl) = true
      · by_cases hbo : bracketedHostOk (bracketHostname nl) = true
        · have hb2 := pyUrlparse_build hss (Or.inl ⟨hnl, hbr1f, fun _ => hbo⟩)
          rw [h] at hb2
          obtain rfl := (Option.some.inj hb2)
          exact ⟨rest, r3, rfl, Or.inl ⟨hnl, hbr1f, fun _ => hbo⟩, rfl, rfl⟩
        · exfalso
          unfold pyUrlparse at h
          simp only [hss, hnl, hbr1f, hb3] at h
          rw [show bracketedHostOk (bracketHostname nl) = false from
            Bool.eq_false_iff.mpr hbo] at h
          simp at h
      · have hb2 := pyUrlparse_build hss
          (Or.inl ⟨hnl, hbr1f, fun hc => absurd hc hb3⟩)
        rw [h] at hb2
        obtain rfl := (Option.some.inj hb2)
        exact ⟨rest, r3, rfl, Or.inl ⟨hnl, hbr1f, fun hc => absurd hc hb3⟩,
          rfl, rfl⟩

theorem norm_nil : normalize_product_url [] = [] := by
  unfold normalize_product_url
  rw [if_pos rfl]

theorem nq_stable (query : BStr) :
    (if filterParams (parseQs (if filterParams (parseQs query) = [] then []
         else urlencodeSeq (filterParams (parseQs query)))) = [] then []
     else urlencodeSeq (filterParams (parseQs
         (if filterParams (parseQs query) = [] then []
          else urlencodeSeq (filterParams (parseQs query)))))) =
    (if filterParams (parseQs query) = [] then []
     else urlencodeSeq (filterParams (parseQs query))) := by
  by_cases hfp : filterParams (parseQs query) = []
  · rw [hfp]
    have h0 : filterParams (parseQs ([] : BStr)) = [] := rfl
    simp [h0]
  · rw [if_neg hfp, query_stable query, if_neg hfp]

theorem normalize_fixed {v : BStr} {q : PR} (hv : v ≠ [])
    (hq : pyUrlparse v = some q)
    (hun : urlunparse q.scheme q.netloc q.path q.params
        (if filterParams (parseQs q.query) = [] then []
         else urlencodeSeq (filterParams (parseQs q.query))) = v) :
    normalize_product_url v = v := by
  unfold normalize_product_url
  rw [if_neg hv, hq]
  exact hun

end URLNorm

namespace URLNorm

set_option maxRecDepth 4000 in
theorem lowerByte_colon : ∀ x : Byte, lowerByte x = 58 → x = 58 := by
  decide

theorem starts2Slash_cons47 (u1 : BStr) :
    starts2Slash (47 :: u1) = startsSlash u1 := by
  cases u1 with
  | nil => rfl
  | cons x t => simp [starts2Slash, startsSlash]

theorem lowerB_all_schemeChar {rb : BStr} (h : rb.all isSchemeCharB = true) :
    (lowerB rb).all isSchemeCharB = true := by
  rw [List.all_eq_true] at h ⊢
  intro x hx
  obtain ⟨y, hy, rfl⟩ := List.mem_map.mp hx
  rw [lowerByte_schemeChar]
  exact h y hy

theorem lowerB_no_colon {s : BStr} (h : (58 : Byte) ∉ s) :
    (58 : Byte) ∉ lowerB s := by
  intro hm
  obtain ⟨y, hy, he⟩ := List.mem_map.mp hm
  exact h (lowerByte_colon y he ▸ hy)

theorem splitScheme_of_scheme {b0 : Byte} {rb rest : BStr}
    (hb0 : isAlphaB b0 = true) (hall : rb.all isSchemeCharB = true)
    (hnc : (58 : Byte) ∉ b0 :: rb) :
    splitScheme (lowerB (b0 :: rb) ++ 58 :: rest) = (lowerB (b0 :: rb), rest) := by
  have hcons : lowerB (b0 :: rb) = lowerByte b0 :: lowerB rb := rfl
  rw [hcons]
  rw [splitScheme_build (by rw [lowerByte_alpha]; exact hb0)
    (lowerB_all_schemeChar hall) (by rw [← hcons]; exact lowerB_no_colon hnc)]
  rw [← hcons, lowerB_idem]

end URLNorm

namespace URLNorm

theorem normalize_unparse_netloc
    {scheme netloc path params nq : BStr}
    (hsch : scheme = [] ∨ ∃ b0 rb, scheme = lowerB (b0 :: rb) ∧
       isAlphaB b0 = true ∧ rb.all isSchemeCharB = true ∧ (58 : Byte) ∉ b0 :: rb)
    (hnd : ∀ b ∈ netloc, netDelim b = false)
    (hbr1 : ((containsB 91 netloc && !containsB 93 netloc) ||
             (containsB 93 netloc && !containsB 91 netloc)) = false)
    (hbr2 : (containsB 91 netloc && containsB 93 netloc) = true →
            bracketedHostOk (bracketHostname netloc) = true)
    (hctrl : ∀ b ∈ path ++ params, b.val ≠ 9 ∧ b.val ≠ 10 ∧ b.val ≠ 13)
    (hnctrl : ∀ b ∈ netloc, b.val ≠ 9 ∧ b.val ≠ 10 ∧ b.val ≠ 13)
    (hp63 : (63 : Byte) ∉ path) (hp35 : (35 : Byte) ∉ path)
    (hr63 : (63 : Byte) ∉ params) (hr35 : (35 : Byte) ∉ params)
    (hresp : inUsesParams scheme = true →
       splitParams (if params = [] then path else path ++ 59 :: params) =
         (path, params) ∧
       splitParams (47 :: (if params = [] then path else path ++ 59 :: params)) =
         (47 :: path, params))
    (hgatef : inUsesParams scheme = false → params = [])
    (hnq : ∀ x ∈ nq, 33 ≤ x.val ∧ x ≠ 58 ∧ x ≠ 63 ∧ x ≠ 35)
    (hnqstable : (if filterParams (parseQs nq) = [] then []
        else urlencodeSeq (filterParams (parseQs nq))) = nq)
    (hD : netloc ≠ [] ∨ (scheme ≠ [] ∧ inUsesNetloc scheme = true ∧
          ¬ starts2Slash (if params = [] then path else path ++ 59 :: params)
            = true)) :
    normalize_product_url (urlunparse scheme netloc path params nq) =
      urlunparse scheme netloc path params nq := by
  obtain ⟨u1, hu1⟩ : ∃ w, (if params = [] then path else path ++ 59 :: params)
      = w := ⟨_, rfl⟩
  rw [hu1] at hresp hD
  have hu1mem : ∀ b ∈ u1, b ∈ path ∨ b = 59 ∨ b ∈ params := by
    intro b hb
    rw [← hu1] at hb
    by_cases hpr : params = []
    · rw [if_pos hpr] at hb
      exact Or.inl hb
    · rw [if_neg hpr] at hb
      rcases List.mem_append.mp hb with h1 | h2
      · exact Or.inl h1
      · rcases List.mem_cons.mp h2 with rfl | h3
        · exact Or.inr (Or.inl rfl)
        · exact Or.inr (Or.inr h3)
  have hu1ctrl : ∀ b ∈ u1, b.val ≠ 9 ∧ b.val ≠ 10 ∧ b.val ≠ 13 := by
    intro b hb
    rcases hu1mem b hb with h1 | rfl | h3
    · exact hctrl b (List.mem_append.mpr (Or.inl h1))
    · exact ⟨by decide, by decide, by decide⟩
    · exact hctrl b (List.mem_append.mpr (Or.inr h3))
  have hu163 : (63 : Byte) ∉ u1 := by
    intro hm
    rcases hu1mem 63 hm with h1 | he | h3
    · exact hp63 h1
    · exact absurd he (by decide)
    · exact hr63 h3
  have hu135 : (35 : Byte) ∉ u1 := by
    intro hm
    rcases hu1mem 35 hm with h1 | he | h3
    · exact hp35 h1
    · exact absurd he (by decide)
    · exact hr35 h3
  obtain ⟨u1x, hu1x⟩ : ∃ w,
      (if u1 ≠ [] ∧ ¬ startsSlash u1 = true then 47 :: u1 else u1) = w :=
    ⟨_, rfl⟩
  have hu1x_shape : u1x = u1 ∨ u1x = 47 :: u1 := by
    rw [← hu1x]
    by_cases hc : u1 ≠ [] ∧ ¬ startsSlash u1 = true
    · rw [if_pos hc]
      exact Or.inr rfl
    · rw [if_neg hc]
      exact Or.inl rfl
  have hu1x_head : u1x = [] ∨ ∃ t, u1x = 47 :: t := by
    rw [← hu1x]
    by_cases hne : u1 = []
    · rw [if_neg (by simp [hne])]
      exact Or.inl hne
    · by_cases hsl : startsSlash u1 = true
      · rw [if_neg (fun hc => hc.2 hsl)]
        right
        cases u1 with
        | nil => exact absurd rfl hne
        | cons x t =>
          have hx : x = 47 := by simpa [startsSlash] using hsl
          exact ⟨t, by rw [hx]⟩
      · rw [if_pos ⟨hne, hsl⟩]
        exact Or.inr ⟨u1, rfl⟩
  have hu1xmem : ∀ b ∈ u1x, b = 47 ∨ b ∈ u1 := by
    intro b hb
    rcases hu1x_shape with he | he
    · rw [he] at hb
      exact Or.inr hb
    · rw [he] at hb
      rcases List.mem_cons.mp hb with rfl | h2
      · exact Or.inl rfl
      · exact Or.inr h2
  have hu1x63 : (63 : Byte) ∉ u1x := by
    intro hm
    rcases hu1xmem 63 hm with he | h2
    · exact absurd he (by decide)
    · exact hu163 h2
  have hu1x35 : (35 : Byte) ∉ u1x := by
    intro hm
    rcases hu1xmem 35 hm with he | h2
    · exact absurd he (by decide)
    · exact hu135 h2
  obtain ⟨Q, hQ⟩ : ∃ w, (if nq = [] then ([] : BStr) else 63 :: nq) = w :=
    ⟨_, rfl⟩
  have hQ_shape : (Q = [] ∧ nq = []) ∨ (Q = 63 :: nq ∧ nq ≠ []) := by
    rw [← hQ]
    by_cases hq0 : nq = []
    · rw [if_pos hq0]
      exact Or.inl ⟨rfl, hq0⟩
    · rw [if_neg hq0]
      exact Or.inr ⟨rfl, hq0⟩
  have hQdelim : Q = [] ∨ ∃ x xs, Q = x :: xs ∧ netDelim x = true := by
    rcases hQ_shape with ⟨he, -⟩ | ⟨he, -⟩
    · exact Or.inl he
    · exact Or.inr ⟨63, nq, he, by decide⟩
  have hQmem : ∀ b ∈ Q, b = 63 ∨ b ∈ nq := by
    intro b hb
    rcases hQ_shape with ⟨he, -⟩ | ⟨he, -⟩
    · rw [he] at hb
      exact absurd hb (List.not_mem_nil b)
    · rw [he] at hb
      rcases List.mem_cons.mp hb with rfl | h2
      · exact Or.inl rfl
      · exact Or.inr h2
  have hQ35 : (35 : Byte) ∉ Q := by
    intro hm
    rcases hQmem 35 hm with he | h2
    · exact absurd he (by decide)
    · exact (hnq 35 h2).2.2.2 rfl
  have hv : urlunparse scheme netloc path params nq =
      (if scheme = [] then ([] : BStr) else scheme ++ [58]) ++
        47 :: 47 :: ((netloc ++ u1x) ++ Q) := by
    simp only [urlunparse]
    rw [hu1, if_pos hD, hu1x, ← hQ]
    by_cases hs0 : scheme = [] <;> by_cases hq0 : nq = [] <;>
      simp [hs0, hq0, List.append_assoc]
  rw [hv]
  have hvne : (if scheme = [] then ([] : BStr) else scheme ++ [58]) ++
      47 :: 47 :: ((netloc ++ u1x) ++ Q) ≠ [] := by
    intro he
    obtain ⟨-, h2⟩ := List.append_eq_nil.mp he
    simp at h2
  have hschemeChars : ∀ x ∈ scheme, 32 < x.val := by
    rcases hsch with rfl | ⟨b0, rb, hsch2, hb0, hall, hnc⟩
    · intro x hx
      exact absurd hx (List.not_mem_nil x)
    · intro x hx
      rw [hsch2] at hx
      exact (schemeChar_facts x (scheme_all_schemeChar hb0 hall x hx)).1
  have hclean : cleanUrl ((if scheme = [] then ([] : BStr) else scheme ++ [58]) ++
      47 :: 47 :: ((netloc ++ u1x) ++ Q)) =
      (if scheme = [] then ([] : BStr) else scheme ++ [58]) ++
        47 :: 47 :: ((netloc ++ u1x) ++ Q) := by
    refine cleanUrl_id ?_ ?_
    · intro b hb
      rcases List.mem_append.mp hb with h1 | h2
      · by_cases hs0 : scheme = []
        · rw [if_pos hs0] at h1
          exact absurd h1 (List.not_mem_nil b)
        · rw [if_neg hs0] at h1
          rcases List.mem_append.mp h1 with h3 | h4
          · have := hschemeChars b h3
            exact ⟨by omega, by omega, by omega⟩
          · have : b = 58 := by simpa using h4
            subst this
            exact ⟨by decide, by decide, by decide⟩
      · rcases List.mem_cons.mp h2 with rfl | h3
        · exact ⟨by decide, by decide, by decide⟩
        · rcases List.mem_cons.mp h3 with rfl | h4
          · exact ⟨by decide, by decide, by decide⟩
          · rcases List.mem_append.mp h4 with h5 | h6
            · rcases List.mem_append.mp h5 with h7 | h8
              · exact hnctrl b h7
              · rcases hu1xmem b h8 with rfl | h9
                · exact ⟨by decide, by decide, by decide⟩
                · exact hu1ctrl b h9
            · rcases hQmem b h6 with rfl | h7
              · exact ⟨by decide, by decide, by decide⟩
              · have := (hnq b h7).1
                exact ⟨by omega, by omega, by omega⟩
    · intro b t hbt
      by_cases hs0 : scheme = []
      · rw [if_pos hs0] at hbt
        obtain ⟨rfl, -⟩ := List.cons.inj (by simpa using hbt)
        decide
      · rw [if_neg hs0] at hbt
        cases hsc : scheme with
        | nil => exact absurd hsc hs0
        | cons s0 st =>
          rw [hsc] at hbt
          obtain ⟨heq, -⟩ := List.cons.inj (by simpa using hbt)
          rw [← heq]
          exact hschemeChars s0 (by rw [hsc]; exact List.mem_cons_self _ _)
  have hssv : splitScheme ((if scheme = [] then ([] : BStr) else scheme ++ [58]) ++
      47 :: 47 :: ((netloc ++ u1x) ++ Q)) =
      (scheme, 47 :: 47 :: ((netloc ++ u1x) ++ Q)) := by
    rcases hsch with rfl | ⟨b0, rb, hsch2, hb0, hall, hnc⟩
    · rw [if_pos rfl, List.nil_append]
      exact splitScheme_head_bad alpha_not_slash
    · rw [if_neg (by rw [hsch2]; simp [lowerB])]
      rw [show (scheme ++ [58]) ++ 47 :: 47 :: ((netloc ++ u1x) ++ Q) =
        scheme ++ 58 :: (47 :: 47 :: ((netloc ++ u1x) ++ Q)) from by simp]
      rw [hsch2]
      exact splitScheme_of_scheme hb0 hall hnc
  have hnlv : splitNetloc (47 :: 47 :: ((netloc ++ u1x) ++ Q)) =
      some (netloc, u1x ++ Q) := by
    rw [List.append_assoc]
    refine splitNetloc_build hnd ?_
    rcases hu1x_head with he | ⟨t, he⟩
    · rw [he, List.nil_append]
      exact hQdelim
    · rw [he]
      exact Or.inr ⟨47, t ++ Q, rfl, by decide⟩
  have hparse := pyUrlparse_build (by rw [hclean]; exact hssv)
    (Or.inl ⟨hnlv, hbr1, hbr2⟩)
  have h35all : (35 : Byte) ∉ u1x ++ Q := by
    intro hm
    rcases List.mem_append.mp hm with h1 | h2
    · exact hu1x35 h1
    · exact hQ35 h2
  have hurl4 : (splitAtFirst 35 (u1x ++ Q)).1 = u1x ++ Q := by
    rw [sf_not_mem 35 _ h35all]
  have hpq : splitAtFirst 63 (u1x ++ Q) =
      (u1x, if nq = [] then none else some nq) := by
    rcases hQ_shape with ⟨he, hq0⟩ | ⟨he, hq0⟩
    · rw [he, List.append_nil, if_pos hq0]
      exact sf_not_mem 63 u1x hu1x63
    · rw [he, if_neg hq0]
      exact sf_mem_split 63 u1x nq hu1x63
  have hqmatch : (match (splitAtFirst 63 (u1x ++ Q)).2 with
      | some q => q | none => []) = nq := by
    rw [hpq]
    by_cases hq0 : nq = []
    · rw [if_pos hq0, hq0]
    · rw [if_neg hq0]
  refine normalize_fixed hvne hparse ?_
  show urlunparse scheme netloc
      (if inUsesParams scheme
       then splitParams (splitAtFirst 63 ((splitAtFirst 35 (u1x ++ Q)).1)).1
       else ((splitAtFirst 63 ((splitAtFirst 35 (u1x ++ Q)).1)).1, ([] : BStr))).1
      (if inUsesParams scheme
       then splitParams (splitAtFirst 63 ((splitAtFirst 35 (u1x ++ Q)).1)).1
       else ((splitAtFirst 63 ((splitAtFirst 35 (u1x ++ Q)).1)).1, ([] : BStr))).2
      (if filterParams (parseQs (match (splitAtFirst 63
          ((splitAtFirst 35 (u1x ++ Q)).1)).2 with
        | some q => q | none => [])) = [] then []
       else urlencodeSeq (filterParams (parseQs (match (splitAtFirst 63
          ((splitAtFirst 35 (u1x ++ Q)).1)).2 with
        | some q => q | none => [])))) = _
  rw [hurl4, hqmatch, hnqstable, hpq]
  have hv2aux : u1x = 47 :: u1 →
      urlunparse scheme netloc (47 :: path) params nq =
        (if scheme = [] then ([] : BStr) else scheme ++ [58]) ++
          47 :: 47 :: ((netloc ++ u1x) ++ Q) := by
    intro he
    have hcond : u1 ≠ [] ∧ ¬ startsSlash u1 = true := by
      by_contra hc
      rw [← hu1x, if_neg hc] at he
      exact List.cons_ne_self 47 u1 he.symm
    have hu12 : (if params = [] then 47 :: path
        else (47 :: path) ++ 59 :: params) = 47 :: u1 := by
      rw [← hu1]
      by_cases hpr : params = []
      · rw [if_pos hpr, if_pos hpr]
      · rw [if_neg hpr, if_neg hpr]
        rfl
    have hD2 : netloc ≠ [] ∨ (scheme ≠ [] ∧ inUsesNetloc scheme = true ∧
        ¬ starts2Slash (47 :: u1) = true) := by
      rcases hD with h1 | ⟨h1, h2, -⟩
      · exact Or.inl h1
      · refine Or.inr ⟨h1, h2, ?_⟩
        rw [starts2Slash_cons47]
        exact hcond.2
    simp only [urlunparse]
    rw [hu12, if_pos hD2]
    rw [show (if ¬(47 : Byte) :: u1 = [] ∧ ¬ startsSlash (47 :: u1) = true
        then 47 :: 47 :: u1 else 47 :: u1) = u1x from by
      rw [if_neg (fun hc => hc.2 (by simp [startsSlash]))]
      exact he.symm]
    rw [← hQ]
    by_cases hs0 : scheme = [] <;> by_cases hq0 : nq = [] <;>
      simp [hs0, hq0, List.append_assoc]
  by_cases hgate : inUsesParams scheme = true
  · rw [if_pos hgate]
    rcases hu1x_shape with he | he
    · rw [show splitParams u1x = (path, params) from by
        rw [he]; exact (hresp hgate).1]
      exact hv
    · rw [show splitParams u1x = (47 :: path, params) from by
        rw [he]; exact (hresp hgate).2]
      exact hv2aux he
  · rw [if_neg hgate]
    have hpr : params = [] := hgatef (Bool.eq_false_iff.mpr hgate)
    have hpath_u1 : u1 = path := by
      rw [← hu1, if_pos hpr]
    rcases hu1x_shape with he | he
    · have htr : urlunparse scheme netloc u1x ([] : BStr) nq =
          urlunparse scheme netloc path params nq := by
        rw [he, hpath_u1, hpr]
      exact htr.trans hv
    · have htr : urlunparse scheme netloc u1x ([] : BStr) nq =
          urlunparse scheme netloc (47 :: path) params nq := by
        rw [he, hpath_u1, hpr]
      exact htr.trans (hv2aux he)

end URLNorm

namespace URLNorm

theorem normalize_unparse_plain
    {scheme path params nq : BStr}
    (hsch : scheme = [] ∨ ∃ b0 rb, scheme = lowerB (b0 :: rb) ∧
       isAlphaB b0 = true ∧ rb.all isSchemeCharB = true ∧ (58 : Byte) ∉ b0 :: rb)
    (hctrl : ∀ b ∈ path ++ params, b.val ≠ 9 ∧ b.val ≠ 10 ∧ b.val ≠ 13)
    (hp63 : (63 : Byte) ∉ path) (hp35 : (35 : Byte) ∉ path)
    (hr63 : (63 : Byte) ∉ params) (hr35 : (35 : Byte) ∉ params)
    (hresp : inUsesParams scheme = true →
       splitParams (if params = [] then path else path ++ 59 :: params) =
         (path, params))
    (hgatef : inUsesParams scheme = false → params = [])
    (hnq : ∀ x ∈ nq, 33 ≤ x.val ∧ x ≠ 58 ∧ x ≠ 63 ∧ x ≠ 35)
    (hnqstable : (if filterParams (parseQs nq) = [] then []
        else urlencodeSeq (filterParams (parseQs nq))) = nq)
    (hnoD : ¬(scheme ≠ [] ∧ inUsesNetloc scheme = true ∧
          ¬ starts2Slash (if params = [] then path else path ++ 59 :: params)
            = true))
    (hs2S : starts2Slash (if params = [] then path else path ++ 59 :: params)
        = false)
    (hschfree : scheme = [] → ∀ X, (58 : Byte) ∉ X →
       splitScheme ((if params = [] then path else path ++ 59 :: params) ++ X) =
         ([], (if params = [] then path else path ++ 59 :: params) ++ X))
    (hu1head : scheme = [] → ∀ b t,
       (if params = [] then path else path ++ 59 :: params) = b :: t →
       32 < b.val) :
    normalize_product_url (urlunparse scheme [] path params nq) =
      urlunparse scheme [] path params nq := by
  obtain ⟨u1, hu1⟩ : ∃ w, (if params = [] then path else path ++ 59 :: params)
      = w := ⟨_, rfl⟩
  rw [hu1] at hresp hnoD hs2S hschfree hu1head
  have hu1mem : ∀ b ∈ u1, b ∈ path ∨ b = 59 ∨ b ∈ params := by
    intro b hb
    rw [← hu1] at hb
    by_cases hpr : params = []
    · rw [if_pos hpr] at hb
      exact Or.inl hb
    · rw [if_neg hpr] at hb
      rcases List.mem_append.mp hb with h1 | h2
      · exact Or.inl h1
      · rcases List.mem_cons.mp h2 with rfl | h3
        · exact Or.inr (Or.inl rfl)
        · exact Or.inr (Or.inr h3)
  have hu1ctrl : ∀ b ∈ u1, b.val ≠ 9 ∧ b.val ≠ 10 ∧ b.val ≠ 13 := by
    intro b hb
    rcases hu1mem b hb with h1 | rfl | h3
    · exact hctrl b (List.mem_append.mpr (Or.inl h1))
    · exact ⟨by decide, by decide, by decide⟩
    · exact hctrl b (List.mem_append.mpr (Or.inr h3))
  have hu163 : (63 : Byte) ∉ u1 := by
    intro hm
    rcases hu1mem 63 hm with h1 | he | h3
    · exact hp63 h1
    · exact absurd he (by decide)
    · exact hr63 h3
  have hu135 : (35 : Byte) ∉ u1 := by
    intro hm
    rcases hu1mem 35 hm with h1 | he | h3
    · exact hp35 h1
    · exact absurd he (by decide)
    · exact hr35 h3
  obtain ⟨Q, hQ⟩ : ∃ w, (if nq = [] then ([] : BStr) else 63 :: nq) = w :=
    ⟨_, rfl⟩
  have hQ_shape : (Q = [] ∧ nq = []) ∨ (Q = 63 :: nq ∧ nq ≠ []) := by
    rw [← hQ]
    by_cases hq0 : nq = []
    · rw [if_pos hq0]
      exact Or.inl ⟨rfl, hq0⟩
    · rw [if_neg hq0]
      exact Or.inr ⟨rfl, hq0⟩
  have hQmem : ∀ b ∈ Q, b = 63 ∨ b ∈ nq := by
    intro b hb
    rcases hQ_shape with ⟨he, -⟩ | ⟨he, -⟩
    · rw [he] at hb
      exact absurd hb (List.not_mem_nil b)
    · rw [he] at hb
      rcases List.mem_cons.mp hb with rfl | h2
      · exact Or.inl rfl
      · exact Or.inr h2
  have hQ35 : (35 : Byte) ∉ Q := by
    intro hm
    rcases hQmem 35 hm with he | h2
    · exact absurd he (by decide)
    · exact (hnq 35 h2).2.2.2 rfl
  have hQ58 : (58 : Byte) ∉ Q := by
    intro hm
    rcases hQmem 58 hm with he | h2
    · exact absurd he (by decide)
    · exact (hnq 58 h2).2.1 rfl
  have hQ63h : Q = [] ∨ ∃ t2, Q = 63 :: t2 := by
    rcases hQ_shape with ⟨he, -⟩ | ⟨he, -⟩
    · exact Or.inl he
    · exact Or.inr ⟨nq, he⟩
  have hv : urlunparse scheme [] path params nq =
      (if scheme = [] then ([] : BStr) else scheme ++ [58]) ++ (u1 ++ Q) := by
    simp only [urlunparse]
    have hcond : ¬(([] : BStr) ≠ [] ∨ (scheme ≠ [] ∧
        inUsesNetloc scheme = true ∧
        ¬ starts2Slash (if params = [] then path else path ++ 59 :: params)
          = true)) := by
      rw [hu1]
      exact fun h => h.elim (fun c => c rfl) hnoD
    rw [if_neg hcond, hu1, ← hQ]
    by_cases hs0 : scheme = [] <;> by_cases hq0 : nq = [] <;>
      simp [hs0, hq0, List.append_assoc]
  rw [hv]
  by_cases hvnil : (if scheme = [] then ([] : BStr) else scheme ++ [58]) ++
      (u1 ++ Q) = []
  · rw [hvnil]
    exact norm_nil
  have hschemeChars : ∀ x ∈ scheme, 32 < x.val := by
    rcases hsch with rfl | ⟨b0, rb, hsch2, hb0, hall, hnc⟩
    · intro x hx
      exact absurd hx (List.not_mem_nil x)
    · intro x hx
      rw [hsch2] at hx
      exact (schemeChar_facts x (scheme_all_schemeChar hb0 hall x hx)).1
  have hclean : cleanUrl ((if scheme = [] then ([] : BStr) else scheme ++ [58]) ++
      (u1 ++ Q)) =
      (if scheme = [] then ([] : BStr) else scheme ++ [58]) ++ (u1 ++ Q) := by
    refine cleanUrl_id ?_ ?_
    · intro b hb
      rcases List.mem_append.mp hb with h1 | h2
      · by_cases hs0 : scheme = []
        · rw [if_pos hs0] at h1
          exact absurd h1 (List.not_mem_nil b)
        · rw [if_neg hs0] at h1
          rcases List.mem_append.mp h1 with h3 | h4
          · have := hschemeChars b h3
            exact ⟨by omega, by omega, by omega⟩
          · have : b = 58 := by simpa using h4
            subst this
            exact ⟨by decide, by decide, by decide⟩
      · rcases List.mem_append.mp h2 with h3 | h4
        · exact hu1ctrl b h3
        · rcases hQmem b h4 with rfl | h5
          · exact ⟨by decide, by decide, by decide⟩
          · have := (hnq b h5).1
            exact ⟨by omega, by omega, by omega⟩
    · intro b t hbt
      by_cases hs0 : scheme = []
      · rw [if_pos hs0, List.nil_append] at hbt
        cases hu1c : u1 with
        | nil =>
          rw [hu1c, List.nil_append] at hbt
          rcases hQ_shape with ⟨he, -⟩ | ⟨he, -⟩
          · rw [he] at hbt
            simp at hbt
          · rw [he] at hbt
            obtain ⟨rfl, -⟩ := List.cons.inj hbt
            decide
        | cons x xs =>
          rw [hu1c, List.cons_append] at hbt
          obtain ⟨heq, -⟩ := List.cons.inj hbt
          rw [← heq]
          exact hu1head hs0 x xs hu1c
      · rw [if_neg hs0] at hbt
        cases hsc : scheme with
        | nil => exact absurd hsc hs0
        | cons s0 st =>
          rw [hsc] at hbt
          obtain ⟨heq, -⟩ := List.cons.inj (by simpa using hbt)
          rw [← heq]
          exact hschemeChars s0 (by rw [hsc]; exact List.mem_cons_self _ _)
  have hssv : splitScheme ((if scheme = [] then ([] : BStr) else scheme ++ [58])
      ++ (u1 ++ Q)) = (scheme, u1 ++ Q) := by
    rcases hsch with rfl | ⟨b0, rb, hsch2, hb0, hall, hnc⟩
    · rw [if_pos rfl, List.nil_append]
      exact hschfree rfl Q hQ58
    · rw [if_neg (by rw [hsch2]; simp [lowerB])]
      rw [show (scheme ++ [58]) ++ (u1 ++ Q) =
        scheme ++ 58 :: (u1 ++ Q) from by simp]
      rw [hsch2]
      exact splitScheme_of_scheme hb0 hall hnc
  have hnl : splitNetloc (u1 ++ Q) = none :=
    splitNetloc_not2slash (starts2Slash_ext hs2S hQ63h)
  have hparse := pyUrlparse_build (by rw [hclean]; exact hssv)
    (Or.inr ⟨hnl, rfl, rfl⟩)
  have h35all : (35 : Byte) ∉ u1 ++ Q := by
    intro hm
    rcases List.mem_append.mp hm with h1 | h2
    · exact hu135 h1
    · exact hQ35 h2
  have hurl4 : (splitAtFirst 35 (u1 ++ Q)).1 = u1 ++ Q := by
    rw [sf_not_mem 35 _ h35all]
  have hpq : splitAtFirst 63 (u1 ++ Q) =
      (u1, if nq = [] then none else some nq) := by
    rcases hQ_shape with ⟨he, hq0⟩ | ⟨he, hq0⟩
    · rw [he, List.append_nil, if_pos hq0]
      exact sf_not_mem 63 u1 hu163
    · rw [he, if_neg hq0]
      exact sf_mem_split 63 u1 nq hu163
  have hqmatch : (match (splitAtFirst 63 (u1 ++ Q)).2 with
      | some q => q | none => []) = nq := by
    rw [hpq]
    by_cases hq0 : nq = []
    · rw [if_pos hq0, hq0]
    · rw [if_neg hq0]
  refine normalize_fixed hvnil hparse ?_
  show urlunparse scheme ([] : BStr)
      (if inUsesParams scheme
       then splitParams (splitAtFirst 63 ((splitAtFirst 35 (u1 ++ Q)).1)).1
       else ((splitAtFirst 63 ((splitAtFirst 35 (u1 ++ Q)).1)).1, ([] : BStr))).1
      (if inUsesParams scheme
       then splitParams (splitAtFirst 63 ((splitAtFirst 35 (u1 ++ Q)).1)).1
       else ((splitAtFirst 63 ((splitAtFirst 35 (u1 ++ Q)).1)).1, ([] : BStr))).2
      (if filterParams (parseQs (match (splitAtFirst 63
          ((splitAtFirst 35 (u1 ++ Q)).1)).2 with
        | some q => q | none => [])) = [] then []
       else urlencodeSeq (filterParams (parseQs (match (splitAtFirst 63
          ((splitAtFirst 35 (u1 ++ Q)).1)).2 with
        | some q => q | none => [])))) = _
  rw [hurl4, hqmatch, hnqstable, hpq]
  by_cases hgate : inUsesParams scheme = true
  · rw [if_pos hgate]
    rw [show splitParams (u1, if nq = [] then none else some nq).1 =
      (path, params) from hresp hgate]
    exact hv
  · rw [if_neg hgate]
    have hpr : params = [] := hgatef (Bool.eq_false_iff.mpr hgate)
    have hpath_u1 : u1 = path := by
      rw [← hu1, if_pos hpr]
    have htr : urlunparse scheme ([] : BStr) u1 ([] : BStr) nq =
        urlunparse scheme ([] : BStr) path params nq := by
      rw [hpath_u1, hpr]
    exact htr.trans hv

end URLNorm

namespace URLNorm

theorem sf_fst_prefix (c : Byte) (s : BStr) :
    ∃ S2, s = (splitAtFirst c s).1 ++ S2 := by
  rcases hsf : splitAtFirst c s with ⟨a, vo⟩
  cases vo with
  | none =>
    refine ⟨[], ?_⟩
    rw [List.append_nil]
    exact ((sf_inv_none hsf).1).symm
  | some t => exact ⟨c :: t, (sf_inv_some hsf).1⟩

theorem starts2Slash_params {path params : BStr}
    (h : starts2Slash path = false) :
    starts2Slash (if params = [] then path else path ++ 59 :: params)
      = false := by
  by_cases hpr : params = []
  · rw [if_pos hpr]
    exact h
  · rw [if_neg hpr]
    match path, h with
    | [], h =>
      show starts2Slash ((59 : Byte) :: params) = false
      cases params with
      | nil => rfl
      | cons q qs =>
        show (decide ((59 : Byte) = 47) && decide (q = (47 : Byte))) = false
        rw [show (decide ((59 : Byte) = (47 : Byte))) = false from by decide,
          Bool.false_and]
    | [x], h =>
      show (decide (x = (47 : Byte)) && decide ((59 : Byte) = 47)) = false
      rw [show (decide ((59 : Byte) = (47 : Byte))) = false from by decide,
        Bool.and_false]
    | x :: y :: t, h =>
      show (decide (x = (47 : Byte)) && decide (y = (47 : Byte))) = false
      exact h

set_option maxRecDepth 4000 in
theorem netDelim_47 : ∀ b : Byte,
    netDelim b = true → b ≠ 63 → b ≠ 35 → b = 47 := by
  decide

end URLNorm

namespace URLNorm

theorem normalize_idem {u : BStr} {p : PR} (hp : pyUrlparse u = some p)
    (hre : p.netloc ≠ [] ∨ starts2Slash p.path = false) :
    normalize_product_url (normalize_product_url u) =
      normalize_product_url u := by
  by_cases hu0 : u = []
  · rw [hu0, norm_nil]
    exact norm_nil
  obtain ⟨nq, hnqd⟩ : ∃ w, (if filterParams (parseQs p.query) = []
      then ([] : BStr)
      else urlencodeSeq (filterParams (parseQs p.query))) = w := ⟨_, rfl⟩
  have hnorm : normalize_product_url u =
      urlunparse p.scheme p.netloc p.path p.params nq := by
    unfold normalize_product_url
    rw [if_neg hu0, hp]
    exact congrArg (urlunparse p.scheme p.netloc p.path p.params) hnqd
  rw [hnorm]
  obtain ⟨rest, url3, hss, hnetOr, hpp, -⟩ := pyUrlparse_inv hp
  obtain ⟨url4, hurl4⟩ : ∃ w, (splitAtFirst 35 url3).1 = w := ⟨_, rfl⟩
  obtain ⟨pq1, hpq1d⟩ : ∃ w, (splitAtFirst 63 url4).1 = w := ⟨_, rfl⟩
  rw [hurl4] at hpp
  rw [hpq1d] at hpp
  have h63pq : (63 : Byte) ∉ pq1 := by
    rw [← hpq1d]
    exact sf_fst_not_mem 63 url4
  have h35u4 : (35 : Byte) ∉ url4 := by
    rw [← hurl4]
    exact sf_fst_not_mem 35 url3
  have hpqsub : ∀ x ∈ pq1, x ∈ url4 := by
    intro x hx
    rw [← hpq1d] at hx
    exact sf_fst_sub hx
  have hu4sub : ∀ x ∈ url4, x ∈ url3 := by
    intro x hx
    rw [← hurl4] at hx
    exact sf_fst_sub hx
  have hu3sub : ∀ x ∈ url3, x ∈ rest := by
    rcases hnetOr with ⟨hnl, -, -⟩ | ⟨-, -, hu3⟩
    · obtain ⟨hdec, -, -⟩ := splitNetloc_inv hnl
      intro x hx
      rw [hdec]
      exact List.mem_cons_of_mem _ (List.mem_cons_of_mem _
        (List.mem_append.mpr (Or.inr hx)))
    · intro x hx
      rw [← hu3]
      exact hx
  have hrestsub : ∀ x ∈ rest, x ∈ cleanUrl u := by
    by_cases hs0 : p.scheme = []
    · rw [hs0] at hss
      intro x hx
      rw [← splitScheme_nil_inv hss]
      exact hx
    · obtain ⟨b0, rb, -, -, -, -, hdec⟩ := splitScheme_inv hss hs0
      intro x hx
      rw [hdec]
      exact List.mem_append.mpr (Or.inr (List.mem_cons_of_mem _ hx))
  have hmemC : ∀ x ∈ pq1, x ∈ cleanUrl u := fun x hx =>
    hrestsub x (hu3sub x (hu4sub x (hpqsub x hx)))
  have hcase : (inUsesParams p.scheme = true ∧
        p.path = (splitParams pq1).1 ∧ p.params = (splitParams pq1).2) ∨
      (inUsesParams p.scheme = false ∧ p.path = pq1 ∧ p.params = []) := by
    by_cases hgate : inUsesParams p.scheme = true
    · rw [if_pos hgate] at hpp
      exact Or.inl ⟨hgate, congrArg Prod.fst hpp, congrArg Prod.snd hpp⟩
    · rw [if_neg hgate] at hpp
      exact Or.inr ⟨Bool.eq_false_iff.mpr hgate, congrArg Prod.fst hpp,
        congrArg Prod.snd hpp⟩
  have hpathmem : ∀ x ∈ p.path, x ∈ pq1 := by
    rcases hcase with ⟨-, hpa, -⟩ | ⟨-, hpa, -⟩
    · intro x hx
      rw [hpa] at hx
      exact splitParams_fst_sub hx
    · intro x hx
      rw [hpa] at hx
      exact hx
  have hparamsmem : ∀ x ∈ p.params, x ∈ pq1 := by
    rcases hcase with ⟨-, -, hpb⟩ | ⟨-, -, hpb⟩
    · intro x hx
      rw [hpb] at hx
      exact splitParams_snd_sub hx
    · intro x hx
      rw [hpb] at hx
      exact absurd hx (List.not_mem_nil x)
  have hp63 : (63 : Byte) ∉ p.path := fun hm => h63pq (hpathmem 63 hm)
  have hr63 : (63 : Byte) ∉ p.params := fun hm => h63pq (hparamsmem 63 hm)
  have hp35 : (35 : Byte) ∉ p.path :=
    fun hm => h35u4 (hpqsub 35 (hpathmem 35 hm))
  have hr35 : (35 : Byte) ∉ p.params :=
    fun hm => h35u4 (hpqsub 35 (hparamsmem 35 hm))
  have hctrl : ∀ b ∈ p.path ++ p.params,
      b.val ≠ 9 ∧ b.val ≠ 10 ∧ b.val ≠ 13 := by
    intro b hb
    rcases List.mem_append.mp hb with h1 | h2
    · exact cleanUrl_no_ctrl b (hmemC b (hpathmem b h1))
    · exact cleanUrl_no_ctrl b (hmemC b (hparamsmem b h2))
  have hsch : p.scheme = [] ∨ ∃ b0 rb, p.scheme = lowerB (b0 :: rb) ∧
      isAlphaB b0 = true ∧ rb.all isSchemeCharB = true ∧
      (58 : Byte) ∉ b0 :: rb := by
    by_cases hs0 : p.scheme = []
    · exact Or.inl hs0
    · obtain ⟨b0, rb, h1, hb0, hall, hnm, -⟩ := splitScheme_inv hss hs0
      exact Or.inr ⟨b0, rb, h1, hb0, hall, hnm⟩
  have hnd : ∀ b ∈ p.netloc, netDelim b = false := by
    rcases hnetOr with ⟨hnl, -, -⟩ | ⟨-, hn0, -⟩
    · exact (splitNetloc_inv hnl).2.1
    · rw [hn0]
      intro b hb
      exact absurd hb (List.not_mem_nil b)
  have hbr1 : ((containsB 91 p.netloc && !containsB 93 p.netloc) ||
      (containsB 93 p.netloc && !containsB 91 p.netloc)) = false := by
    rcases hnetOr with ⟨-, hb1, -⟩ | ⟨-, hn0, -⟩
    · exact hb1
    · rw [hn0]
      decide
  have hbr2 : (containsB 91 p.netloc && containsB 93 p.netloc) = true →
      bracketedHostOk (bracketHostname p.netloc) = true := by
    rcases hnetOr with ⟨-, -, hb2⟩ | ⟨-, hn0, -⟩
    · exact hb2
    · rw [hn0]
      intro hc
      exact absurd hc (by decide)
  have hnctrl : ∀ b ∈ p.netloc, b.val ≠ 9 ∧ b.val ≠ 10 ∧ b.val ≠ 13 := by
    rcases hnetOr with ⟨hnl, -, -⟩ | ⟨-, hn0, -⟩
    · obtain ⟨hdec, -, -⟩ := splitNetloc_inv hnl
      intro b hb
      refine cleanUrl_no_ctrl b (hrestsub b ?_)
      rw [hdec]
      exact List.mem_cons_of_mem _ (List.mem_cons_of_mem _
        (List.mem_append.mpr (Or.inl hb)))
    · rw [hn0]
      intro b hb
      exact absurd hb (List.not_mem_nil b)
  have hresp : inUsesParams p.scheme = true →
      splitParams (if p.params = [] then p.path
        else p.path ++ 59 :: p.params) = (p.path, p.params) ∧
      splitParams (47 :: (if p.params = [] then p.path
        else p.path ++ 59 :: p.params)) = (47 :: p.path, p.params) := by
    intro hg
    rcases hcase with ⟨-, hpa, hpb⟩ | ⟨hgf, -, -⟩
    · rw [hpa, hpb]
      exact ⟨(splitParams_resplit pq1).1, (splitParams_resplit pq1).2⟩
    · rw [hgf] at hg
      exact absurd hg (by decide)
  have hgatef : inUsesParams p.scheme = false → p.params = [] := by
    intro hg
    rcases hcase with ⟨hgt, -, -⟩ | ⟨-, -, hpb⟩
    · rw [hgt] at hg
      exact absurd hg (by decide)
    · exact hpb
  have hnq : ∀ x ∈ nq, 33 ≤ x.val ∧ x ≠ 58 ∧ x ≠ 63 ∧ x ≠ 35 := by
    intro x hx
    rw [← hnqd] at hx
    by_cases hfp : filterParams (parseQs p.query) = []
    · rw [if_pos hfp] at hx
      exact absurd hx (List.not_mem_nil x)
    · rw [if_neg hfp] at hx
      exact mem_urlencodeSeq hx
  have hnqstable : (if filterParams (parseQs nq) = [] then []
      else urlencodeSeq (filterParams (parseQs nq))) = nq := by
    have h := nq_stable p.query
    rw [hnqd] at h
    exact h
  have hu1pre : ∃ S2, pq1 =
      (if p.params = [] then p.path else p.path ++ 59 :: p.params) ++ S2 := by
    rcases hcase with ⟨-, hpa, hpb⟩ | ⟨-, hpa, hpb⟩
    · rcases splitParams_decomp pq1 with ⟨h2, h1⟩ | hdec
      · have hpr : p.params = [] := by
          rw [hpb, h2]
        refine ⟨[], ?_⟩
        rw [if_pos hpr, List.append_nil, hpa, h1]
      · by_cases hpr : p.params = []
        · refine ⟨[(59 : Byte)], ?_⟩
          rw [if_pos hpr, hdec, ← hpa, ← hpb, hpr]
        · refine ⟨[], ?_⟩
          rw [if_neg hpr, List.append_nil, hdec, ← hpa, ← hpb]
    · refine ⟨[], ?_⟩
      rw [if_pos hpb, List.append_nil, hpa]
  have hu13pre : ∃ S3, url3 =
      (if p.params = [] then p.path else p.path ++ 59 :: p.params) ++ S3 := by
    obtain ⟨S2, h2⟩ := hu1pre
    obtain ⟨S4, h4⟩ := sf_fst_prefix 63 url4
    obtain ⟨S5, h5⟩ := sf_fst_prefix 35 url3
    rw [hpq1d] at h4
    rw [hurl4] at h5
    refine ⟨(S2 ++ S4) ++ S5, ?_⟩
    rw [h5, h4, h2]
    simp [List.append_assoc]
  have hheadchain : ∀ b t,
      (if p.params = [] then p.path else p.path ++ 59 :: p.params) = b :: t →
      (∃ t2, pq1 = b :: t2) ∧ (∃ t4, url3 = b :: t4) := by
    intro b t he
    obtain ⟨S2, h2⟩ := hu1pre
    have hpq : ∃ t2, pq1 = b :: t2 := ⟨t ++ S2, by rw [h2, he]; rfl⟩
    obtain ⟨t2, hpq⟩ := hpq
    obtain ⟨t3, h3⟩ := sf_fst_head
      (show (splitAtFirst 63 url4).1 = b :: t2 from by rw [hpq1d]; exact hpq)
    obtain ⟨t4, h4⟩ := sf_fst_head
      (show (splitAtFirst 35 url3).1 = b :: t3 from by rw [hurl4]; exact h3)
    exact ⟨⟨t2, hpq⟩, ⟨t4, h4⟩⟩
  by_cases hD : p.netloc ≠ [] ∨ (p.scheme ≠ [] ∧ inUsesNetloc p.scheme = true ∧
      ¬ starts2Slash (if p.params = [] then p.path
        else p.path ++ 59 :: p.params) = true)
  · exact normalize_unparse_netloc hsch hnd hbr1 hbr2 hctrl hnctrl hp63 hp35
      hr63 hr35 hresp hgatef hnq hnqstable hD
  · have hn0 : p.netloc = [] := by
      by_contra hne
      exact hD (Or.inl hne)
    have hs2path : starts2Slash p.path = false := by
      rcases hre with hne | h2s
      · exact absurd hn0 hne
      · exact h2s
    have hs2S : starts2Slash (if p.params = [] then p.path
        else p.path ++ 59 :: p.params) = false := starts2Slash_params hs2path
    have hnoD : ¬(p.scheme ≠ [] ∧ inUsesNetloc p.scheme = true ∧
        ¬ starts2Slash (if p.params = [] then p.path
          else p.path ++ 59 :: p.params) = true) :=
      fun hb => hD (Or.inr hb)
    have hu1head : p.scheme = [] → ∀ b t,
        (if p.params = [] then p.path else p.path ++ 59 :: p.params) =
          b :: t → 32 < b.val := by
      intro hs0 b t he
      obtain ⟨⟨t2, hpq⟩, ⟨t4, h4⟩⟩ := hheadchain b t he
      have hbmem : b ∈ pq1 := by
        rw [hpq]
        exact List.mem_cons_self b t2
      have hb63 : b ≠ 63 := fun hb => h63pq (hb ▸ hbmem)
      have hb35 : b ≠ 35 := fun hb => h35u4 (hb ▸ hpqsub b hbmem)
      rcases hnetOr with ⟨hnl, -, -⟩ | ⟨-, -, hu3⟩
      · obtain ⟨-, -, hrOr⟩ := splitNetloc_inv hnl
        rcases hrOr with hrnil | ⟨x, xs, hxeq, hxdel⟩
        · rw [hrnil] at h4
          exact absurd h4 (by simp)
        · rw [hxeq] at h4
          obtain ⟨hbx, -⟩ := List.cons.inj h4
          have hbdel : netDelim b = true := by
            rw [← hbx]
            exact hxdel
          have hb47 : b = 47 := netDelim_47 b hbdel hb63 hb35
          rw [hb47]
          decide
      · rw [hs0] at hss
        have hru := splitScheme_nil_inv hss
        have hcu : cleanUrl u = b :: t4 := by
          rw [← hru, ← hu3]
          exact h4
        exact cleanUrl_head hcu
    have hschfree : p.scheme = [] → ∀ X, (58 : Byte) ∉ X →
        splitScheme ((if p.params = [] then p.path
          else p.path ++ 59 :: p.params) ++ X) =
        ([], (if p.params = [] then p.path
          else p.path ++ 59 :: p.params) ++ X) := by
      intro hs0 X hX
      rcases hnetOr with ⟨hnl, -, -⟩ | ⟨-, -, hu3⟩
      · rcases hsh : (if p.params = [] then p.path
            else p.path ++ 59 :: p.params) with _ | ⟨b, t⟩
        · rw [List.nil_append]
          exact splitScheme_no_colon hX
        · obtain ⟨⟨t2, hpq⟩, ⟨t4, h4⟩⟩ := hheadchain b t hsh
          have hbmem : b ∈ pq1 := by
            rw [hpq]
            exact List.mem_cons_self b t2
          have hb63 : b ≠ 63 := fun hb => h63pq (hb ▸ hbmem)
          have hb35 : b ≠ 35 := fun hb => h35u4 (hb ▸ hpqsub b hbmem)
          obtain ⟨-, -, hrOr⟩ := splitNetloc_inv hnl
          rcases hrOr with hrnil | ⟨x, xs, hxeq, hxdel⟩
          · rw [hrnil] at h4
            exact absurd h4 (by simp)
          · rw [hxeq] at h4
            obtain ⟨hbx, -⟩ := List.cons.inj h4
            have hbdel : netDelim b = true := by
              rw [← hbx]
              exact hxdel
            have hb47 : b = 47 := netDelim_47 b hbdel hb63 hb35
            rw [hb47, List.cons_append]
            exact splitScheme_head_bad alpha_not_slash
      · rw [hs0] at hss
        have hru := splitScheme_nil_inv hss
        have hcu3 : cleanUrl u = url3 := by
          rw [← hru, hu3]
        obtain ⟨S3, h3⟩ := hu13pre
        have hw0 := hss
        rw [hru, hcu3, h3] at hw0
        exact splitScheme_nil_extend hw0 hX
    rw [hn0]
    exact normalize_unparse_plain hsch hctrl hp63 hp35 hr63 hr35
      (fun hg => (hresp hg).1) hgatef hnq hnqstable hnoD hs2S hschfree hu1head

end URLNorm

namespace URLNorm

set_option maxRecDepth 8000 in
/-- C3 counterexample. (a) Idempotence fails in general: for
`u = "/////x"` one pass of `normalize_product_url` yields `"///x"` and a
second pass yields `"/x"` (each pass through `urlparse`/`urlunparse`
swallows one leading `//` into an empty netloc that `urlunparse` does not
re-emit). (b) The normalizer does not strip *only* the excluded
parameters: `"https://x.com/p?a=&b=1"` normalizes to
`"https://x.com/p?b=1"`, dropping parameter `a` although `a` is not in
`params_to_remove` (`keepParam (bs "a") = true`) — `parse_qs` discards
empty-valued parameters. -/
theorem c3_counterexample :
    normalize_product_url (normalize_product_url (bs "/////x")) ≠
      normalize_product_url (bs "/////x") ∧
    normalize_product_url (bs "https://x.com/p?a=&b=1") =
      bs "https://x.com/p?b=1" ∧
    keepParam (bs "a") = true := by
  refine ⟨by decide, by decide, by decide⟩

/-- C3 (amended): `normalize_product_url` is idempotent on every URL whose
parse succeeds and yields a nonempty netloc or a path not beginning with
`//` (first conjunct); and any two nonempty URLs whose parses agree on
scheme, netloc, path and params and whose query strings filter to the same
parameter dictionary — in particular two URLs differing only in excluded
or empty-valued query parameters or the fragment — normalize to the
identical string (second conjunct). -/
theorem c3_url_normalization :
    (∀ (u : BStr) (p : PR), pyUrlparse u = some p →
       (p.netloc ≠ [] ∨ starts2Slash p.path = false) →
       normalize_product_url (normalize_product_url u) =
         normalize_product_url u) ∧
    (∀ (u v : BStr) (pu pv : PR), u ≠ [] → v ≠ [] →
       pyUrlparse u = some pu → pyUrlparse v = some pv →
       pu.scheme = pv.scheme → pu.netloc = pv.netloc → pu.path = pv.path →
       pu.params = pv.params →
       filterParams (parseQs pu.query) = filterParams (parseQs pv.query) →
       normalize_product_url u = normalize_product_url v) := by
  constructor
  · intro u p hp hre
    exact normalize_idem hp hre
  · intro u v pu pv hu0 hv0 hpu hpv h1 h2 h3 h4 h5
    unfold normalize_product_url
    rw [if_neg hu0, if_neg hv0, hpu, hpv]
    show urlunparse pu.scheme pu.netloc pu.path pu.params
        (if filterParams (parseQs pu.query) = [] then []
         else urlencodeSeq (filterParams (parseQs pu.query))) =
      urlunparse pv.scheme pv.netloc pv.path pv.params
        (if filterParams (parseQs pv.query) = [] then []
         else urlencodeSeq (filterParams (parseQs pv.query)))
    rw [h1, h2, h3, h4, h5]

set_option maxRecDepth 8000 in
/-- C3 witness: the amended theorem applied at concrete URLs.
`"http://a/b?page=1&x=2"` (netloc `"a"` is nonempty) is a fixed point of a
second normalization; and it normalizes identically to
`"http://a/b?x=2"`, which differs from it only in the excluded parameter
`page`. -/
theorem c3_witness :
    normalize_product_url (normalize_product_url
        (bs "http://a/b?page=1&x=2")) =
      normalize_product_url (bs "http://a/b?page=1&x=2") ∧
    normalize_product_url (bs "http://a/b?page=1&x=2") =
      normalize_product_url (bs "http://a/b?x=2") :=
  ⟨c3_url_normalization.1 (bs "http://a/b?page=1&x=2")
      ⟨bs "http", bs "a", bs "/b", [], bs "page=1&x=2"⟩
      (by decide) (Or.inl (by decide)),
   c3_url_normalization.2 (bs "http://a/b?page=1&x=2") (bs "http://a/b?x=2")
      ⟨bs "http", bs "a", bs "/b", [], bs "page=1&x=2"⟩
      ⟨bs "http", bs "a", bs "/b", [], bs "x=2"⟩
      (by decide) (by decide) (by decide) (by decide)
      (by decide) (by decide) (by decide) (by decide) (by decide)⟩

end URLNorm
